import Mathlib

/-!
# Yet-another-bigint: a verification development for `bigint.c`

Shallow embedding of `src/bigint.c`.  A `WordType` value is a natural number
below `2 ^ w`, where `w` is `WORD_BIT_SIZE` (8, 16, 32 or 64); every C
expression that is converted to `WordType` is reduced modulo `2 ^ w`
explicitly.  A heap buffer of words is a `List Nat`, read with `getD` and
written with `set`; a freshly `malloc`ed buffer is modelled as zero-filled.
`assert` failures are the `Except.error` results of `fromStr`.
-/

namespace BigIntC

/-! ## Word-level macros and helpers -/

/-- The widths accepted by the `#if WORD_BIT_SIZE == ...` chain. -/
def ValidWidth (w : Nat) : Prop := w = 8 ∨ w = 16 ∨ w = 32 ∨ w = 64

instance (w : Nat) : Decidable (ValidWidth w) := by
  unfold ValidWidth; infer_instance

/-- Conversion of an unsigned C value to `WordType`. -/
def toWord (w n : Nat) : Nat := n % 2 ^ w

/-- Macro `HI_BIT(n)`: `n >> ((sizeof(WordType) << 3) - 1)`. -/
def HI_BIT (w n : Nat) : Nat := n / 2 ^ (w - 1)

/-- Macro `HI_3_BITS(n)`: `n >> ((sizeof(WordType) << 3) - 3)`. -/
def HI_3_BITS (w n : Nat) : Nat := n / 2 ^ (w - 3)

/-- The expression `(WordType)~x` for a word `x`. -/
def notWord (w x : Nat) : Nat := 2 ^ w - 1 - x % 2 ^ w

/-- The expression `(WordType)-n` for a small non-negative `int` `n`
(used with `n` equal to 0 or 1: all-zero or all-one word). -/
def negWord (w n : Nat) : Nat := (2 ^ w - n % 2 ^ w) % 2 ^ w

/-- The C expression `!n` on an `int`. -/
def lnot (n : Nat) : Nat := if n = 0 then 1 else 0

/-- The C expression `x << k` converted to `WordType`. -/
def shlWord (w x k : Nat) : Nat := (x * 2 ^ k) % 2 ^ w

/-- Function `addAndCarry(a, b, c, &d)`: returns `(carry out, d)`. -/
def addAndCarry (w a b c : Nat) : Nat × Nat :=
  let ab := (a + b) % 2 ^ w
  let abc := (ab + c) % 2 ^ w
  ((if ab < a then 1 else 0) + (if abc < ab then 1 else 0), abc)

/-- Struct `BigInt`: `data` holds the flexible array member. -/
structure BigInt where
  refCount : Nat
  len : Nat
  data : List Nat
  deriving DecidableEq, Repr

/-- A counted loop: `n` iterations of `s = body(i, s); i++`, starting at
index `i`.  Every word loop of the source runs its index from the current
`i` up to a bound fixed on entry. -/
def forLoop {σ : Type} (body : Nat → σ → σ) : Nat → Nat → σ → σ
  | 0, _, s => s
  | n + 1, i, s => forLoop body n (i + 1) (body i s)

/-- The loop `while (len > 1 && data[len - 1] == fill) len--;` shared by
`add` and `fromStr`; returns the final `len`. -/
def trimLoop (data : List Nat) (fill : Nat) : Nat → Nat
  | 0 => 0
  | n + 1 => if n + 1 > 1 ∧ data.getD n 0 = fill then trimLoop data fill n else n + 1

/-! ## `add` -/

/-- One iteration `carry = addAndCarry(x, y, carry, &res->data[i])`. -/
def addStep (w : Nat) (x y : Nat → Nat) (i : Nat) (s : Nat × List Nat) : Nat × List Nat :=
  let r := addAndCarry w (x i) (y i) (toWord w s.1)
  (r.1, s.2.set i r.2)

/-- The three word loops of `add`; returns the final `carry` and the
working buffer `res->data`. -/
def addLoops (w : Nat) (a b : BigInt) (negateb : Bool) : Nat × List Nat :=
  let len := max a.len b.len
  let res := List.replicate len 0
  let upTo := min a.len b.len
  let signb := HI_BIT w (b.data.getD (b.len - 1) 0)
  if negateb then
    let s1 := forLoop (addStep w (fun i => a.data.getD i 0) (fun i => notWord w (b.data.getD i 0)))
      upTo 0 (1, res)
    let s2 := forLoop (addStep w (fun i => a.data.getD i 0) (fun _ => negWord w (lnot signb)))
      (a.len - upTo) upTo s1
    let i2 := max upTo a.len
    forLoop (addStep w (fun _ => 0) (fun i => notWord w (b.data.getD i 0)))
      (b.len - i2) i2 s2
  else
    let s1 := forLoop (addStep w (fun i => a.data.getD i 0) (fun i => b.data.getD i 0))
      upTo 0 (0, res)
    let s2 := forLoop (addStep w (fun i => a.data.getD i 0) (fun _ => negWord w signb))
      (a.len - upTo) upTo s1
    let i2 := max upTo a.len
    forLoop (addStep w (fun _ => 0) (fun i => b.data.getD i 0))
      (b.len - i2) i2 s2

/-- The flag `overflowed` computed by `add` after the word loops. -/
def overflowed (w : Nat) (a b : BigInt) (negateb : Bool) : Bool :=
  let len := max a.len b.len
  let res := (addLoops w a b negateb).2
  let sa := HI_BIT w (a.data.getD (a.len - 1) 0)
  let sb := HI_BIT w (b.data.getD (b.len - 1) 0)
  let sr := HI_BIT w (res.getD (len - 1) 0)
  if negateb then decide (sa ≠ sb ∧ sa ≠ sr) else decide (sa = sb ∧ sa ≠ sr)

/-- Function `add(a, b, negateb)`. -/
def add (w : Nat) (a b : BigInt) (negateb : Bool) : BigInt :=
  let len := max a.len b.len
  let carry := (addLoops w a b negateb).1
  let res := (addLoops w a b negateb).2
  -- after the loops `i` equals `max(a->len, b->len)`
  let i := len
  if overflowed w a b negateb then
    -- `realloc` to `len + 1` words, then `res->data[i] = carry`
    { refCount := 0, len := len + 1, data := (res ++ [0]).set i (toWord w carry) }
  else
    let negative := HI_BIT w (res.getD (len - 1) 0)
    let len1 := trimLoop res (negWord w negative) len
    if HI_BIT w (res.getD (len1 - 1) 0) ≠ negative then
      { refCount := 0, len := len1 + 1, data := (res.set len1 (negWord w negative)).take (len1 + 1) }
    else
      { refCount := 0, len := len1, data := res.take len1 }

/-! ## `fromStr` -/

/-- The fatal checks of `fromStr` (its three `assert`s). -/
inductive Fatal where
  | notDigit   -- `assert(*c >= '0' && *c <= '9')`
  | carryOut   -- `assert(carry == 0)`
  | noRoom     -- `assert(len < cap)`
  deriving DecidableEq, Repr

deriving instance DecidableEq for Except

/-- The C library function `strlen` on the characters of a buffer: the number
of characters before the first NUL (or the end of the list, where the
terminator sits). -/
def strlen : List Char → Nat
  | [] => 0
  | c :: cs => if c.toNat = 0 then 0 else strlen cs + 1

/-- One iteration of the inner `for` loop of `fromStr`
(`10 * data[i] + carry`, lines 154-156). -/
def mulStep (w : Nat) (i : Nat) (s : Nat × List Nat) : Nat × List Nat :=
  let x := s.2.getD i 0
  let r := addAndCarry w (shlWord w x 3) (shlWord w x 1) (toWord w s.1)
  (HI_3_BITS w x + HI_BIT w x + r.1, s.2.set i r.2)

/-- The body of the digit loop of `fromStr` for one digit `d` (lines 149-157):
returns the final `carry` and the updated buffer. -/
def mulTenAdd (w cap : Nat) (data : List Nat) (d : Nat) : Nat × List Nat :=
  let x := data.getD 0 0
  let r := addAndCarry w (shlWord w x 3) (shlWord w x 1) (toWord w d)
  let carry := HI_3_BITS w x + HI_BIT w x + r.1
  forLoop (mulStep w) (cap - 1) 1 (carry, data.set 0 r.2)

/-- The loop `while (*c) { ... c++; }` of `fromStr` over the remaining
characters. -/
def digitLoop (w cap : Nat) : List Char → List Nat → Except Fatal (List Nat)
  | [], data => .ok data
  | c :: cs, data =>
    if c.toNat = 0 then .ok data
    else if ¬ (48 ≤ c.toNat ∧ c.toNat ≤ 57) then .error Fatal.notDigit
    else
      let r := mulTenAdd w cap data (c.toNat - 48)
      if r.1 ≠ 0 then .error Fatal.carryOut
      else digitLoop w cap cs r.2

/-- One iteration of the negation loop of `fromStr` (lines 168-169). -/
def negStep (w : Nat) (i : Nat) (s : Nat × List Nat) : Nat × List Nat :=
  let x := notWord w (s.2.getD i 0)
  let r := addAndCarry w x (toWord w s.1) 0
  (r.1, s.2.set i r.2)

/-- Function `fromStr(str)`; `str` lists the characters of the C string. -/
def fromStr (w : Nat) (str : List Char) : Except Fatal BigInt :=
  let cap := 1 + (strlen str * 7 / 2) / w
  let data := List.replicate cap 0
  let isNeg := decide (str.head? = some '-')
  let c := if isNeg then str.tail else str
  let negative := if isNeg then 1 else 0
  match digitLoop w cap c data with
  | .error e => .error e
  | .ok data1 =>
    let data2 := if negative ≠ 0 then (forLoop (negStep w) cap 0 (1, data1)).2 else data1
    let len := trimLoop data2 (negWord w negative) cap
    if HI_BIT w (data2.getD (len - 1) 0) ≠ negative then
      if len < cap then
        .ok { refCount := 0, len := len + 1,
              data := (data2.set len (negWord w negative)).take (len + 1) }
      else .error Fatal.noRoom
    else
      .ok { refCount := 0, len := len, data := data2.take len }

/-! ## Specification-side notions -/

/-- Unsigned value of a word sequence, least-significant word first. -/
def uval (w : Nat) : List Nat → Nat
  | [] => 0
  | x :: xs => x + 2 ^ w * uval w xs

/-- Two's-complement value of a word sequence: the sign is the top bit of the
most-significant (last) word. -/
def sval (w : Nat) (l : List Nat) : Int :=
  if HI_BIT w (l.getD (l.length - 1) 0) = 1 then (uval w l : Int) - 2 ^ (w * l.length)
  else (uval w l : Int)

/-- The integer a `BigInt` represents. -/
def value (w : Nat) (a : BigInt) : Int := sval w a.data

/-- A well-formed `BigInt`: `len >= 1` words, each below `2 ^ w`. -/
def WellFormed (w : Nat) (a : BigInt) : Prop :=
  1 ≤ a.len ∧ a.data.length = a.len ∧ ∀ x ∈ a.data, x < 2 ^ w

instance (w : Nat) (a : BigInt) : Decidable (WellFormed w a) := by
  unfold WellFormed; infer_instance

/-- Canonical form: `len == 1`, or the most-significant word is not a
redundant sign extension (it is not the fill word of its own sign bit while
the next lower word carries that same sign bit). -/
def Canonical (w : Nat) (a : BigInt) : Prop :=
  a.len = 1 ∨
    ¬ (a.data.getD (a.len - 1) 0 = negWord w (HI_BIT w (a.data.getD (a.len - 1) 0)) ∧
       HI_BIT w (a.data.getD (a.len - 2) 0) = HI_BIT w (a.data.getD (a.len - 1) 0))

instance (w : Nat) (a : BigInt) : Decidable (Canonical w a) := by
  unfold Canonical; infer_instance

/-- The canonical zero `(len = 1, data = [0])`. -/
def zero : BigInt := { refCount := 0, len := 1, data := [0] }

/-- A decimal digit character. -/
def IsDigit (c : Char) : Prop := 48 ≤ c.toNat ∧ c.toNat ≤ 57

instance (c : Char) : Decidable (IsDigit c) := by
  unfold IsDigit; infer_instance

/-- The natural number denoted by a run of decimal digits. -/
def digitsValue (ds : List Char) : Nat :=
  ds.foldl (fun v c => 10 * v + (c.toNat - 48)) 0

/-- The digits of a numeral: the text without its optional leading `-`. -/
def numeralDigits (text : List Char) : List Char :=
  if text.head? = some '-' then text.tail else text

/-- A well-formed numeral: an optional leading `-` followed by one or more
ASCII digits. -/
def IsNumeral (text : List Char) : Prop :=
  numeralDigits text ≠ [] ∧ ∀ c ∈ numeralDigits text, IsDigit c

instance (text : List Char) : Decidable (IsNumeral text) := by
  unfold IsNumeral; infer_instance

/-- The integer a well-formed numeral denotes. -/
def numeralValue (text : List Char) : Int :=
  if text.head? = some '-' then - (digitsValue text.tail : Int) else (digitsValue text : Int)

/-! ## Proof-side definitions -/

/-- Loop invariant of the word loops of `add`: after the words below `j`
have been written, buffer and carry hold the partial sum of the effective
operands `A` and `B`. -/
def AddInv (w len : Nat) (A B : List Nat) (c0 j : Nat) (s : Nat × List Nat) : Prop :=
  s.2.length = len ∧ s.1 ≤ 1 ∧ (∀ x ∈ s.2, x < 2 ^ w) ∧
    uval w (s.2.take j) + s.1 * 2 ^ (w * j) = uval w (A.take j) + uval w (B.take j) + c0

/-- First effective operand of the word loops: `a` zero-extended. -/
def opA (a b : BigInt) : List Nat :=
  a.data ++ List.replicate (max a.len b.len - a.len) 0

/-- Second effective operand of the word loops: `b` (complemented when
`negateb`), extended with the fill word used by the second loop. -/
def opB (w : Nat) (a b : BigInt) (negateb : Bool) : List Nat :=
  let signb := HI_BIT w (b.data.getD (b.len - 1) 0)
  if negateb then
    b.data.map (notWord w) ++ List.replicate (max a.len b.len - b.len) (negWord w (lnot signb))
  else
    b.data ++ List.replicate (max a.len b.len - b.len) (negWord w signb)

/-- The canonicalisation tail shared by `add` (lines 112-120) and `fromStr`
(lines 174-186) once the re-append guard has passed. -/
def canonResult (w : Nat) (res : List Nat) (negative len : Nat) : BigInt :=
  let len1 := trimLoop res (negWord w negative) len
  if HI_BIT w (res.getD (len1 - 1) 0) ≠ negative then
    { refCount := 0, len := len1 + 1, data := (res.set len1 (negWord w negative)).take (len1 + 1) }
  else
    { refCount := 0, len := len1, data := res.take len1 }

/-- Loop invariant of the inner loop of `fromStr`: the words below `j` hold
`10 * V + d` of the old words below `j`, up to the pending carry. -/
def MulInv (w cap : Nat) (data0 : List Nat) (d j : Nat) (s : Nat × List Nat) : Prop :=
  s.2.length = cap ∧ (∀ x ∈ s.2, x < 2 ^ w) ∧ s.1 ≤ 9 ∧
    (∀ i, j ≤ i → s.2.getD i 0 = data0.getD i 0) ∧
    uval w (s.2.take j) + s.1 * 2 ^ (w * j) = 10 * uval w (data0.take j) + d

/-- Loop invariant of the negation loop of `fromStr`: the words below `j`
hold the two's-complement negation of the old words below `j`, up to the
pending carry. -/
def NegInv (w cap : Nat) (data0 : List Nat) (j : Nat) (s : Nat × List Nat) : Prop :=
  s.2.length = cap ∧ (∀ x ∈ s.2, x < 2 ^ w) ∧ s.1 ≤ 1 ∧
    (∀ i, j ≤ i → s.2.getD i 0 = data0.getD i 0) ∧
    uval w (s.2.take j) + s.1 * 2 ^ (w * j) + uval w (data0.take j) = 2 ^ (w * j)

/-- The buffer of `fromStr` after the optional negation loop. -/
def negated (w cap negative : Nat) (data1 : List Nat) : List Nat :=
  if negative ≠ 0 then (forLoop (negStep w) cap 0 (1, data1)).2 else data1

/-- Capacity computed by `fromStr`. -/
def capOf (w : Nat) (str : List Char) : Nat := 1 + (strlen str * 7 / 2) / w

/-- The sign flag `negative` computed by `fromStr`. -/
def signOf (str : List Char) : Nat := if str.head? = some '-' then 1 else 0

/-- The digit step of `fromStr` cut after word 0 and `n` further words: the
pending carry (the carry out of word `n`) and the buffer at that point. -/
def mulTenAddUpTo (w : Nat) (data : List Nat) (d n : Nat) : Nat × List Nat :=
  let x := data.getD 0 0
  let r := addAndCarry w (shlWord w x 3) (shlWord w x 1) (toWord w d)
  forLoop (mulStep w) n 1 (HI_3_BITS w x + HI_BIT w x + r.1, data.set 0 r.2)

/-! ## `add` with bounds-checked accesses -/

/-- A bounds-checked write `buf[i] = v`: `none` when `i` lies outside the
buffer. -/
def writeAt (buf : List Nat) (i v : Nat) : Option (List Nat) :=
  if i < buf.length then some (buf.set i v) else none

/-- The counted loop `forLoop` with a body that may fail. -/
def forLoopChecked {σ : Type} (body : Nat → σ → Option σ) : Nat → Nat → σ → Option σ
  | 0, _, s => some s
  | n + 1, i, s =>
    match body i s with
    | none => none
    | some t => forLoopChecked body n (i + 1) t

/-- One iteration `carry = addAndCarry(x, y, carry, &res->data[i])` with the
operand reads `x i`, `y i` and the write to `res->data[i]` bounds-checked. -/
def addStepChecked (w : Nat) (x y : Nat → Option Nat) (i : Nat) (s : Nat × List Nat) :
    Option (Nat × List Nat) :=
  match x i with
  | none => none
  | some xi =>
    match y i with
    | none => none
    | some yi =>
      match writeAt s.2 i (addAndCarry w xi yi (toWord w s.1)).2 with
      | none => none
      | some res => some ((addAndCarry w xi yi (toWord w s.1)).1, res)

/-- The three word loops of `add` with every access to `a->data`, `b->data`
and `res->data` bounds-checked against the allocated lengths
(`a->len`, `b->len` and `max(a->len, b->len)` words). -/
def addLoopsChecked (w : Nat) (a b : BigInt) (negateb : Bool) : Option (Nat × List Nat) :=
  let len := max a.len b.len
  let res := List.replicate len 0
  let upTo := min a.len b.len
  match b.data[b.len - 1]? with
  | none => none
  | some bt =>
    let signb := HI_BIT w bt
    if negateb then
      match forLoopChecked (addStepChecked w (fun i => a.data[i]?)
          (fun i => (b.data[i]?).map (notWord w))) upTo 0 (1, res) with
      | none => none
      | some s1 =>
        match forLoopChecked (addStepChecked w (fun i => a.data[i]?)
            (fun _ => some (negWord w (lnot signb)))) (a.len - upTo) upTo s1 with
        | none => none
        | some s2 =>
          forLoopChecked (addStepChecked w (fun _ => some 0)
            (fun i => (b.data[i]?).map (notWord w))) (b.len - max upTo a.len) (max upTo a.len) s2
    else
      match forLoopChecked (addStepChecked w (fun i => a.data[i]?)
          (fun i => b.data[i]?)) upTo 0 (0, res) with
      | none => none
      | some s1 =>
        match forLoopChecked (addStepChecked w (fun i => a.data[i]?)
            (fun _ => some (negWord w signb))) (a.len - upTo) upTo s1 with
        | none => none
        | some s2 =>
          forLoopChecked (addStepChecked w (fun _ => some 0)
            (fun i => b.data[i]?)) (b.len - max upTo a.len) (max upTo a.len) s2

/-- The trim loop with the read `data[len - 1]` bounds-checked (it is only
evaluated when `len > 1`). -/
def trimLoopChecked (data : List Nat) (fill : Nat) : Nat → Option Nat
  | 0 => some 0
  | n + 1 =>
    if n + 1 > 1 then
      match data[n]? with
      | none => none
      | some x => if x = fill then trimLoopChecked data fill n else some (n + 1)
    else some (n + 1)

/-- Function `add(a, b, negateb)` with every array access bounds-checked:
`none` stands for an access outside the buffer it addresses. -/
def addChecked (w : Nat) (a b : BigInt) (negateb : Bool) : Option BigInt :=
  let len := max a.len b.len
  match addLoopsChecked w a b negateb with
  | none => none
  | some s =>
    match a.data[a.len - 1]? with
    | none => none
    | some ta =>
      match b.data[b.len - 1]? with
      | none => none
      | some tb =>
        match s.2[len - 1]? with
        | none => none
        | some tr =>
          if (if negateb then decide (HI_BIT w ta ≠ HI_BIT w tb ∧ HI_BIT w ta ≠ HI_BIT w tr)
              else decide (HI_BIT w ta = HI_BIT w tb ∧ HI_BIT w ta ≠ HI_BIT w tr)) = true then
            -- the buffer is grown to `len + 1` words before `res->data[i] = carry`
            match writeAt (s.2 ++ [0]) len (toWord w s.1) with
            | none => none
            | some d => some { refCount := 0, len := len + 1, data := d }
          else
            match trimLoopChecked s.2 (negWord w (HI_BIT w tr)) len with
            | none => none
            | some len1 =>
              match s.2[len1 - 1]? with
              | none => none
              | some t =>
                if HI_BIT w t ≠ HI_BIT w tr then
                  -- `res->data[len++] = fill` writes into the ungrown buffer
                  match writeAt s.2 len1 (negWord w (HI_BIT w tr)) with
                  | none => none
                  | some d => some { refCount := 0, len := len1 + 1, data := d.take (len1 + 1) }
                else some { refCount := 0, len := len1, data := s.2.take len1 }

/-! ## Word arithmetic and loop lemmas -/

theorem two_pow_word_pos (w : Nat) : 0 < 2 ^ w := Nat.pow_pos (by decide)

theorem mod_two_cases (x B : Nat) (h : x < 2 * B) :
    (x < B ∧ x % B = x) ∨ (B ≤ x ∧ x % B = x - B) := by
  rcases Nat.lt_or_ge x B with h1 | h1
  · exact Or.inl ⟨h1, Nat.mod_eq_of_lt h1⟩
  · refine Or.inr ⟨h1, ?_⟩
    rw [Nat.mod_eq_sub_mod h1, Nat.mod_eq_of_lt (by omega)]

theorem addAndCarry_spec (w a b c : Nat) (ha : a < 2 ^ w) (hb : b < 2 ^ w) (hc : c < 2 ^ w) :
    (addAndCarry w a b c).2 + (addAndCarry w a b c).1 * 2 ^ w = a + b + c ∧
      (addAndCarry w a b c).2 < 2 ^ w := by
  have hB := two_pow_word_pos w
  simp only [addAndCarry]
  generalize 2 ^ w = B at *
  rcases mod_two_cases (a + b) B (by omega) with ⟨h1, h2⟩ | ⟨h1, h2⟩
  · rw [h2]
    rcases mod_two_cases (a + b + c) B (by omega) with ⟨h3, h4⟩ | ⟨h3, h4⟩
    · rw [h4]
      have e1 : ¬ (a + b < a) := by omega
      have e2 : ¬ (a + b + c < a + b) := by omega
      simp only [e1, e2, if_false]
      omega
    · rw [h4]
      have e1 : ¬ (a + b < a) := by omega
      have e2 : (a + b + c - B < a + b) := by omega
      simp only [e1, e2, if_false, if_true]
      omega
  · rw [h2]
    rcases mod_two_cases (a + b - B + c) B (by omega) with ⟨h3, h4⟩ | ⟨h3, h4⟩
    · rw [h4]
      have e1 : (a + b - B < a) := by omega
      have e2 : ¬ (a + b - B + c < a + b - B) := by omega
      simp only [e1, e2, if_false, if_true]
      omega
    · rw [h4]
      have e1 : (a + b - B < a) := by omega
      have e2 : (a + b - B + c - B < a + b - B) := by omega
      simp only [e1, e2, if_true]
      omega

theorem addAndCarry_carry_le_one (w a b c : Nat) (ha : a < 2 ^ w) (hb : b < 2 ^ w) (hc : c ≤ 1)
    (hw : 1 ≤ w) : (addAndCarry w a b c).1 ≤ 1 := by
  have h2 : 2 ≤ 2 ^ w := by
    calc 2 = 2 ^ 1 := by norm_num
      _ ≤ 2 ^ w := Nat.pow_le_pow_right (by decide) hw
  have h := addAndCarry_spec w a b c ha hb (by omega)
  by_contra hcon
  have h3 : 2 ≤ (addAndCarry w a b c).1 := by omega
  have h4 : 2 * 2 ^ w ≤ (addAndCarry w a b c).1 * 2 ^ w := Nat.mul_le_mul_right _ h3
  omega

theorem forLoop_inv {σ : Type} (body : Nat → σ → σ) (P : Nat → σ → Prop) :
    ∀ (n i : Nat) (s : σ), P i s →
      (∀ j t, i ≤ j → j < i + n → P j t → P (j + 1) (body j t)) →
      P (i + n) (forLoop body n i s)
  | 0, i, s, h, _ => by simpa [forLoop] using h
  | n + 1, i, s, h, hstep => by
    have h1 : P (i + 1) (body i s) := hstep i s (Nat.le_refl _) (by omega) h
    have := forLoop_inv body P n (i + 1) (body i s) h1
      (fun j t hj1 hj2 hp => hstep j t (by omega) (by omega) hp)
    simp only [forLoop]
    have e : i + (n + 1) = i + 1 + n := by omega
    rw [e]; exact this

/-! ## Values of word sequences -/

theorem uval_append (w : Nat) (l1 l2 : List Nat) :
    uval w (l1 ++ l2) = uval w l1 + 2 ^ (w * l1.length) * uval w l2 := by
  induction l1 with
  | nil => simp [uval]
  | cons x xs ih =>
    have e : (x :: xs) ++ l2 = x :: (xs ++ l2) := rfl
    rw [e]
    simp only [uval, ih, List.length_cons]
    rw [Nat.mul_succ, Nat.pow_add]
    ring

theorem uval_lt (w : Nat) (l : List Nat) (h : ∀ x ∈ l, x < 2 ^ w) :
    uval w l < 2 ^ (w * l.length) := by
  induction l with
  | nil => simp [uval]
  | cons x xs ih =>
    have hx : x < 2 ^ w := h x (List.mem_cons_self _ _)
    have hxs := ih (fun y hy => h y (List.mem_cons_of_mem _ hy))
    simp only [uval, List.length_cons]
    rw [Nat.mul_succ, Nat.pow_add]
    have : 2 ^ w * (uval w xs + 1) ≤ 2 ^ w * 2 ^ (w * xs.length) :=
      Nat.mul_le_mul_left _ hxs
    have e : 2 ^ (w * xs.length) * 2 ^ w = 2 ^ w * 2 ^ (w * xs.length) := Nat.mul_comm _ _
    rw [e]
    have : 2 ^ w * (uval w xs + 1) = 2 ^ w * uval w xs + 2 ^ w := by ring
    omega

theorem uval_replicate_zero (w n : Nat) : uval w (List.replicate n 0) = 0 := by
  induction n with
  | zero => simp [uval]
  | succ n ih => simp [List.replicate_succ, uval, ih]

theorem uval_replicate_ones (w n : Nat) :
    uval w (List.replicate n (2 ^ w - 1)) + 1 = 2 ^ (w * n) := by
  induction n with
  | zero => simp [uval]
  | succ n ih =>
    simp only [List.replicate_succ, uval]
    rw [Nat.mul_succ, Nat.pow_add, ← ih]
    have := Nat.pow_pos (n := w) (show 0 < 2 by decide)
    have e : (uval w (List.replicate n (2 ^ w - 1)) + 1) * 2 ^ w
        = 2 ^ w * uval w (List.replicate n (2 ^ w - 1)) + 2 ^ w := by ring
    omega

theorem uval_take_succ (w : Nat) (l : List Nat) (j : Nat) (hj : j < l.length) :
    uval w (l.take (j + 1)) = uval w (l.take j) + 2 ^ (w * j) * l.getD j 0 := by
  rw [List.take_succ, uval_append]
  have : l[j]? = some (l.getD j 0) := by
    rw [List.getD_eq_getElem?_getD, List.getElem?_eq_getElem hj]; simp
  rw [this]
  simp [uval, List.length_take, Nat.min_eq_left (Nat.le_of_lt hj)]

theorem take_set_self (l : List Nat) (j s : Nat) : (l.set j s).take j = l.take j := by
  induction l generalizing j with
  | nil => simp
  | cons x xs ih =>
    cases j with
    | zero => simp
    | succ j => simp [List.set, ih]

theorem getD_set_self (l : List Nat) (j s : Nat) (hj : j < l.length) :
    (l.set j s).getD j 0 = s := by
  induction l generalizing j with
  | nil => simp at hj
  | cons x xs ih =>
    cases j with
    | zero => simp
    | succ j =>
      simp only [List.set, List.getD_cons_succ]
      exact ih j (by simpa using hj)

theorem getD_lt_of_all (w : Nat) (l : List Nat) (h : ∀ x ∈ l, x < 2 ^ w) (j : Nat) :
    l.getD j 0 < 2 ^ w := by
  rcases Nat.lt_or_ge j l.length with hj | hj
  · rw [List.getD_eq_getElem _ _ hj]
    exact h _ (List.getElem_mem _)
  · rw [List.getD_eq_default _ _ hj]
    exact Nat.pow_pos (by decide)

theorem all_lt_set (w : Nat) (l : List Nat) (h : ∀ x ∈ l, x < 2 ^ w) (j s : Nat)
    (hs : s < 2 ^ w) : ∀ x ∈ l.set j s, x < 2 ^ w := by
  intro x hx
  rcases List.mem_or_eq_of_mem_set hx with h1 | h1
  · exact h x h1
  · rw [h1]; exact hs

theorem uval_inj (w : Nat) : ∀ (l1 l2 : List Nat), l1.length = l2.length →
    (∀ x ∈ l1, x < 2 ^ w) → (∀ x ∈ l2, x < 2 ^ w) → uval w l1 = uval w l2 → l1 = l2
  | [], [], _, _, _, _ => rfl
  | [], _ :: _, h, _, _, _ => by simp at h
  | _ :: _, [], h, _, _, _ => by simp at h
  | x :: xs, y :: ys, hl, h1, h2, hv => by
    have hx : x < 2 ^ w := h1 x (List.mem_cons_self _ _)
    have hy : y < 2 ^ w := h2 y (List.mem_cons_self _ _)
    simp only [uval] at hv
    have hmod : x = y := by
      have e1 : (x + 2 ^ w * uval w xs) % 2 ^ w = x := by
        rw [Nat.add_mul_mod_self_left]; exact Nat.mod_eq_of_lt hx
      have e2 : (y + 2 ^ w * uval w ys) % 2 ^ w = y := by
        rw [Nat.add_mul_mod_self_left]; exact Nat.mod_eq_of_lt hy
      rw [← e1, ← e2, hv]
    subst hmod
    have hv2 : uval w xs = uval w ys := by
      have : 2 ^ w * uval w xs = 2 ^ w * uval w ys := by omega
      exact Nat.eq_of_mul_eq_mul_left (Nat.pow_pos (by decide)) this
    have := uval_inj w xs ys (by simpa using hl)
      (fun z hz => h1 z (List.mem_cons_of_mem _ hz))
      (fun z hz => h2 z (List.mem_cons_of_mem _ hz)) hv2
    rw [this]

/-! ## The word loops of `add` -/

theorem one_lt_two_pow (w : Nat) (hw : 1 ≤ w) : 1 < 2 ^ w :=
  calc 1 < 2 ^ 1 := by norm_num
    _ ≤ 2 ^ w := Nat.pow_le_pow_right (by decide) hw

theorem addStep_inv (w len : Nat) (hw : 1 ≤ w) (A B : List Nat) (c0 : Nat)
    (hA : A.length = len) (hB : B.length = len)
    (hAw : ∀ x ∈ A, x < 2 ^ w) (hBw : ∀ x ∈ B, x < 2 ^ w)
    (x y : Nat → Nat) (j : Nat) (hj : j < len)
    (hx : x j = A.getD j 0) (hy : y j = B.getD j 0) (s : Nat × List Nat)
    (h : AddInv w len A B c0 j s) : AddInv w len A B c0 (j + 1) (addStep w x y j s) := by
  obtain ⟨hlen, hc, hall, hval⟩ := h
  have h1 := one_lt_two_pow w hw
  have hcw : toWord w s.1 = s.1 := Nat.mod_eq_of_lt (by omega)
  have hxa : x j < 2 ^ w := by rw [hx]; exact getD_lt_of_all w A hAw j
  have hyb : y j < 2 ^ w := by rw [hy]; exact getD_lt_of_all w B hBw j
  have hs := addAndCarry_spec w (x j) (y j) s.1 hxa hyb (by omega)
  have hk := addAndCarry_carry_le_one w (x j) (y j) s.1 hxa hyb hc hw
  simp only [addStep, hcw]
  refine ⟨by simp [hlen], hk, all_lt_set w _ hall _ _ hs.2, ?_⟩
  rw [uval_take_succ w _ j (by simp [hlen, hj]), take_set_self,
    getD_set_self _ _ _ (by omega), uval_take_succ w A j (by omega),
    uval_take_succ w B j (by omega), ← hx, ← hy]
  have e : w * (j + 1) = w * j + w := by ring
  rw [e, Nat.pow_add]
  generalize 2 ^ (w * j) = P at *
  generalize 2 ^ w = Bs at *
  generalize (addAndCarry w (x j) (y j) s.1).1 = r1 at *
  generalize (addAndCarry w (x j) (y j) s.1).2 = r2 at *
  have h3 : P * r2 + r1 * (P * Bs) = P * x j + P * y j + P * s.1 := by
    have : P * (r2 + r1 * Bs) = P * (x j + y j + s.1) := by rw [hs.1]
    linarith
  linarith

theorem addStep_loop (w len : Nat) (hw : 1 ≤ w) (A B : List Nat) (c0 : Nat)
    (hA : A.length = len) (hB : B.length = len)
    (hAw : ∀ x ∈ A, x < 2 ^ w) (hBw : ∀ x ∈ B, x < 2 ^ w)
    (x y : Nat → Nat) (n i : Nat) (hin : i + n ≤ len)
    (hxy : ∀ j, i ≤ j → j < i + n → x j = A.getD j 0 ∧ y j = B.getD j 0)
    (s : Nat × List Nat) (h : AddInv w len A B c0 i s) :
    AddInv w len A B c0 (i + n) (forLoop (addStep w x y) n i s) :=
  forLoop_inv (addStep w x y) (AddInv w len A B c0) n i s h
    (fun j t hj1 hj2 hp =>
      addStep_inv w len hw A B c0 hA hB hAw hBw x y j (by omega)
        (hxy j hj1 hj2).1 (hxy j hj1 hj2).2 t hp)

theorem getD_append_lt (l1 l2 : List Nat) (j : Nat) (h : j < l1.length) :
    (l1 ++ l2).getD j 0 = l1.getD j 0 := by
  rw [List.getD_eq_getElem?_getD, List.getD_eq_getElem?_getD, List.getElem?_append_left h]

theorem getD_append_replicate (l : List Nat) (n v j : Nat) (h1 : l.length ≤ j)
    (h2 : j < l.length + n) : (l ++ List.replicate n v).getD j 0 = v := by
  rw [List.getD_eq_getElem?_getD, List.getElem?_append_right h1,
    List.getElem?_replicate]
  have : j - l.length < n := by omega
  simp [this]

theorem getD_pad_zero (l : List Nat) (n j : Nat) :
    (l ++ List.replicate n 0).getD j 0 = l.getD j 0 := by
  rcases Nat.lt_or_ge j l.length with h | h
  · exact getD_append_lt l _ j h
  · rw [List.getD_eq_default l 0 h]
    rcases Nat.lt_or_ge j (l.length + n) with h2 | h2
    · exact getD_append_replicate l n 0 j h h2
    · exact List.getD_eq_default _ _ (by simp; omega)

theorem getD_map_lt (f : Nat → Nat) (l : List Nat) (j : Nat) (h : j < l.length) :
    (l.map f).getD j 0 = f (l.getD j 0) := by
  rw [List.getD_eq_getElem _ _ (by simpa using h), List.getD_eq_getElem _ _ h]
  simp

theorem notWord_lt (w x : Nat) : notWord w x < 2 ^ w := by
  have := Nat.pow_pos (n := w) (show 0 < 2 by decide)
  unfold notWord; omega

theorem negWord_lt (w n : Nat) : negWord w n < 2 ^ w :=
  Nat.mod_lt _ (Nat.pow_pos (by decide))

theorem opA_length (w : Nat) (a b : BigInt) (ha : WellFormed w a) :
    (opA a b).length = max a.len b.len := by
  simp [opA, ha.2.1]

theorem opB_length (w : Nat) (a b : BigInt) (negateb : Bool) (hb : WellFormed w b) :
    (opB w a b negateb).length = max a.len b.len := by
  cases negateb <;> simp [opB, hb.2.1]

theorem opA_lt (w : Nat) (a b : BigInt) (ha : WellFormed w a) :
    ∀ x ∈ opA a b, x < 2 ^ w := by
  intro x hx
  simp only [opA, List.mem_append, List.mem_replicate] at hx
  rcases hx with h | ⟨_, h⟩
  · exact ha.2.2 x h
  · rw [h]; exact Nat.pow_pos (by decide)

theorem opB_lt (w : Nat) (a b : BigInt) (negateb : Bool) (hb : WellFormed w b) :
    ∀ x ∈ opB w a b negateb, x < 2 ^ w := by
  intro x hx
  cases negateb
  · simp only [opB, Bool.false_eq_true, if_false, List.mem_append, List.mem_replicate] at hx
    rcases hx with h | ⟨_, h⟩
    · exact hb.2.2 x h
    · rw [h]; exact negWord_lt w _
  · simp only [opB, List.mem_append, List.mem_replicate, List.mem_map, if_true] at hx
    rcases hx with ⟨y, _, h⟩ | ⟨_, h⟩
    · rw [← h]; exact notWord_lt w y
    · rw [h]; exact negWord_lt w _

theorem addLoops_spec (w : Nat) (hw : 1 ≤ w) (a b : BigInt) (negateb : Bool)
    (ha : WellFormed w a) (hb : WellFormed w b) :
    AddInv w (max a.len b.len) (opA a b) (opB w a b negateb) (if negateb then 1 else 0)
      (max a.len b.len) (addLoops w a b negateb) := by
  have hAl := opA_length w a b ha
  have hBl := opB_length w a b negateb hb
  have hAw := opA_lt w a b ha
  have hBw := opB_lt w a b negateb hb
  have hal := ha.2.1
  have hbl := hb.2.1
  have hinit : ∀ c0 : Nat, c0 ≤ 1 → AddInv w (max a.len b.len) (opA a b) (opB w a b negateb) c0 0
      (c0, List.replicate (max a.len b.len) 0) := by
    intro c0 hc0
    refine ⟨by simp, hc0, ?_, by simp [uval]⟩
    intro x hx
    rw [(List.mem_replicate.1 hx).2]; exact Nat.pow_pos (by decide)
  have hxA : ∀ j, a.data.getD j 0 = (opA a b).getD j 0 := fun j => (getD_pad_zero _ _ j).symm
  have hxA0 : ∀ j, a.len ≤ j → 0 = (opA a b).getD j 0 := by
    intro j hj
    rw [← hxA j, List.getD_eq_default _ _ (by omega)]
  cases negateb
  · -- plain addition
    have hyB : ∀ j, j < b.len → b.data.getD j 0 = (opB w a b false).getD j 0 := by
      intro j hj
      simp only [opB, Bool.false_eq_true, if_false]
      exact (getD_append_lt _ _ j (by omega)).symm
    have hyF : ∀ j, b.len ≤ j → j < max a.len b.len →
        negWord w (HI_BIT w (b.data.getD (b.len - 1) 0)) = (opB w a b false).getD j 0 := by
      intro j hj1 hj2
      simp only [opB, Bool.false_eq_true, if_false]
      exact (getD_append_replicate _ _ _ j (by omega) (by omega)).symm
    have s1 := addStep_loop w _ hw _ _ 0 hAl hBl hAw hBw
      (fun i => a.data.getD i 0) (fun i => b.data.getD i 0) (min a.len b.len) 0 (by omega)
      (fun j _ hj2 => ⟨hxA j, hyB j (by omega)⟩) _ (hinit 0 (by omega))
    have s2 := addStep_loop w _ hw _ _ 0 hAl hBl hAw hBw
      (fun i => a.data.getD i 0) (fun _ => negWord w (HI_BIT w (b.data.getD (b.len - 1) 0)))
      (a.len - min a.len b.len) (0 + min a.len b.len) (by omega)
      (fun j hj1 hj2 => ⟨hxA j, hyF j (by omega) (by omega)⟩) _ s1
    have e2 : 0 + min a.len b.len + (a.len - min a.len b.len) = max (min a.len b.len) a.len := by
      omega
    rw [e2] at s2
    have s3 := addStep_loop w _ hw _ _ 0 hAl hBl hAw hBw
      (fun _ => 0) (fun i => b.data.getD i 0)
      (b.len - max (min a.len b.len) a.len) (max (min a.len b.len) a.len) (by omega)
      (fun j hj1 hj2 => ⟨hxA0 j (by omega), hyB j (by omega)⟩) _ s2
    have e3 : max (min a.len b.len) a.len + (b.len - max (min a.len b.len) a.len)
        = max a.len b.len := by omega
    rw [e3] at s3
    simpa [addLoops] using s3
  · -- subtraction
    have hyB : ∀ j, j < b.len →
        notWord w (b.data.getD j 0) = (opB w a b true).getD j 0 := by
      intro j hj
      simp only [opB, if_true]
      rw [getD_append_lt _ _ j (by simp; omega), getD_map_lt _ _ _ (by omega)]
    have hyF : ∀ j, b.len ≤ j → j < max a.len b.len →
        negWord w (lnot (HI_BIT w (b.data.getD (b.len - 1) 0))) = (opB w a b true).getD j 0 := by
      intro j hj1 hj2
      simp only [opB, if_true]
      exact (getD_append_replicate _ _ _ j (by simp; omega) (by simp; omega)).symm
    have s1 := addStep_loop w _ hw _ _ 1 hAl hBl hAw hBw
      (fun i => a.data.getD i 0) (fun i => notWord w (b.data.getD i 0)) (min a.len b.len) 0
      (by omega) (fun j _ hj2 => ⟨hxA j, hyB j (by omega)⟩) _ (hinit 1 (by omega))
    have s2 := addStep_loop w _ hw _ _ 1 hAl hBl hAw hBw
      (fun i => a.data.getD i 0)
      (fun _ => negWord w (lnot (HI_BIT w (b.data.getD (b.len - 1) 0))))
      (a.len - min a.len b.len) (0 + min a.len b.len) (by omega)
      (fun j hj1 hj2 => ⟨hxA j, hyF j (by omega) (by omega)⟩) _ s1
    have e2 : 0 + min a.len b.len + (a.len - min a.len b.len) = max (min a.len b.len) a.len := by
      omega
    rw [e2] at s2
    have s3 := addStep_loop w _ hw _ _ 1 hAl hBl hAw hBw
      (fun _ => 0) (fun i => notWord w (b.data.getD i 0))
      (b.len - max (min a.len b.len) a.len) (max (min a.len b.len) a.len) (by omega)
      (fun j hj1 hj2 => ⟨hxA0 j (by omega), hyB j (by omega)⟩) _ s2
    have e3 : max (min a.len b.len) a.len + (b.len - max (min a.len b.len) a.len)
        = max a.len b.len := by omega
    rw [e3] at s3
    simpa [addLoops] using s3

/-! ## Sign bits and the trim loop -/

theorem two_pow_split (w : Nat) (hw : 1 ≤ w) : 2 ^ w = 2 * 2 ^ (w - 1) := by
  obtain ⟨k, rfl⟩ : ∃ k, w = k + 1 := ⟨w - 1, by omega⟩
  simp [Nat.pow_succ, Nat.mul_comm]

theorem HI_BIT_le_one (w x : Nat) (hw : 1 ≤ w) (hx : x < 2 ^ w) : HI_BIT w x ≤ 1 := by
  unfold HI_BIT
  have h := two_pow_split w hw
  have hp := Nat.pow_pos (n := w - 1) (show 0 < 2 by decide)
  have : x / 2 ^ (w - 1) < 2 := by
    rw [Nat.div_lt_iff_lt_mul hp]; omega
  omega

theorem HI_BIT_eq_one_iff (w x : Nat) (hw : 1 ≤ w) (hx : x < 2 ^ w) :
    HI_BIT w x = 1 ↔ 2 ^ (w - 1) ≤ x := by
  have h1 := HI_BIT_le_one w x hw hx
  have hp := Nat.pow_pos (n := w - 1) (show 0 < 2 by decide)
  unfold HI_BIT at *
  constructor
  · intro h
    by_contra hc
    have : x / 2 ^ (w - 1) = 0 := Nat.div_eq_of_lt (by omega)
    omega
  · intro h
    have : 1 ≤ x / 2 ^ (w - 1) := by
      rw [Nat.le_div_iff_mul_le hp]; omega
    omega

theorem HI_BIT_eq_zero_iff (w x : Nat) (hw : 1 ≤ w) (hx : x < 2 ^ w) :
    HI_BIT w x = 0 ↔ x < 2 ^ (w - 1) := by
  have h1 := HI_BIT_le_one w x hw hx
  have h2 := HI_BIT_eq_one_iff w x hw hx
  omega

theorem negWord_zero (w : Nat) : negWord w 0 = 0 := by
  simp [negWord]

theorem negWord_one (w : Nat) (hw : 1 ≤ w) : negWord w 1 = 2 ^ w - 1 := by
  have h := one_lt_two_pow w hw
  unfold negWord
  rw [Nat.mod_eq_of_lt h, Nat.mod_eq_of_lt (by omega)]

theorem HI_BIT_negWord (w s : Nat) (hw : 1 ≤ w) (hs : s ≤ 1) : HI_BIT w (negWord w s) = s := by
  have h := two_pow_split w hw
  have hp := Nat.pow_pos (n := w - 1) (show 0 < 2 by decide)
  rcases Nat.le_one_iff_eq_zero_or_eq_one.1 hs with rfl | rfl
  · rw [negWord_zero]; simp [HI_BIT]
  · rw [negWord_one w hw]
    exact (HI_BIT_eq_one_iff w _ hw (by omega)).2 (by omega)

theorem trimLoop_bounds (data : List Nat) (fill : Nat) :
    ∀ n, 1 ≤ n → 1 ≤ trimLoop data fill n ∧ trimLoop data fill n ≤ n
  | 0, h => by omega
  | 1, _ => by simp [trimLoop]
  | n + 2, _ => by
    have ih := trimLoop_bounds data fill (n + 1) (by omega)
    unfold trimLoop
    split
    · exact ⟨ih.1, by omega⟩
    · exact ⟨by omega, Nat.le_refl _⟩

theorem trimLoop_stop (data : List Nat) (fill : Nat) :
    ∀ n, 1 ≤ n → trimLoop data fill n = 1 ∨ data.getD (trimLoop data fill n - 1) 0 ≠ fill
  | 0, h => by omega
  | 1, _ => by simp [trimLoop]
  | n + 2, _ => by
    have ih := trimLoop_stop data fill (n + 1) (by omega)
    unfold trimLoop
    split
    · exact ih
    · next h =>
      right
      simp only [Nat.add_sub_cancel]
      intro hc
      exact h ⟨by omega, hc⟩

theorem trimLoop_dropped (data : List Nat) (fill : Nat) :
    ∀ n j, trimLoop data fill n ≤ j → j < n → data.getD j 0 = fill
  | 0, j, _, h => by omega
  | n + 1, j, h1, h2 => by
    unfold trimLoop at h1
    split at h1
    · next h =>
      rcases Nat.lt_or_ge j n with hj | hj
      · exact trimLoop_dropped data fill n j h1 hj
      · have : j = n := by omega
        rw [this]; exact h.2
    · omega

theorem trimLoop_eq_self (data : List Nat) (fill n : Nat)
    (h : n ≤ 1 ∨ data.getD (n - 1) 0 ≠ fill) : trimLoop data fill n = n := by
  cases n with
  | zero => rfl
  | succ n =>
    unfold trimLoop
    split
    · next hc =>
      rcases h with h | h
      · omega
      · exact absurd hc.2 (by simpa using h)
    · rfl

/-! ## Canonical form of the canonicalised result -/

theorem getD_take_lt (l : List Nat) (j k : Nat) (h : j < k) :
    (l.take k).getD j 0 = l.getD j 0 := by
  rw [List.getD_eq_getElem?_getD, List.getD_eq_getElem?_getD, List.getElem?_take_of_lt h]

theorem getD_set_ne (l : List Nat) (i j s : Nat) (h : i ≠ j) :
    (l.set i s).getD j 0 = l.getD j 0 := by
  rw [List.getD_eq_getElem?_getD, List.getD_eq_getElem?_getD, List.getElem?_set_ne h]

theorem all_lt_take (w : Nat) (l : List Nat) (h : ∀ x ∈ l, x < 2 ^ w) (k : Nat) :
    ∀ x ∈ l.take k, x < 2 ^ w :=
  fun x hx => h x (List.mem_of_mem_take hx)

theorem canonResult_spec (w : Nat) (hw : 1 ≤ w) (res : List Nat) (negative len : Nat)
    (hres : ∀ x ∈ res, x < 2 ^ w) (hneg : negative ≤ 1) (hlen : 1 ≤ len)
    (hle : len ≤ res.length)
    (hroom : HI_BIT w (res.getD (trimLoop res (negWord w negative) len - 1) 0) ≠ negative →
      trimLoop res (negWord w negative) len < len) :
    WellFormed w (canonResult w res negative len) ∧
      Canonical w (canonResult w res negative len) := by
  have hb := trimLoop_bounds res (negWord w negative) len hlen
  have hstop := trimLoop_stop res (negWord w negative) len hlen
  unfold canonResult
  simp only
  generalize trimLoop res (negWord w negative) len = n at *
  by_cases hs : HI_BIT w (res.getD (n - 1) 0) = negative
  · rw [if_neg (not_not.2 hs)]
    refine ⟨⟨hb.1, ?_, all_lt_take w res hres n⟩, ?_⟩
    · simp only [List.length_take]; omega
    · rcases hstop with h1 | h1
      · exact Or.inl h1
      · right
        simp only
        rw [getD_take_lt res (n - 1) n (by omega), hs]
        exact fun hc => h1 hc.1
  · rw [if_pos hs]
    have hn := hroom hs
    refine ⟨⟨by simp, ?_, ?_⟩, ?_⟩
    · simp only [List.length_take, List.length_set]; omega
    · exact all_lt_take w _ (all_lt_set w res hres n _ (negWord_lt w negative)) _
    · right
      simp only [Nat.add_sub_cancel]
      have e1 : n + 1 - 2 = n - 1 := by omega
      rw [e1, getD_take_lt _ n (n + 1) (by omega), getD_take_lt _ (n - 1) (n + 1) (by omega),
        getD_set_self res n _ (by omega), getD_set_ne res n (n - 1) _ (by omega),
        HI_BIT_negWord w negative hw hneg]
      exact fun hc => hs hc.2

/-! ## The overflow branch of `add` -/

theorem uval_top (w : Nat) (l : List Nat) (hl : 1 ≤ l.length) :
    uval w l = uval w (l.take (l.length - 1)) +
      2 ^ (w * (l.length - 1)) * l.getD (l.length - 1) 0 := by
  have h := uval_take_succ w l (l.length - 1) (by omega)
  have e : l.length - 1 + 1 = l.length := by omega
  rw [e, List.take_length] at h
  exact h

theorem uval_take_lt (w : Nat) (l : List Nat) (h : ∀ x ∈ l, x < 2 ^ w) (k : Nat)
    (hk : k ≤ l.length) : uval w (l.take k) < 2 ^ (w * k) := by
  have := uval_lt w (l.take k) (all_lt_take w l h k)
  rwa [List.length_take, Nat.min_eq_left hk] at this

theorem notWord_eq (w x : Nat) (hx : x < 2 ^ w) : notWord w x = 2 ^ w - 1 - x := by
  unfold notWord; rw [Nat.mod_eq_of_lt hx]

theorem lnot_le_one (n : Nat) : lnot n ≤ 1 := by
  unfold lnot; split <;> omega

/-- When the second operand counts as negative in the sum (its own sign in
plain addition, the inverse of its sign in subtraction), the top word of the
effective second operand has its sign bit set. -/
theorem opB_top_ge (w : Nat) (hw : 1 ≤ w) (a b : BigInt) (negateb : Bool)
    (hb : WellFormed w b)
    (hsb : HI_BIT w (b.data.getD (b.len - 1) 0) = if negateb then 0 else 1) :
    2 ^ (w - 1) ≤ (opB w a b negateb).getD (max a.len b.len - 1) 0 := by
  have hsplit := two_pow_split w hw
  have hp := Nat.pow_pos (n := w - 1) (show 0 < 2 by decide)
  have hbl := hb.2.1
  have hb1 := hb.1
  have htop : b.data.getD (b.len - 1) 0 < 2 ^ w := getD_lt_of_all w _ hb.2.2 _
  rcases Nat.lt_or_ge (max a.len b.len - 1) b.len with h | h
  · have e : max a.len b.len - 1 = b.len - 1 := by omega
    cases negateb
    · simp only [opB, Bool.false_eq_true, if_false] at hsb ⊢
      rw [getD_append_lt _ _ _ (by omega), e]
      exact (HI_BIT_eq_one_iff w _ hw htop).1 hsb
    · simp only [opB, if_true] at hsb ⊢
      rw [getD_append_lt _ _ _ (by simp; omega), getD_map_lt _ _ _ (by omega), e,
        notWord_eq w _ htop]
      have := (HI_BIT_eq_zero_iff w _ hw htop).1 hsb
      omega
  · cases negateb
    · simp only [opB, Bool.false_eq_true, if_false] at hsb ⊢
      rw [getD_append_replicate _ _ _ _ (by omega) (by omega), hsb, negWord_one w hw]
      omega
    · simp only [opB, if_true] at hsb ⊢
      rw [getD_append_replicate _ _ _ _ (by simp; omega) (by simp; omega), hsb]
      have : lnot 0 = 1 := rfl
      rw [this, negWord_one w hw]
      omega

/-- If the unextended result is non-negative although the second operand
counts as negative, the word loops end with carry 1. -/
theorem addLoops_carry_one (w : Nat) (hw : 1 ≤ w) (a b : BigInt) (negateb : Bool)
    (ha : WellFormed w a) (hb : WellFormed w b)
    (hsb : HI_BIT w (b.data.getD (b.len - 1) 0) = if negateb then 0 else 1)
    (hsr : HI_BIT w ((addLoops w a b negateb).2.getD (max a.len b.len - 1) 0) = 0) :
    (addLoops w a b negateb).1 = 1 := by
  obtain ⟨hlen, hc, hall, hval⟩ := addLoops_spec w hw a b negateb ha hb
  have hL : 1 ≤ max a.len b.len := by have := ha.1; omega
  have hAl := opA_length w a b ha
  have hBl := opB_length w a b negateb hb
  have hBt := opB_top_ge w hw a b negateb hb hsb
  rw [List.take_of_length_le (by omega), List.take_of_length_le (by omega),
    List.take_of_length_le (by omega)] at hval
  rw [uval_top w _ (by omega : 1 ≤ (addLoops w a b negateb).2.length),
    uval_top w (opB w a b negateb) (by omega), hlen, hBl] at hval
  have hR0 := uval_take_lt w _ hall (max a.len b.len - 1) (by omega)
  have hrt := (HI_BIT_eq_zero_iff w _ hw (getD_lt_of_all w _ hall _)).1 hsr
  generalize (addLoops w a b negateb).1 = carry at *
  generalize uval w (List.take (max a.len b.len - 1) (addLoops w a b negateb).2) = R0 at *
  generalize (addLoops w a b negateb).2.getD (max a.len b.len - 1) 0 = rt at *
  generalize (opB w a b negateb).getD (max a.len b.len - 1) 0 = bt at *
  generalize 2 ^ (w * (max a.len b.len - 1)) = P at *
  generalize 2 ^ (w - 1) = H at *
  by_contra hne
  have hc0 : carry = 0 := by omega
  subst hc0
  have h1 : P * (rt + 1) ≤ P * H := Nat.mul_le_mul_left _ hrt
  have h2 : P * H ≤ P * bt := Nat.mul_le_mul_left _ hBt
  have h3 : P * (rt + 1) = P * rt + P := by ring
  omega

theorem set_append_last (l : List Nat) (c : Nat) : (l ++ [0]).set l.length c = l ++ [c] := by
  induction l with
  | nil => rfl
  | cons x xs ih => simp [List.set, ih]

theorem add_overflow (w : Nat) (a b : BigInt) (negateb : Bool)
    (h : overflowed w a b negateb = true) :
    add w a b negateb = BigInt.mk 0 (max a.len b.len + 1)
      (((addLoops w a b negateb).2 ++ [0]).set (max a.len b.len)
        (toWord w (addLoops w a b negateb).1)) := by
  unfold add
  simp only [h, if_true]

theorem add_no_overflow (w : Nat) (a b : BigInt) (negateb : Bool)
    (h : overflowed w a b negateb = false) :
    add w a b negateb = canonResult w (addLoops w a b negateb).2
      (HI_BIT w ((addLoops w a b negateb).2.getD (max a.len b.len - 1) 0))
      (max a.len b.len) := by
  unfold add canonResult
  simp only [h, Bool.false_eq_true, if_false]

theorem add_wellFormed_canonical (w : Nat) (hw : 2 ≤ w) (a b : BigInt) (negateb : Bool)
    (ha : WellFormed w a) (hb : WellFormed w b) :
    WellFormed w (add w a b negateb) ∧ Canonical w (add w a b negateb) := by
  have hw1 : 1 ≤ w := by omega
  obtain ⟨hlen, hc, hall, _⟩ := addLoops_spec w hw1 a b negateb ha hb
  have hL : 1 ≤ max a.len b.len := by have := ha.1; omega
  have h1 := one_lt_two_pow w hw1
  cases hov : overflowed w a b negateb
  · rw [add_no_overflow w a b negateb hov]
    refine canonResult_spec w hw1 _ _ _ hall
      (HI_BIT_le_one w _ hw1 (getD_lt_of_all w _ hall _)) hL (by omega) ?_
    intro hne
    have hb := trimLoop_bounds (addLoops w a b negateb).2
      (negWord w (HI_BIT w ((addLoops w a b negateb).2.getD (max a.len b.len - 1) 0)))
      (max a.len b.len) hL
    rcases Nat.lt_or_ge (trimLoop (addLoops w a b negateb).2
      (negWord w (HI_BIT w ((addLoops w a b negateb).2.getD (max a.len b.len - 1) 0)))
      (max a.len b.len)) (max a.len b.len) with h | h
    · exact h
    · have e := Nat.le_antisymm hb.2 h
      rw [e] at hne
      exact absurd rfl hne
  · rw [add_overflow w a b negateb hov]
    have hcw : toWord w (addLoops w a b negateb).1 = (addLoops w a b negateb).1 :=
      Nat.mod_eq_of_lt (by omega)
    have hset : ((addLoops w a b negateb).2 ++ [0]).set (max a.len b.len)
        (toWord w (addLoops w a b negateb).1)
        = (addLoops w a b negateb).2 ++ [(addLoops w a b negateb).1] := by
      rw [hcw, ← hlen]; exact set_append_last _ _
    rw [hset]
    have hsa := HI_BIT_le_one w _ hw1 (getD_lt_of_all w _ ha.2.2 (a.len - 1))
    have hsb := HI_BIT_le_one w _ hw1 (getD_lt_of_all w _ hb.2.2 (b.len - 1))
    have hsr := HI_BIT_le_one w _ hw1 (getD_lt_of_all w _ hall (max a.len b.len - 1))
    refine ⟨⟨by simp, by simp [hlen], ?_⟩, ?_⟩
    · intro x hx
      rcases List.mem_append.1 hx with h | h
      · exact hall x h
      · rw [List.mem_singleton.1 h]; omega
    · right
      simp only [Nat.add_sub_cancel]
      have e1 : max a.len b.len + 1 - 2 = max a.len b.len - 1 := by omega
      have g1 : ((addLoops w a b negateb).2 ++ [(addLoops w a b negateb).1]).getD
          (max a.len b.len) 0 = (addLoops w a b negateb).1 := by
        rw [← hlen]; simp [List.getD_eq_getElem?_getD]
      have g2 : ((addLoops w a b negateb).2 ++ [(addLoops w a b negateb).1]).getD
          (max a.len b.len - 1) 0 = (addLoops w a b negateb).2.getD (max a.len b.len - 1) 0 :=
        getD_append_lt _ _ _ (by omega)
      rw [e1, g1, g2]
      have hhc : HI_BIT w (addLoops w a b negateb).1 = 0 := by
        refine (HI_BIT_eq_zero_iff w _ hw1 (by omega)).2 ?_
        have : 2 ^ 1 ≤ 2 ^ (w - 1) := Nat.pow_le_pow_right (by decide) (by omega)
        omega
      rw [hhc, negWord_zero]
      intro hcon
      have hcarry := addLoops_carry_one w hw1 a b negateb ha hb ?_ hcon.2
      · omega
      · unfold overflowed at hov
        simp only at hov
        rw [hcon.2] at hov
        cases negateb
        · simp only [Bool.false_eq_true, if_false, decide_eq_true_eq] at hov ⊢
          omega
        · simp only [if_true, decide_eq_true_eq] at hov ⊢
          omega

/-! ## Additive identity and self-subtraction -/

theorem set_getD_self (l : List Nat) (j : Nat) (hj : j < l.length) :
    l.set j (l.getD j 0) = l := by
  induction l generalizing j with
  | nil => simp at hj
  | cons x xs ih =>
    cases j with
    | zero => simp
    | succ j =>
      simp only [List.set, List.getD_cons_succ]
      rw [ih j (by simpa using hj)]

/-- Canonicalising an already canonical word sequence returns it unchanged. -/
theorem canonResult_of_canonical (w : Nat) (hw : 1 ≤ w) (a : BigInt)
    (ha : WellFormed w a) (hc : Canonical w a) :
    canonResult w a.data (HI_BIT w (a.data.getD (a.len - 1) 0)) a.len
      = BigInt.mk 0 a.len a.data := by
  obtain ⟨h1, hlen, hall⟩ := ha
  have hsa := HI_BIT_le_one w _ hw (getD_lt_of_all w _ hall (a.len - 1))
  unfold canonResult
  simp only
  by_cases htop : a.len ≤ 1 ∨
      a.data.getD (a.len - 1) 0 ≠ negWord w (HI_BIT w (a.data.getD (a.len - 1) 0))
  · rw [trimLoop_eq_self _ _ _ htop]
    simp only [ne_eq, not_true_eq_false, if_false]
    rw [List.take_of_length_le (by omega)]
  · have hlen2 : 2 ≤ a.len := by
      by_contra hcon
      exact htop (Or.inl (by omega))
    have hfill : a.data.getD (a.len - 1) 0
        = negWord w (HI_BIT w (a.data.getD (a.len - 1) 0)) := by
      by_contra hcon
      exact htop (Or.inr hcon)
    have hnext : HI_BIT w (a.data.getD (a.len - 2) 0)
        ≠ HI_BIT w (a.data.getD (a.len - 1) 0) := by
      rcases hc with hc | hc
      · omega
      · exact fun h => hc ⟨hfill, h⟩
    obtain ⟨n, hn⟩ : ∃ n, a.len = n + 2 := ⟨a.len - 2, by omega⟩
    have e1 : a.len - 1 = n + 1 := by omega
    have e2 : a.len - 2 = n := by omega
    rw [e1] at hfill hsa
    rw [e1, e2] at hnext
    rw [e1, hn]
    have t1 : trimLoop a.data (negWord w (HI_BIT w (a.data.getD (n + 1) 0))) (n + 2)
        = n + 1 := by
      rw [trimLoop, if_pos ⟨by omega, hfill⟩]
      refine trimLoop_eq_self _ _ _ (Or.inr ?_)
      simp only [Nat.add_sub_cancel]
      intro hcon
      apply hnext
      rw [hcon, HI_BIT_negWord w _ hw hsa]
    rw [t1]
    simp only [Nat.add_sub_cancel]
    rw [if_pos hnext, ← hfill, set_getD_self _ _ (by omega), List.take_of_length_le (by omega)]

theorem opA_zero (a : BigInt) (ha : 1 ≤ a.len) : opA a zero = a.data := by
  have : max a.len zero.len - a.len = 0 := by
    show max a.len 1 - a.len = 0
    omega
  simp [opA, this]

theorem uval_opB_zero (w : Nat) (a : BigInt) : uval w (opB w a zero false) = 0 := by
  have h0 : HI_BIT w 0 = 0 := by simp [HI_BIT]
  simp only [opB, Bool.false_eq_true, if_false, zero, List.getD_cons_zero,
    Nat.sub_self, h0, negWord_zero]
  rw [uval_append, uval_replicate_zero]
  simp [uval]

/-- The working buffer of `add(a, zero, false)` holds the words of `a` and the
final carry is zero. -/
theorem addLoops_zero (w : Nat) (hw : 1 ≤ w) (a : BigInt) (ha : WellFormed w a) :
    addLoops w a zero false = (0, a.data) := by
  have hz : WellFormed w zero := by
    refine ⟨by decide, rfl, ?_⟩
    intro x hx
    rw [List.mem_singleton.1 hx]; exact Nat.pow_pos (by decide)
  obtain ⟨hlen, hc, hall, hval⟩ := addLoops_spec w hw a zero false ha hz
  have hL : max a.len zero.len = a.len := by
    show max a.len 1 = a.len
    have := ha.1; omega
  rw [hL] at hlen hval
  rw [List.take_of_length_le (by omega), List.take_of_length_le
    (by rw [opA_length w a zero ha, hL]), List.take_of_length_le
    (by rw [opB_length w a zero false hz, hL]), opA_zero a ha.1, uval_opB_zero] at hval
  simp only [Bool.false_eq_true, if_false, Nat.add_zero] at hval
  have hlt := uval_lt w a.data ha.2.2
  rw [ha.2.1] at hlt
  have hc0 : (addLoops w a zero false).1 = 0 := by
    by_contra hcon
    have : (addLoops w a zero false).1 = 1 := by omega
    rw [this] at hval
    omega
  rw [hc0] at hval
  have hres : (addLoops w a zero false).2 = a.data :=
    uval_inj w _ _ (by rw [hlen, ha.2.1]) hall ha.2.2 (by omega)
  exact Prod.ext hc0 hres

theorem add_zero_eq (w : Nat) (hw : 1 ≤ w) (a : BigInt) (ha : WellFormed w a)
    (hc : Canonical w a) : add w a zero false = BigInt.mk 0 a.len a.data := by
  have hloops := addLoops_zero w hw a ha
  have hL : max a.len zero.len = a.len := by
    show max a.len 1 = a.len
    have := ha.1; omega
  have hov : overflowed w a zero false = false := by
    unfold overflowed
    simp only [hloops, hL, Bool.false_eq_true, if_false]
    simp
  rw [add_no_overflow w a zero false hov, hloops, hL]
  exact canonResult_of_canonical w hw a ha hc

theorem uval_map_notWord (w : Nat) (l : List Nat) (h : ∀ x ∈ l, x < 2 ^ w) :
    uval w l + uval w (l.map (notWord w)) + 1 = 2 ^ (w * l.length) := by
  induction l with
  | nil => simp [uval]
  | cons x xs ih =>
    have hx : x < 2 ^ w := h x (List.mem_cons_self _ _)
    have hxs := ih (fun y hy => h y (List.mem_cons_of_mem _ hy))
    simp only [List.map_cons, uval, List.length_cons]
    rw [Nat.mul_succ, Nat.pow_add, ← hxs, notWord_eq w x hx]
    have e : (uval w xs + uval w (List.map (notWord w) xs) + 1) * 2 ^ w
        = 2 ^ w * uval w xs + 2 ^ w * uval w (List.map (notWord w) xs) + 2 ^ w := by ring
    omega

theorem opA_self (a : BigInt) : opA a a = a.data := by
  simp [opA]

theorem opB_self (w : Nat) (a : BigInt) : opB w a a true = a.data.map (notWord w) := by
  simp [opB]

/-- The working buffer of `add(a, a, true)` is all-zero and the final carry
is one. -/
theorem addLoops_self (w : Nat) (hw : 1 ≤ w) (a : BigInt) (ha : WellFormed w a) :
    addLoops w a a true = (1, List.replicate a.len 0) := by
  obtain ⟨hlen, hc, hall, hval⟩ := addLoops_spec w hw a a true ha ha
  rw [Nat.max_self] at hlen hval
  rw [List.take_of_length_le (by omega), List.take_of_length_le
    (by rw [opA_length w a a ha, Nat.max_self]), List.take_of_length_le
    (by rw [opB_length w a a true ha, Nat.max_self]), opA_self, opB_self] at hval
  simp only [if_true] at hval
  rw [uval_map_notWord w a.data ha.2.2, ha.2.1] at hval
  have hlt := uval_lt w _ hall
  rw [hlen] at hlt
  have hc1 : (addLoops w a a true).1 = 1 := by
    by_contra hcon
    have : (addLoops w a a true).1 = 0 := by omega
    rw [this] at hval
    omega
  rw [hc1] at hval
  have hres : (addLoops w a a true).2 = List.replicate a.len 0 := by
    refine uval_inj w _ _ (by simp [hlen]) hall ?_ ?_
    · intro x hx
      rw [(List.mem_replicate.1 hx).2]; exact Nat.pow_pos (by decide)
    · rw [uval_replicate_zero]; omega
  exact Prod.ext hc1 hres

theorem getD_replicate_zero (m j : Nat) : (List.replicate m 0).getD j 0 = 0 := by
  rw [List.getD_eq_getElem?_getD, List.getElem?_replicate]
  split <;> rfl

theorem trimLoop_replicate_zero (m : Nat) :
    ∀ n, 1 ≤ n → n ≤ m → trimLoop (List.replicate m 0) 0 n = 1
  | 0, h, _ => by omega
  | 1, _, _ => by simp [trimLoop]
  | n + 2, _, h => by
    have ih := trimLoop_replicate_zero m (n + 1) (by omega) (by omega)
    have g : (List.replicate m 0).getD (n + 1) 0 = 0 := getD_replicate_zero m (n + 1)
    rw [trimLoop, if_pos ⟨by omega, g⟩]
    exact ih

theorem add_self_eq (w : Nat) (hw : 1 ≤ w) (a : BigInt) (ha : WellFormed w a) :
    add w a a true = zero := by
  have hloops := addLoops_self w hw a ha
  have hov : overflowed w a a true = false := by
    unfold overflowed
    simp
  have h0 : HI_BIT w 0 = 0 := by simp [HI_BIT]
  have g : ∀ j, (List.replicate a.len 0).getD j 0 = 0 := getD_replicate_zero a.len
  rw [add_no_overflow w a a true hov, hloops, Nat.max_self]
  unfold canonResult
  simp only [g, h0, negWord_zero, ne_eq, not_true_eq_false, if_false]
  rw [trimLoop_replicate_zero a.len a.len ha.1 (Nat.le_refl _)]
  have : List.take 1 (List.replicate a.len 0) = [0] := by
    obtain ⟨n, hn⟩ : ∃ n, a.len = n + 1 := ⟨a.len - 1, by have := ha.1; omega⟩
    rw [hn]; simp [List.replicate_succ]
  rw [this]; rfl

/-! ## The digit and negation loops of `fromStr` -/

theorem addAndCarry_snd_lt (w a b c : Nat) : (addAndCarry w a b c).2 < 2 ^ w :=
  Nat.mod_lt _ (Nat.pow_pos (by decide))

/-- One word of the multiply-by-ten step: `10 * x + c` is the stored word plus
the outgoing carry times the base. -/
theorem mulWord_spec (w x c : Nat) (hw : 4 ≤ w) (hx : x < 2 ^ w) (hc : c ≤ 9) :
    (addAndCarry w (shlWord w x 3) (shlWord w x 1) (toWord w c)).2 +
        (HI_3_BITS w x + HI_BIT w x +
          (addAndCarry w (shlWord w x 3) (shlWord w x 1) (toWord w c)).1) * 2 ^ w
      = 10 * x + c ∧
    HI_3_BITS w x + HI_BIT w x +
      (addAndCarry w (shlWord w x 3) (shlWord w x 1) (toWord w c)).1 ≤ 9 := by
  have hW := Nat.pow_pos (n := w) (show 0 < 2 by decide)
  have h16 : 2 ^ 4 ≤ 2 ^ w := Nat.pow_le_pow_right (by decide) hw
  have hcw : toWord w c = c := Nat.mod_eq_of_lt (by omega)
  have e3 : 2 ^ w = 2 ^ (w - 3) * 2 ^ 3 := by rw [← Nat.pow_add]; congr 1; omega
  have e1 : 2 ^ w = 2 ^ (w - 1) * 2 ^ 1 := by rw [← Nat.pow_add]; congr 1; omega
  have d3 : x * 2 ^ 3 / 2 ^ w = HI_3_BITS w x := by
    unfold HI_3_BITS
    rw [e3]
    exact Nat.mul_div_mul_right x _ (by norm_num)
  have d1 : x * 2 ^ 1 / 2 ^ w = HI_BIT w x := by
    unfold HI_BIT
    rw [e1]
    exact Nat.mul_div_mul_right x _ (by norm_num)
  have m3 := Nat.div_add_mod (x * 2 ^ 3) (2 ^ w)
  have m1 := Nat.div_add_mod (x * 2 ^ 1) (2 ^ w)
  rw [d3] at m3
  rw [d1] at m1
  have hs := addAndCarry_spec w (shlWord w x 3) (shlWord w x 1) c
    (Nat.mod_lt _ hW) (Nat.mod_lt _ hW) (by omega)
  rw [hcw]
  unfold shlWord at *
  generalize (addAndCarry w (x * 2 ^ 3 % 2 ^ w) (x * 2 ^ 1 % 2 ^ w) c).1 = r1 at *
  generalize (addAndCarry w (x * 2 ^ 3 % 2 ^ w) (x * 2 ^ 1 % 2 ^ w) c).2 = r2 at *
  generalize HI_3_BITS w x = h3 at *
  generalize HI_BIT w x = h1 at *
  generalize x * 2 ^ 3 % 2 ^ w = s3 at *
  generalize x * 2 ^ 1 % 2 ^ w = s1 at *
  clear e3 e1 d3 d1
  generalize 2 ^ w = W at *
  have key : r2 + (h3 + h1 + r1) * W = 10 * x + c := by
    have : (h3 + h1 + r1) * W = W * h3 + W * h1 + r1 * W := by ring
    omega
  refine ⟨key, ?_⟩
  by_contra hcon
  have : 10 * W ≤ (h3 + h1 + r1) * W := Nat.mul_le_mul_right _ (by omega)
  omega

theorem mulStep_inv (w cap : Nat) (hw : 4 ≤ w) (data0 : List Nat) (d : Nat)
    (h0 : data0.length = cap)
    (j : Nat) (hj : j < cap) (s : Nat × List Nat) (h : MulInv w cap data0 d j s) :
    MulInv w cap data0 d (j + 1) (mulStep w j s) := by
  obtain ⟨hlen, hall, hc, hsame, hval⟩ := h
  have hx : s.2.getD j 0 < 2 ^ w := getD_lt_of_all w _ hall j
  obtain ⟨hs, hk⟩ := mulWord_spec w (s.2.getD j 0) s.1 hw hx hc
  simp only [mulStep]
  refine ⟨by simp [hlen], all_lt_set w _ hall _ _ (addAndCarry_snd_lt _ _ _ _), hk, ?_, ?_⟩
  · intro i hi
    rw [getD_set_ne _ _ _ _ (by omega)]
    exact hsame i (by omega)
  · rw [uval_take_succ w _ j (by simp [hlen, hj]), take_set_self,
      getD_set_self _ _ _ (by omega), uval_take_succ w data0 j (by omega), ← hsame j (Nat.le_refl _)]
    have e : w * (j + 1) = w * j + w := by ring
    rw [e, Nat.pow_add]
    generalize 2 ^ (w * j) = P at *
    generalize 2 ^ w = W at *
    generalize (addAndCarry w (shlWord w (s.2.getD j 0) 3) (shlWord w (s.2.getD j 0) 1)
      (toWord w s.1)).2 = r2 at *
    generalize HI_3_BITS w (s.2.getD j 0) + HI_BIT w (s.2.getD j 0) +
      (addAndCarry w (shlWord w (s.2.getD j 0) 3) (shlWord w (s.2.getD j 0) 1)
      (toWord w s.1)).1 = k at *
    have h3 : P * r2 + k * (P * W) = 10 * (P * s.2.getD j 0) + P * s.1 := by
      have : P * (r2 + k * W) = P * (10 * s.2.getD j 0 + s.1) := by rw [hs]
      linarith
    linarith

/-- One digit step of `fromStr` computes `10 * V + d` over the whole buffer,
up to the final carry. -/
theorem mulTenAdd_spec (w cap : Nat) (hw : 4 ≤ w) (hcap : 1 ≤ cap) (data : List Nat) (d : Nat)
    (hd : d ≤ 9) (hlen : data.length = cap) (hall : ∀ x ∈ data, x < 2 ^ w) :
    (mulTenAdd w cap data d).2.length = cap ∧
      (∀ x ∈ (mulTenAdd w cap data d).2, x < 2 ^ w) ∧
      uval w (mulTenAdd w cap data d).2 + (mulTenAdd w cap data d).1 * 2 ^ (w * cap)
        = 10 * uval w data + d := by
  have hx : data.getD 0 0 < 2 ^ w := getD_lt_of_all w _ hall 0
  obtain ⟨hs, hk⟩ := mulWord_spec w (data.getD 0 0) d hw hx hd
  have hinit : MulInv w cap data d 1
      (HI_3_BITS w (data.getD 0 0) + HI_BIT w (data.getD 0 0) +
        (addAndCarry w (shlWord w (data.getD 0 0) 3) (shlWord w (data.getD 0 0) 1)
          (toWord w d)).1,
       data.set 0 (addAndCarry w (shlWord w (data.getD 0 0) 3) (shlWord w (data.getD 0 0) 1)
          (toWord w d)).2) := by
    refine ⟨by simp [hlen], all_lt_set w _ hall _ _ (addAndCarry_snd_lt _ _ _ _), hk, ?_, ?_⟩
    · intro i hi
      exact getD_set_ne _ _ _ _ (by omega)
    · simp only
      rw [uval_take_succ w _ 0 (by simp [hlen]; omega), uval_take_succ w data 0 (by omega),
        getD_set_self _ _ _ (by omega)]
      simp only [List.take_zero, uval, Nat.mul_zero, Nat.pow_zero, Nat.zero_add, Nat.one_mul,
        Nat.mul_one] at hs ⊢
      omega
  have hfin := forLoop_inv (mulStep w) (MulInv w cap data d) (cap - 1) 1 _ hinit
    (fun j t _ hj2 hp => mulStep_inv w cap hw data d hlen j (by omega) t hp)
  have e : 1 + (cap - 1) = cap := by omega
  rw [e] at hfin
  obtain ⟨h1, h2, _, _, h5⟩ := hfin
  refine ⟨h1, h2, ?_⟩
  rw [List.take_of_length_le (by omega), List.take_of_length_le (by omega)] at h5
  exact h5

theorem negStep_inv (w cap : Nat) (hw : 1 ≤ w) (data0 : List Nat)
    (h0 : data0.length = cap) (j : Nat) (hj : j < cap) (s : Nat × List Nat)
    (h : NegInv w cap data0 j s) : NegInv w cap data0 (j + 1) (negStep w j s) := by
  obtain ⟨hlen, hall, hc, hsame, hval⟩ := h
  have h1 := one_lt_two_pow w hw
  have hx : s.2.getD j 0 < 2 ^ w := getD_lt_of_all w _ hall j
  have hcw : toWord w s.1 = s.1 := Nat.mod_eq_of_lt (by omega)
  have hs := addAndCarry_spec w (notWord w (s.2.getD j 0)) s.1 0 (notWord_lt w _) (by omega)
    (by omega)
  have hk : (addAndCarry w (notWord w (s.2.getD j 0)) s.1 0).1 ≤ 1 := by
    by_contra hcon
    have h4 : 2 * 2 ^ w ≤ (addAndCarry w (notWord w (s.2.getD j 0)) s.1 0).1 * 2 ^ w :=
      Nat.mul_le_mul_right _ (by omega)
    have := notWord_lt w (s.2.getD j 0)
    omega
  have hn := notWord_eq w _ hx
  simp only [negStep, hcw]
  refine ⟨by simp [hlen], all_lt_set w _ hall _ _ (addAndCarry_snd_lt _ _ _ _), hk, ?_, ?_⟩
  · intro i hi
    rw [getD_set_ne _ _ _ _ (by omega)]
    exact hsame i (by omega)
  · rw [uval_take_succ w _ j (by simp [hlen, hj]), take_set_self,
      getD_set_self _ _ _ (by omega), uval_take_succ w data0 j (by omega), ← hsame j (Nat.le_refl _)]
    have e : w * (j + 1) = w * j + w := by ring
    rw [e, Nat.pow_add]
    generalize 2 ^ (w * j) = P at *
    generalize 2 ^ w = W at *
    generalize (addAndCarry w (notWord w (s.2.getD j 0)) s.1 0).2 = r2 at *
    generalize (addAndCarry w (notWord w (s.2.getD j 0)) s.1 0).1 = r1 at *
    have hs1 := hs.1
    generalize notWord w (s.2.getD j 0) = nx at *
    generalize s.2.getD j 0 = dj at *
    have h3 : P * r2 + r1 * (P * W) + P * dj + P = P * W + P * s.1 := by
      have : P * (r2 + r1 * W + dj + 1) = P * (W + s.1) := by
        congr 1; omega
      linarith
    linarith

/-- The negation loop of `fromStr` replaces the buffer value `V` by
`2 ^ (w * cap) - V`, the carry out being 1 exactly when `V = 0`. -/
theorem negLoop_spec (w cap : Nat) (hw : 1 ≤ w) (data : List Nat)
    (hlen : data.length = cap) (hall : ∀ x ∈ data, x < 2 ^ w) :
    (forLoop (negStep w) cap 0 (1, data)).2.length = cap ∧
      (∀ x ∈ (forLoop (negStep w) cap 0 (1, data)).2, x < 2 ^ w) ∧
      (forLoop (negStep w) cap 0 (1, data)).1 ≤ 1 ∧
      uval w (forLoop (negStep w) cap 0 (1, data)).2 +
        (forLoop (negStep w) cap 0 (1, data)).1 * 2 ^ (w * cap) + uval w data
          = 2 ^ (w * cap) := by
  have hinit : NegInv w cap data 0 (1, data) :=
    ⟨hlen, hall, Nat.le_refl _, fun _ _ => rfl, by simp [uval]⟩
  have hfin := forLoop_inv (negStep w) (NegInv w cap data) cap 0 _ hinit
    (fun j t _ hj2 hp => negStep_inv w cap hw data hlen j (by omega) t hp)
  rw [Nat.zero_add] at hfin
  obtain ⟨h1, h2, h3, _, h5⟩ := hfin
  refine ⟨h1, h2, h3, ?_⟩
  rw [List.take_of_length_le (by omega), List.take_of_length_le (by omega)] at h5
  exact h5

/-- The digit loop of `fromStr`, when no assertion fires on a run of digits,
leaves `fold (10 * v + digit)` of the initial buffer value in the buffer. -/
theorem digitLoop_spec (w cap : Nat) (hw : 4 ≤ w) (hcap : 1 ≤ cap) :
    ∀ (cs : List Char) (data data1 : List Nat), (∀ c ∈ cs, IsDigit c) →
      data.length = cap → (∀ x ∈ data, x < 2 ^ w) →
      digitLoop w cap cs data = .ok data1 →
      data1.length = cap ∧ (∀ x ∈ data1, x < 2 ^ w) ∧
        uval w data1 = cs.foldl (fun v c => 10 * v + (c.toNat - 48)) (uval w data)
  | [], data, data1, _, hlen, hall, h => by
    simp only [digitLoop, Except.ok.injEq] at h
    subst h
    exact ⟨hlen, hall, rfl⟩
  | c :: cs, data, data1, hcs, hlen, hall, h => by
    have hc : IsDigit c := hcs c (List.mem_cons_self _ _)
    unfold IsDigit at hc
    have hsp := mulTenAdd_spec w cap hw hcap data (c.toNat - 48) (by omega) hlen hall
    rw [digitLoop, if_neg (by omega), if_neg (not_not.2 hc)] at h
    simp only at h
    by_cases hk : (mulTenAdd w cap data (c.toNat - 48)).1 = 0
    · rw [if_neg (not_not.2 hk)] at h
      have ih := digitLoop_spec w cap hw hcap cs _ data1
        (fun c' hc' => hcs c' (List.mem_cons_of_mem _ hc')) hsp.1 hsp.2.1 h
      refine ⟨ih.1, ih.2.1, ?_⟩
      rw [ih.2.2, List.foldl_cons]
      have := hsp.2.2
      rw [hk] at this
      simp only [Nat.zero_mul, Nat.add_zero] at this
      rw [this]
    · rw [if_pos hk] at h
      cases h

/-! ## Value of the canonicalised result -/

theorem uval_fill_tail (w : Nat) (l : List Nat) (v n : Nat) :
    ∀ k, n + k ≤ l.length → (∀ j, n ≤ j → j < n + k → l.getD j 0 = v) →
      uval w (l.take (n + k)) = uval w (l.take n) + 2 ^ (w * n) * uval w (List.replicate k v)
  | 0, _, _ => by simp [uval]
  | k + 1, hk, hv => by
    have ih := uval_fill_tail w l v n k (by omega) (fun j h1 h2 => hv j h1 (by omega))
    have e : n + (k + 1) = n + k + 1 := by omega
    rw [e, uval_take_succ w l (n + k) (by omega), ih, hv (n + k) (by omega) (by omega),
      List.replicate_succ', uval_append, List.length_replicate]
    simp only [uval, Nat.mul_zero, Nat.add_zero]
    have e2 : w * (n + k) = w * n + w * k := by ring
    rw [e2, Nat.pow_add]
    ring

/-- Trimming fill words keeps the value of the buffer read as a two's
complement number whose sign is `negative`. -/
theorem trim_value (w : Nat) (hw : 1 ≤ w) (res : List Nat) (negative L n : Nat)
    (hneg : negative ≤ 1) (hlen : res.length = L) (hn : n ≤ L)
    (hfill : ∀ j, n ≤ j → j < L → res.getD j 0 = negWord w negative) :
    (uval w res : Int) - negative * 2 ^ (w * L)
      = (uval w (res.take n) : Int) - negative * 2 ^ (w * n) := by
  have h := uval_fill_tail w res (negWord w negative) n (L - n) (by omega)
    (fun j h1 h2 => hfill j h1 (by omega))
  have e : n + (L - n) = L := by omega
  rw [e, List.take_of_length_le (by omega)] at h
  rcases Nat.le_one_iff_eq_zero_or_eq_one.1 hneg with h0 | h0
  · subst h0
    rw [negWord_zero, uval_replicate_zero] at h
    simp [h]
  · subst h0
    rw [negWord_one w hw] at h
    have h2 := uval_replicate_ones w (L - n)
    have h3 : 2 ^ (w * L) = 2 ^ (w * n) * 2 ^ (w * (L - n)) := by
      rw [← Nat.pow_add]; congr 1
      rw [← Nat.mul_add, e]
    have h4 : (uval w res : Int) + 2 ^ (w * n) = uval w (res.take n) + 2 ^ (w * L) := by
      have : uval w res + 2 ^ (w * n) = uval w (res.take n) + 2 ^ (w * L) := by
        rw [h, h3, ← h2]; ring
      exact_mod_cast this
    push_cast
    linarith

/-- The value of the canonicalised result is the value of the buffer read as
a two's complement number whose sign is `negative`. -/
theorem canonResult_value (w : Nat) (hw : 1 ≤ w) (res : List Nat) (negative L : Nat)
    (hneg : negative ≤ 1) (hL : 1 ≤ L) (hlen : res.length = L)
    (hroom : HI_BIT w (res.getD (trimLoop res (negWord w negative) L - 1) 0) ≠ negative →
      trimLoop res (negWord w negative) L < L) :
    value w (canonResult w res negative L) = (uval w res : Int) - negative * 2 ^ (w * L) := by
  have hb := trimLoop_bounds res (negWord w negative) L hL
  have hdrop := trimLoop_dropped res (negWord w negative) L
  rw [trim_value w hw res negative L _ hneg hlen hb.2 hdrop]
  unfold canonResult value sval
  simp only
  generalize trimLoop res (negWord w negative) L = n at *
  by_cases hs : HI_BIT w (res.getD (n - 1) 0) = negative
  · rw [if_neg (not_not.2 hs)]
    simp only
    have el : (res.take n).length = n := by simp only [List.length_take]; omega
    rw [el, getD_take_lt res (n - 1) n (by omega), hs]
    rcases Nat.le_one_iff_eq_zero_or_eq_one.1 hneg with h0 | h0
    · subst h0; simp
    · subst h0; simp
  · rw [if_pos hs]
    simp only
    have hn := hroom hs
    have el : ((res.set n (negWord w negative)).take (n + 1)).length = n + 1 := by
      simp only [List.length_take, List.length_set]; omega
    have et : (res.set n (negWord w negative)).take (n + 1)
        = res.take n ++ [negWord w negative] := by
      rw [List.take_succ, take_set_self]
      congr 1
      have : (res.set n (negWord w negative))[n]? = some (negWord w negative) := by
        rw [List.getElem?_set_self (by omega)]
      rw [this]; rfl
    rw [el, Nat.add_sub_cancel, getD_take_lt _ n (n + 1) (by omega),
      getD_set_self res n _ (by omega), HI_BIT_negWord w negative hw hneg, et, uval_append]
    have el2 : (res.take n).length = n := by simp only [List.length_take]; omega
    rw [el2]
    have e : w * (n + 1) = w * n + w := by ring
    rcases Nat.le_one_iff_eq_zero_or_eq_one.1 hneg with h0 | h0
    · subst h0
      rw [negWord_zero]; simp [uval]
    · subst h0
      rw [negWord_one w hw, e, pow_add]
      simp only [uval, if_true, Nat.mul_zero, Nat.add_zero]
      have h1 := one_lt_two_pow w hw
      push_cast [Nat.sub_add_cancel (Nat.le_of_lt h1)]
      have : ((2 ^ w - 1 : Nat) : Int) = 2 ^ w - 1 := by
        rw [Nat.cast_sub (Nat.le_of_lt h1)]; simp
      rw [this]
      ring

/-! ## Results of `fromStr` -/

theorem fromStr_eq (w : Nat) (str : List Char) :
    fromStr w str =
      match digitLoop w (capOf w str) (numeralDigits str) (List.replicate (capOf w str) 0) with
      | .error e => .error e
      | .ok data1 =>
        if HI_BIT w ((negated w (capOf w str) (signOf str) data1).getD
            (trimLoop (negated w (capOf w str) (signOf str) data1)
              (negWord w (signOf str)) (capOf w str) - 1) 0) ≠ signOf str ∧
            ¬ trimLoop (negated w (capOf w str) (signOf str) data1)
              (negWord w (signOf str)) (capOf w str) < capOf w str
        then .error Fatal.noRoom
        else .ok (canonResult w (negated w (capOf w str) (signOf str) data1) (signOf str)
          (capOf w str)) := by
  unfold fromStr canonResult negated capOf signOf numeralDigits
  by_cases hs : str.head? = some '-'
  · simp only [hs, decide_True, if_true]
    generalize digitLoop w _ _ _ = r
    cases r with
    | error e => rfl
    | ok d =>
      simp only
      split_ifs <;> first | rfl | omega
  · simp only [hs, decide_False, if_false, Bool.false_eq_true]
    generalize digitLoop w _ _ _ = r
    cases r with
    | error e => rfl
    | ok d =>
      simp only
      split_ifs <;> first | rfl | omega

theorem capOf_pos (w : Nat) (str : List Char) : 1 ≤ capOf w str := by
  unfold capOf; exact Nat.le_add_right 1 _

theorem signOf_le_one (str : List Char) : signOf str ≤ 1 := by
  unfold signOf; split <;> omega

theorem all_lt_replicate_zero (w n : Nat) : ∀ x ∈ List.replicate n 0, x < 2 ^ w := by
  intro x hx
  rw [(List.mem_replicate.1 hx).2]; exact Nat.pow_pos (by decide)

/-- Whatever the characters, a buffer returned by the digit loop is a full
buffer of words. -/
theorem digitLoop_wf (w cap : Nat) (hw : 4 ≤ w) (hcap : 1 ≤ cap) :
    ∀ (cs : List Char) (data data1 : List Nat),
      data.length = cap → (∀ x ∈ data, x < 2 ^ w) →
      digitLoop w cap cs data = .ok data1 →
      data1.length = cap ∧ (∀ x ∈ data1, x < 2 ^ w)
  | [], data, data1, hlen, hall, h => by
    simp only [digitLoop, Except.ok.injEq] at h
    subst h
    exact ⟨hlen, hall⟩
  | c :: cs, data, data1, hlen, hall, h => by
    rw [digitLoop] at h
    by_cases h0 : c.toNat = 0
    · rw [if_pos h0] at h
      simp only [Except.ok.injEq] at h
      subst h
      exact ⟨hlen, hall⟩
    · rw [if_neg h0] at h
      by_cases hc : 48 ≤ c.toNat ∧ c.toNat ≤ 57
      · rw [if_neg (not_not.2 hc)] at h
        simp only at h
        have hsp := mulTenAdd_spec w cap hw hcap data (c.toNat - 48) (by omega) hlen hall
        by_cases hk : (mulTenAdd w cap data (c.toNat - 48)).1 = 0
        · rw [if_neg (not_not.2 hk)] at h
          exact digitLoop_wf w cap hw hcap cs _ data1 hsp.1 hsp.2.1 h
        · rw [if_pos hk] at h
          cases h
      · rw [if_pos hc] at h
        cases h

theorem negated_wf (w cap negative : Nat) (hw : 1 ≤ w) (data1 : List Nat)
    (hlen : data1.length = cap) (hall : ∀ x ∈ data1, x < 2 ^ w) :
    (negated w cap negative data1).length = cap ∧
      ∀ x ∈ negated w cap negative data1, x < 2 ^ w := by
  unfold negated
  split
  · have := negLoop_spec w cap hw data1 hlen hall
    exact ⟨this.1, this.2.1⟩
  · exact ⟨hlen, hall⟩

/-- A returned result of `fromStr` is the canonicalised buffer, and the
re-append guard had room. -/
theorem fromStr_ok (w : Nat) (str : List Char) (r : BigInt) (h : fromStr w str = .ok r) :
    ∃ data1, digitLoop w (capOf w str) (numeralDigits str) (List.replicate (capOf w str) 0)
        = .ok data1 ∧
      (HI_BIT w ((negated w (capOf w str) (signOf str) data1).getD
            (trimLoop (negated w (capOf w str) (signOf str) data1)
              (negWord w (signOf str)) (capOf w str) - 1) 0) ≠ signOf str →
          trimLoop (negated w (capOf w str) (signOf str) data1)
            (negWord w (signOf str)) (capOf w str) < capOf w str) ∧
      r = canonResult w (negated w (capOf w str) (signOf str) data1) (signOf str)
        (capOf w str) := by
  rw [fromStr_eq] at h
  cases hd : digitLoop w (capOf w str) (numeralDigits str) (List.replicate (capOf w str) 0) with
  | error e => rw [hd] at h; cases h
  | ok data1 =>
    rw [hd] at h
    simp only at h
    refine ⟨data1, rfl, ?_⟩
    split at h
    · cases h
    · next hg =>
      simp only [Except.ok.injEq] at h
      refine ⟨?_, h.symm⟩
      intro hne
      by_contra hcon
      exact hg ⟨hne, hcon⟩

theorem fromStr_wellFormed_canonical (w : Nat) (hw : 4 ≤ w) (str : List Char) (r : BigInt)
    (h : fromStr w str = .ok r) : WellFormed w r ∧ Canonical w r := by
  obtain ⟨data1, hd, hroom, hr⟩ := fromStr_ok w str r h
  have hcap := capOf_pos w str
  have h1 := digitLoop_wf w _ hw hcap _ _ data1 (by simp)
    (all_lt_replicate_zero w _) hd
  have h2 := negated_wf w (capOf w str) (signOf str) (by omega) data1 h1.1 h1.2
  rw [hr]
  exact canonResult_spec w (by omega) _ _ _ h2.2 (signOf_le_one str) hcap (by omega) hroom

theorem trimLoop_zeros_ones (w cap : Nat) (hw : 1 ≤ w) :
    trimLoop (List.replicate cap 0) (negWord w 1) cap = cap := by
  refine trimLoop_eq_self _ _ _ (Or.inr ?_)
  rw [getD_replicate_zero, negWord_one w hw]
  have := one_lt_two_pow w hw
  omega

theorem fromStr_value_eq (w : Nat) (hw : 4 ≤ w) (text : List Char) (ht : IsNumeral text)
    (r : BigInt) (h : fromStr w text = .ok r) : value w r = numeralValue text := by
  obtain ⟨data1, hd, hroom, hr⟩ := fromStr_ok w text r h
  have hcap := capOf_pos w text
  have hw1 : 1 ≤ w := by omega
  have h1 := digitLoop_spec w _ hw hcap _ _ data1 ht.2 (by simp)
    (all_lt_replicate_zero w _) hd
  have h2 := negated_wf w (capOf w text) (signOf text) hw1 data1 h1.1 h1.2.1
  have hv := canonResult_value w hw1 _ _ _ (signOf_le_one text) hcap h2.1 hroom
  rw [uval_replicate_zero] at h1
  rw [hr, hv]
  by_cases hs : text.head? = some '-'
  · have hsign : signOf text = 1 := by simp [signOf, hs]
    have hdig : numeralDigits text = text.tail := by simp [numeralDigits, hs]
    have hnv : numeralValue text = - (digitsValue text.tail : Int) := by
      simp [numeralValue, hs]
    rw [hsign] at hroom ⊢
    rw [hnv]
    have hneg : negated w (capOf w text) 1 data1
        = (forLoop (negStep w) (capOf w text) 0 (1, data1)).2 := by
      simp [negated]
    rw [hneg] at hroom ⊢
    obtain ⟨n1, n2, n3, n4⟩ := negLoop_spec w (capOf w text) hw1 data1 h1.1 h1.2.1
    rw [h1.2.2, hdig] at n4
    have hV : digitsValue text.tail
        = List.foldl (fun v c => 10 * v + (c.toNat - 48)) 0 text.tail := rfl
    rw [← hV] at n4
    rcases Nat.le_one_iff_eq_zero_or_eq_one.1 n3 with hc | hc
    · rw [hc] at n4
      have : (uval w (forLoop (negStep w) (capOf w text) 0 (1, data1)).2 : Int)
          + digitsValue text.tail = 2 ^ (w * capOf w text) := by
        have e : uval w (forLoop (negStep w) (capOf w text) 0 (1, data1)).2
          + digitsValue text.tail = 2 ^ (w * capOf w text) := by omega
        exact_mod_cast e
      push_cast
      linarith
    · exfalso
      rw [hc] at n4
      have hz : uval w (forLoop (negStep w) (capOf w text) 0 (1, data1)).2 = 0 := by omega
      have hzero : (forLoop (negStep w) (capOf w text) 0 (1, data1)).2
          = List.replicate (capOf w text) 0 :=
        uval_inj w _ _ (by simp [n1]) n2 (all_lt_replicate_zero w _)
          (by rw [uval_replicate_zero]; exact hz)
      rw [hzero, trimLoop_zeros_ones w _ hw1, getD_replicate_zero] at hroom
      have h0 : HI_BIT w 0 = 0 := by simp [HI_BIT]
      rw [h0] at hroom
      exact absurd (hroom (by decide)) (Nat.lt_irrefl _)
  · have hsign : signOf text = 0 := by simp [signOf, hs]
    have hdig : numeralDigits text = text := by simp [numeralDigits, hs]
    have hnv : numeralValue text = (digitsValue text : Int) := by
      simp [numeralValue, hs]
    have hneg : negated w (capOf w text) 0 data1 = data1 := by simp [negated]
    rw [hsign, hneg, hnv, h1.2.2, hdig]
    simp [digitsValue]

/-- On a NUL-free run of characters that contains a non-digit, the digit loop
of `fromStr` stops at an assertion. -/
theorem digitLoop_rejects (w cap : Nat) :
    ∀ (cs : List Char) (data : List Nat), (∀ c ∈ cs, c.toNat ≠ 0) →
      (∃ c ∈ cs, ¬ IsDigit c) →
      digitLoop w cap cs data = .error Fatal.notDigit ∨
        digitLoop w cap cs data = .error Fatal.carryOut
  | [], _, _, hbad => by
    obtain ⟨c, hc, _⟩ := hbad
    cases hc
  | c :: cs, data, hnul, hbad => by
    rw [digitLoop, if_neg (hnul c (List.mem_cons_self _ _))]
    by_cases hc : 48 ≤ c.toNat ∧ c.toNat ≤ 57
    · rw [if_neg (not_not.2 hc)]
      simp only
      by_cases hk : (mulTenAdd w cap data (c.toNat - 48)).1 = 0
      · rw [if_neg (not_not.2 hk)]
        refine digitLoop_rejects w cap cs _ (fun c' hc' => hnul c' (List.mem_cons_of_mem _ hc')) ?_
        obtain ⟨c', hc', hd'⟩ := hbad
        rcases List.mem_cons.1 hc' with h | h
        · subst h
          exact absurd hc hd'
        · exact ⟨c', h, hd'⟩
      · rw [if_pos hk]
        exact Or.inr rfl
    · rw [if_pos hc]
      exact Or.inl rfl

theorem numeralDigits_subset (text : List Char) : ∀ c ∈ numeralDigits text, c ∈ text := by
  intro c hc
  unfold numeralDigits at hc
  split at hc
  · exact List.mem_of_mem_tail hc
  · exact hc

theorem fromStr_rejects (w : Nat) (text : List Char) (hnul : ∀ c ∈ text, c.toNat ≠ 0)
    (hbad : ∃ c ∈ numeralDigits text, ¬ IsDigit c) :
    fromStr w text = .error Fatal.notDigit ∨ fromStr w text = .error Fatal.carryOut := by
  have h := digitLoop_rejects w (capOf w text) (numeralDigits text)
    (List.replicate (capOf w text) 0)
    (fun c hc => hnul c (numeralDigits_subset text c hc)) hbad
  rw [fromStr_eq]
  rcases h with h | h
  · left; rw [h]
  · right; rw [h]

theorem validWidth_ge (w : Nat) (hw : ValidWidth w) : 8 ≤ w := by
  unfold ValidWidth at hw; omega

/-! ## Capacity estimate and accepted numerals -/

theorem strlen_eq_length : ∀ (l : List Char), (∀ c ∈ l, c.toNat ≠ 0) → strlen l = l.length
  | [], _ => rfl
  | c :: cs, h => by
    rw [strlen, if_neg (h c (List.mem_cons_self _ _)),
      strlen_eq_length cs (fun c' hc' => h c' (List.mem_cons_of_mem _ hc'))]
    rfl

/-- The estimate `log2(10) <= 7/2` behind `TO_LOGB2`, for two or more digits. -/
theorem ten_pow_le_two_pow : ∀ n, 2 ≤ n → 10 ^ n ≤ 2 ^ (n * 7 / 2)
  | 0, h => by omega
  | 1, h => by omega
  | 2, _ => by decide
  | 3, _ => by decide
  | n + 4, _ => by
    have ih := ten_pow_le_two_pow (n + 2) (by omega)
    have e : (n + 4) * 7 / 2 = (n + 2) * 7 / 2 + 7 := by omega
    have e2 : (10 : Nat) ^ (n + 4) = 10 ^ (n + 2) * 100 := by
      have : n + 4 = n + 2 + 2 := rfl
      rw [this, Nat.pow_add (m := n + 2)]
    have e3 : (2 : Nat) ^ ((n + 2) * 7 / 2 + 7) = 2 ^ ((n + 2) * 7 / 2) * 128 := by
      rw [Nat.pow_add]
    calc 10 ^ (n + 4) = 10 ^ (n + 2) * 100 := e2
      _ ≤ 2 ^ ((n + 2) * 7 / 2) * 128 := Nat.mul_le_mul ih (by decide)
      _ = 2 ^ ((n + 4) * 7 / 2) := by rw [e, e3]

/-- The capacity estimate of `fromStr` leaves the sign bit free: `n >= 1`
digits in a string of `len >= n` characters denote less than
`2 ^ (w * cap - 1)`. -/
theorem ten_pow_le_cap (w n len : Nat) (hw : 8 ≤ w) (hn : 1 ≤ n) (hlen : n ≤ len) :
    10 ^ n ≤ 2 ^ (w * (1 + len * 7 / 2 / w) - 1) := by
  have hdm := Nat.div_add_mod (len * 7 / 2) w
  have hmod := Nat.mod_lt (len * 7 / 2) (show 0 < w by omega)
  have hexp : len * 7 / 2 ≤ w * (1 + len * 7 / 2 / w) - 1 := by
    rw [Nat.mul_add, Nat.mul_one]; omega
  rcases Nat.lt_or_ge n 2 with h1 | h2
  · have e : n = 1 := by omega
    subst e
    have h8 : 7 ≤ w * (1 + len * 7 / 2 / w) - 1 := by
      rw [Nat.mul_add, Nat.mul_one]; omega
    calc 10 ^ 1 ≤ 2 ^ 7 := by decide
      _ ≤ 2 ^ (w * (1 + len * 7 / 2 / w) - 1) := Nat.pow_le_pow_right (by decide) h8
  · calc 10 ^ n ≤ 2 ^ (n * 7 / 2) := ten_pow_le_two_pow n h2
      _ ≤ 2 ^ (w * (1 + len * 7 / 2 / w) - 1) :=
        Nat.pow_le_pow_right (by decide) (by omega)

theorem foldl_digits_bound : ∀ (ds : List Char) (v : Nat), (∀ c ∈ ds, IsDigit c) →
    ds.foldl (fun v c => 10 * v + (c.toNat - 48)) v + 1 ≤ (v + 1) * 10 ^ ds.length
  | [], v, _ => by simp
  | c :: cs, v, h => by
    have hc : IsDigit c := h c (List.mem_cons_self _ _)
    unfold IsDigit at hc
    have ih := foldl_digits_bound cs (10 * v + (c.toNat - 48))
      (fun c' hc' => h c' (List.mem_cons_of_mem _ hc'))
    rw [List.foldl_cons, List.length_cons, Nat.pow_succ]
    have h2 : (10 * v + (c.toNat - 48) + 1) * 10 ^ cs.length ≤ (10 * (v + 1)) * 10 ^ cs.length :=
      Nat.mul_le_mul_right _ (by omega)
    have e : (v + 1) * (10 ^ cs.length * 10) = (10 * (v + 1)) * 10 ^ cs.length := by ring
    rw [e]
    exact Nat.le_trans ih h2

theorem digitsValue_lt (ds : List Char) (h : ∀ c ∈ ds, IsDigit c) :
    digitsValue ds < 10 ^ ds.length := by
  have := foldl_digits_bound ds 0 h
  unfold digitsValue
  omega

/-- With room for the remaining digits, the digit loop of `fromStr` passes
every assertion. -/
theorem digitLoop_accepts (w cap : Nat) (hw : 4 ≤ w) (hcap : 1 ≤ cap) :
    ∀ (cs : List Char) (data : List Nat), (∀ c ∈ cs, IsDigit c) →
      data.length = cap → (∀ x ∈ data, x < 2 ^ w) →
      (uval w data + 1) * 10 ^ cs.length ≤ 2 ^ (w * cap) →
      ∃ data1, digitLoop w cap cs data = .ok data1
  | [], data, _, _, _, _ => ⟨data, rfl⟩
  | c :: cs, data, hcs, hlen, hall, hroom => by
    have hc : IsDigit c := hcs c (List.mem_cons_self _ _)
    unfold IsDigit at hc
    obtain ⟨s1, s2, s3⟩ := mulTenAdd_spec w cap hw hcap data (c.toNat - 48) (by omega) hlen hall
    rw [List.length_cons, Nat.pow_succ] at hroom
    have e : (uval w data + 1) * (10 ^ cs.length * 10)
        = (10 * (uval w data + 1)) * 10 ^ cs.length := by ring
    rw [e] at hroom
    have hstep : (10 * uval w data + (c.toNat - 48) + 1) * 10 ^ cs.length
        ≤ 2 ^ (w * cap) :=
      Nat.le_trans (Nat.mul_le_mul_right _ (by omega)) hroom
    have hpos : 1 ≤ 10 ^ cs.length := Nat.pow_pos (by decide)
    have hlt : 10 * uval w data + (c.toNat - 48) < 2 ^ (w * cap) := by
      have : (10 * uval w data + (c.toNat - 48) + 1) * 1
          ≤ (10 * uval w data + (c.toNat - 48) + 1) * 10 ^ cs.length :=
        Nat.mul_le_mul_left _ hpos
      omega
    have hk : (mulTenAdd w cap data (c.toNat - 48)).1 = 0 := by
      by_contra hne
      have : 1 * 2 ^ (w * cap) ≤ (mulTenAdd w cap data (c.toNat - 48)).1 * 2 ^ (w * cap) :=
        Nat.mul_le_mul_right _ (by omega)
      omega
    rw [hk] at s3
    simp only [Nat.zero_mul, Nat.add_zero] at s3
    rw [digitLoop, if_neg (by omega), if_neg (not_not.2 hc)]
    simp only
    rw [if_neg (not_not.2 hk)]
    exact digitLoop_accepts w cap hw hcap cs _
      (fun c' hc' => hcs c' (List.mem_cons_of_mem _ hc')) s1 s2 (by rw [s3]; exact hstep)

theorem two_pow_top_split (w L : Nat) (hw : 1 ≤ w) (hL : 1 ≤ L) :
    2 ^ (w * L - 1) = 2 ^ (w * (L - 1)) * 2 ^ (w - 1) := by
  rw [← Nat.pow_add]
  congr 1
  obtain ⟨k, rfl⟩ : ∃ k, L = k + 1 := ⟨L - 1, by omega⟩
  obtain ⟨v, rfl⟩ : ∃ v, w = v + 1 := ⟨w - 1, by omega⟩
  simp only [Nat.add_sub_cancel]
  rw [Nat.mul_succ]
  omega

/-- The sign bit of the top word is clear exactly when the unsigned value is
below half the range. -/
theorem HI_BIT_top_eq_zero (w : Nat) (hw : 1 ≤ w) (l : List Nat) (hL : 1 ≤ l.length)
    (hall : ∀ x ∈ l, x < 2 ^ w) (h : uval w l < 2 ^ (w * l.length - 1)) :
    HI_BIT w (l.getD (l.length - 1) 0) = 0 := by
  refine (HI_BIT_eq_zero_iff w _ hw (getD_lt_of_all w l hall _)).2 ?_
  rw [uval_top w l hL, two_pow_top_split w _ hw hL] at h
  by_contra hcon
  have : 2 ^ (w * (l.length - 1)) * 2 ^ (w - 1)
      ≤ 2 ^ (w * (l.length - 1)) * l.getD (l.length - 1) 0 :=
    Nat.mul_le_mul_left _ (by omega)
  omega

theorem HI_BIT_top_eq_one (w : Nat) (hw : 1 ≤ w) (l : List Nat) (hL : 1 ≤ l.length)
    (hall : ∀ x ∈ l, x < 2 ^ w) (h : 2 ^ (w * l.length - 1) ≤ uval w l) :
    HI_BIT w (l.getD (l.length - 1) 0) = 1 := by
  refine (HI_BIT_eq_one_iff w _ hw (getD_lt_of_all w l hall _)).2 ?_
  rw [uval_top w l hL, two_pow_top_split w _ hw hL] at h
  have h0 := uval_take_lt w l hall (l.length - 1) (by omega)
  by_contra hcon
  have : 2 ^ (w * (l.length - 1)) * (l.getD (l.length - 1) 0 + 1)
      ≤ 2 ^ (w * (l.length - 1)) * 2 ^ (w - 1) :=
    Nat.mul_le_mul_left _ (by omega)
  rw [Nat.mul_add, Nat.mul_one] at this
  omega

theorem numeral_strlen (text : List Char) (ht : IsNumeral text) :
    1 ≤ (numeralDigits text).length ∧ (numeralDigits text).length ≤ strlen text := by
  obtain ⟨hne, hdig⟩ := ht
  have h1 : 1 ≤ (numeralDigits text).length := by
    cases hd : numeralDigits text with
    | nil => exact absurd hd hne
    | cons c cs => simp
  have hnul : ∀ c ∈ text, c.toNat ≠ 0 := by
    intro c hc
    unfold numeralDigits at hdig
    by_cases hs : text.head? = some '-'
    · rw [if_pos hs] at hdig
      cases text with
      | nil => cases hc
      | cons x xs =>
        simp only [List.head?_cons, Option.some.injEq] at hs
        rcases List.mem_cons.1 hc with h | h
        · rw [h, hs]; decide
        · have := hdig c h
          unfold IsDigit at this; omega
    · rw [if_neg hs] at hdig
      have := hdig c hc
      unfold IsDigit at this; omega
  refine ⟨h1, ?_⟩
  rw [strlen_eq_length text hnul]
  unfold numeralDigits
  split
  · simp
  · exact Nat.le_refl _

/-- On a well-formed numeral the digit loop of `fromStr` passes its
assertions and leaves the magnitude, which is below half the buffer range. -/
theorem digitLoop_numeral (w : Nat) (hw : 8 ≤ w) (text : List Char) (ht : IsNumeral text) :
    ∃ data1, digitLoop w (capOf w text) (numeralDigits text)
        (List.replicate (capOf w text) 0) = .ok data1 ∧
      data1.length = capOf w text ∧ (∀ x ∈ data1, x < 2 ^ w) ∧
      uval w data1 = digitsValue (numeralDigits text) ∧
      uval w data1 < 2 ^ (w * capOf w text - 1) := by
  have hcap := capOf_pos w text
  obtain ⟨hn1, hn2⟩ := numeral_strlen text ht
  have hten := ten_pow_le_cap w _ (strlen text) hw hn1 hn2
  have hhalf : 2 ^ (w * capOf w text - 1) ≤ 2 ^ (w * capOf w text) :=
    Nat.pow_le_pow_right (by decide) (Nat.sub_le _ _)
  obtain ⟨data1, hd⟩ := digitLoop_accepts w (capOf w text) (by omega) hcap
    (numeralDigits text) (List.replicate (capOf w text) 0) ht.2 (by simp)
    (all_lt_replicate_zero w _)
    (by rw [uval_replicate_zero]; simpa using Nat.le_trans hten hhalf)
  have hs := digitLoop_spec w _ (by omega) hcap _ _ data1 ht.2 (by simp)
    (all_lt_replicate_zero w _) hd
  rw [uval_replicate_zero] at hs
  have hv : uval w data1 = digitsValue (numeralDigits text) := hs.2.2
  refine ⟨data1, hd, hs.1, hs.2.1, hv, ?_⟩
  rw [hv]
  exact Nat.lt_of_lt_of_le (digitsValue_lt _ ht.2) hten

/-- Every well-formed numeral other than a negative zero is accepted by
`fromStr`. -/
theorem fromStr_accepts (w : Nat) (hw : 8 ≤ w) (text : List Char) (ht : IsNumeral text)
    (hnz : text.head? = some '-' → digitsValue text.tail ≠ 0) :
    ∃ r, fromStr w text = .ok r := by
  have hw1 : 1 ≤ w := by omega
  have hcap := capOf_pos w text
  obtain ⟨data1, hd, hlen, hall, hv, hlt⟩ := digitLoop_numeral w hw text ht
  rw [fromStr_eq, hd]
  simp only
  have h2 := negated_wf w (capOf w text) (signOf text) hw1 data1 hlen hall
  have hb := trimLoop_bounds (negated w (capOf w text) (signOf text) data1)
    (negWord w (signOf text)) (capOf w text) hcap
  rw [if_neg]
  · exact ⟨_, rfl⟩
  · rintro ⟨hne, hnot⟩
    have hn : trimLoop (negated w (capOf w text) (signOf text) data1)
        (negWord w (signOf text)) (capOf w text) = capOf w text := by omega
    rw [hn] at hne
    apply hne
    have hl1 : 1 ≤ (negated w (capOf w text) (signOf text) data1).length := by omega
    by_cases hs : text.head? = some '-'
    · have hsign : signOf text = 1 := by simp [signOf, hs]
      have hdig : numeralDigits text = text.tail := by simp [numeralDigits, hs]
      rw [hsign] at h2 hl1 ⊢
      have hneg : negated w (capOf w text) 1 data1
          = (forLoop (negStep w) (capOf w text) 0 (1, data1)).2 := by
        simp [negated]
      have key := HI_BIT_top_eq_one w hw1 (negated w (capOf w text) 1 data1) hl1 h2.2 (by
        rw [h2.1, hneg]
        obtain ⟨_, _, n3, n4⟩ := negLoop_spec w (capOf w text) hw1 data1 hlen hall
        have hV : uval w data1 ≠ 0 := by rw [hv, hdig]; exact hnz hs
        have hsplit := two_pow_split (w * capOf w text)
          (Nat.le_trans hw1 (Nat.le_mul_of_pos_right w hcap))
        rcases Nat.le_one_iff_eq_zero_or_eq_one.1 n3 with hc | hc
        · rw [hc] at n4; omega
        · rw [hc] at n4; omega)
      rw [h2.1] at key
      exact key
    · have hsign : signOf text = 0 := by simp [signOf, hs]
      rw [hsign] at h2 hl1 ⊢
      have hneg : negated w (capOf w text) 0 data1 = data1 := by simp [negated]
      have key := HI_BIT_top_eq_zero w hw1 (negated w (capOf w text) 0 data1) hl1 h2.2 (by
        rw [h2.1, hneg]; exact hlt)
      rw [h2.1] at key
      exact key

/-- Every well-formed numeral that denotes zero with a minus sign stops
`fromStr` at `assert(len < cap)`. -/
theorem fromStr_negative_zero (w : Nat) (hw : 8 ≤ w) (text : List Char) (ht : IsNumeral text)
    (hs : text.head? = some '-') (hz : digitsValue text.tail = 0) :
    fromStr w text = .error Fatal.noRoom := by
  have hw1 : 1 ≤ w := by omega
  have hcap := capOf_pos w text
  obtain ⟨data1, hd, hlen, hall, hv, _⟩ := digitLoop_numeral w hw text ht
  have hsign : signOf text = 1 := by simp [signOf, hs]
  have hdig : numeralDigits text = text.tail := by simp [numeralDigits, hs]
  have hneg : negated w (capOf w text) 1 data1
      = (forLoop (negStep w) (capOf w text) 0 (1, data1)).2 := by
    simp [negated]
  obtain ⟨n1, n2, n3, n4⟩ := negLoop_spec w (capOf w text) hw1 data1 hlen hall
  rw [hv, hdig, hz] at n4
  have hlt := uval_lt w _ n2
  rw [n1] at hlt
  have hz2 : uval w (forLoop (negStep w) (capOf w text) 0 (1, data1)).2 = 0 := by
    rcases Nat.le_one_iff_eq_zero_or_eq_one.1 n3 with hc | hc
    · rw [hc] at n4; omega
    · rw [hc] at n4; omega
  have hzero : (forLoop (negStep w) (capOf w text) 0 (1, data1)).2
      = List.replicate (capOf w text) 0 :=
    uval_inj w _ _ (by simp [n1]) n2 (all_lt_replicate_zero w _)
      (by rw [uval_replicate_zero]; exact hz2)
  have h0 : HI_BIT w 0 = 0 := by simp [HI_BIT]
  rw [fromStr_eq, hd]
  simp only
  rw [hsign, hneg, hzero, trimLoop_zeros_ones w _ hw1, getD_replicate_zero, h0, if_pos]
  exact ⟨by decide, Nat.lt_irrefl _⟩

/-! ## Exactness of `add` -/

/-- Sign bit and unsigned value of a word sequence: the sign bit is 0 or 1,
it splits the unsigned range in halves, and the two's-complement value is the
unsigned value minus the sign bit times the range. -/
theorem sval_facts (w : Nat) (hw : 1 ≤ w) (l : List Nat) (hL : 1 ≤ l.length)
    (hall : ∀ x ∈ l, x < 2 ^ w) :
    HI_BIT w (l.getD (l.length - 1) 0) ≤ 1 ∧
      sval w l = (uval w l : Int) - (HI_BIT w (l.getD (l.length - 1) 0) : Int) *
        2 ^ (w * l.length) ∧
      (HI_BIT w (l.getD (l.length - 1) 0) = 0 → uval w l < 2 ^ (w * l.length - 1)) ∧
      (HI_BIT w (l.getD (l.length - 1) 0) = 1 → 2 ^ (w * l.length - 1) ≤ uval w l) ∧
      uval w l < 2 ^ (w * l.length) ∧
      2 ^ (w * l.length) = 2 * 2 ^ (w * l.length - 1) := by
  have h1 := HI_BIT_le_one w _ hw (getD_lt_of_all w l hall (l.length - 1))
  refine ⟨h1, ?_, ?_, ?_, uval_lt w l hall,
    two_pow_split _ (Nat.le_trans hw (Nat.le_mul_of_pos_right w hL))⟩
  · unfold sval
    rcases Nat.le_one_iff_eq_zero_or_eq_one.1 h1 with h | h
    · rw [h]; simp
    · rw [h]; simp
  · intro h0
    by_contra hcon
    have := HI_BIT_top_eq_one w hw l hL hall (by omega)
    omega
  · intro h0
    by_contra hcon
    have := HI_BIT_top_eq_zero w hw l hL hall (by omega)
    omega

theorem uval_opA (w : Nat) (a b : BigInt) : uval w (opA a b) = uval w a.data := by
  unfold opA
  rw [uval_append, uval_replicate_zero]
  simp

theorem two_pow_mul_split (w la L : Nat) (h : la ≤ L) :
    2 ^ (w * L) = 2 ^ (w * la) * 2 ^ (w * (L - la)) := by
  rw [← Nat.pow_add, ← Nat.mul_add]
  congr 2
  omega

/-- Unsigned value of the second effective operand in plain addition: `b`
sign-extended to the working length. -/
theorem uval_opB_add (w : Nat) (hw : 1 ≤ w) (a b : BigInt) (hb : WellFormed w b) :
    (uval w (opB w a b false) : Int) + (HI_BIT w (b.data.getD (b.len - 1) 0) : Int) *
        2 ^ (w * b.len)
      = uval w b.data + (HI_BIT w (b.data.getD (b.len - 1) 0) : Int) *
        2 ^ (w * max a.len b.len) := by
  have hs := HI_BIT_le_one w _ hw (getD_lt_of_all w _ hb.2.2 (b.len - 1))
  have hM := two_pow_mul_split w b.len (max a.len b.len) (Nat.le_max_right _ _)
  simp only [opB, Bool.false_eq_true, if_false]
  rw [uval_append, hb.2.1]
  rcases Nat.le_one_iff_eq_zero_or_eq_one.1 hs with h | h
  · rw [h, negWord_zero, uval_replicate_zero]; simp
  · rw [h, negWord_one w hw]
    have h2 := uval_replicate_ones w (max a.len b.len - b.len)
    have e : uval w b.data + 2 ^ (w * b.len) *
        uval w (List.replicate (max a.len b.len - b.len) (2 ^ w - 1)) + 2 ^ (w * b.len)
        = uval w b.data + 2 ^ (w * max a.len b.len) := by
      rw [hM, ← h2]; ring
    have e2 : ((uval w b.data + 2 ^ (w * b.len) *
        uval w (List.replicate (max a.len b.len - b.len) (2 ^ w - 1)) + 2 ^ (w * b.len) : Nat) : Int)
        = ((uval w b.data + 2 ^ (w * max a.len b.len) : Nat) : Int) := by rw [e]
    push_cast at e2 ⊢
    linarith

/-- Unsigned value of the second effective operand in subtraction: the bitwise
complement of `b` sign-extended to the working length. -/
theorem uval_opB_sub (w : Nat) (hw : 1 ≤ w) (a b : BigInt) (hb : WellFormed w b) :
    (uval w (opB w a b true) : Int) + uval w b.data + 1
        + (1 - (HI_BIT w (b.data.getD (b.len - 1) 0) : Int)) * 2 ^ (w * b.len)
      = 2 ^ (w * b.len) + (1 - (HI_BIT w (b.data.getD (b.len - 1) 0) : Int)) *
        2 ^ (w * max a.len b.len) := by
  have hs := HI_BIT_le_one w _ hw (getD_lt_of_all w _ hb.2.2 (b.len - 1))
  have hM := two_pow_mul_split w b.len (max a.len b.len) (Nat.le_max_right _ _)
  have hn := uval_map_notWord w b.data hb.2.2
  rw [hb.2.1] at hn
  simp only [opB, if_true]
  rw [uval_append, List.length_map, hb.2.1]
  have hn2 : (uval w b.data : Int) + uval w (b.data.map (notWord w)) + 1 = 2 ^ (w * b.len) := by
    exact_mod_cast hn
  rcases Nat.le_one_iff_eq_zero_or_eq_one.1 hs with h | h
  · rw [h]
    have : lnot 0 = 1 := rfl
    rw [this, negWord_one w hw]
    have h2 := uval_replicate_ones w (max a.len b.len - b.len)
    have e : 2 ^ (w * b.len) *
        uval w (List.replicate (max a.len b.len - b.len) (2 ^ w - 1)) + 2 ^ (w * b.len)
        = 2 ^ (w * max a.len b.len) := by
      rw [hM, ← h2]; ring
    have e2 : ((2 ^ (w * b.len) *
        uval w (List.replicate (max a.len b.len - b.len) (2 ^ w - 1)) + 2 ^ (w * b.len) : Nat) : Int)
        = ((2 ^ (w * max a.len b.len) : Nat) : Int) := by rw [e]
    push_cast at e2 ⊢
    linarith
  · rw [h]
    have : lnot 1 = 0 := rfl
    rw [this, negWord_zero, uval_replicate_zero]
    push_cast
    linarith

/-- Facts about the value of a well-formed operand of at most `L` words, in
integer form: its sign bit `s`, unsigned value, and the half range. -/
theorem value_facts (w : Nat) (hw : 1 ≤ w) (a : BigInt) (ha : WellFormed w a) (L : Nat)
    (hL : a.len ≤ L) :
    HI_BIT w (a.data.getD (a.len - 1) 0) ≤ 1 ∧
      value w a = (uval w a.data : Int) -
        (HI_BIT w (a.data.getD (a.len - 1) 0) : Int) * 2 ^ (w * a.len) ∧
      (HI_BIT w (a.data.getD (a.len - 1) 0) = 0 →
        (uval w a.data : Int) < 2 ^ (w * a.len - 1)) ∧
      (HI_BIT w (a.data.getD (a.len - 1) 0) = 1 →
        (2 : Int) ^ (w * a.len - 1) ≤ uval w a.data) ∧
      (uval w a.data : Int) < 2 ^ (w * a.len) ∧
      (2 : Int) ^ (w * a.len) = 2 * 2 ^ (w * a.len - 1) ∧
      (2 : Int) ^ (w * a.len - 1) ≤ 2 ^ (w * L - 1) ∧
      (0 : Int) < 2 ^ (w * a.len - 1) := by
  obtain ⟨h1, hlen, hall⟩ := ha
  have f := sval_facts w hw a.data (by omega) hall
  rw [hlen] at f
  obtain ⟨f1, f2, f3, f4, f5, f6⟩ := f
  have hmono : 2 ^ (w * a.len - 1) ≤ 2 ^ (w * L - 1) :=
    Nat.pow_le_pow_right (by decide)
      (Nat.sub_le_sub_right (Nat.mul_le_mul_left w hL) 1)
  have hpos : 0 < 2 ^ (w * a.len - 1) := Nat.pow_pos (by decide)
  refine ⟨f1, f2, ?_, ?_, ?_, ?_, ?_, ?_⟩
  · intro h; exact_mod_cast f3 h
  · intro h; exact_mod_cast f4 h
  · exact_mod_cast f5
  · exact_mod_cast f6
  · exact_mod_cast hmono
  · exact_mod_cast hpos

/-- Facts about the working buffer after the word loops of `add`, in integer
form: the sum equation, the carry, and the sign bit of the top word. -/
theorem addLoops_facts (w : Nat) (hw : 1 ≤ w) (a b : BigInt) (negateb : Bool)
    (ha : WellFormed w a) (hb : WellFormed w b) :
    (addLoops w a b negateb).2.length = max a.len b.len ∧
      (∀ x ∈ (addLoops w a b negateb).2, x < 2 ^ w) ∧
      (addLoops w a b negateb).1 ≤ 1 ∧
      HI_BIT w ((addLoops w a b negateb).2.getD (max a.len b.len - 1) 0) ≤ 1 ∧
      (uval w (addLoops w a b negateb).2 : Int) +
          ((addLoops w a b negateb).1 : Int) * 2 ^ (w * max a.len b.len)
        = uval w a.data + uval w (opB w a b negateb) + (if negateb then 1 else 0) ∧
      (HI_BIT w ((addLoops w a b negateb).2.getD (max a.len b.len - 1) 0) = 0 →
        (uval w (addLoops w a b negateb).2 : Int) < 2 ^ (w * max a.len b.len - 1)) ∧
      (HI_BIT w ((addLoops w a b negateb).2.getD (max a.len b.len - 1) 0) = 1 →
        (2 : Int) ^ (w * max a.len b.len - 1) ≤ uval w (addLoops w a b negateb).2) ∧
      (uval w (addLoops w a b negateb).2 : Int) < 2 ^ (w * max a.len b.len) ∧
      (2 : Int) ^ (w * max a.len b.len) = 2 * 2 ^ (w * max a.len b.len - 1) := by
  obtain ⟨hlen, hc, hall, hval⟩ := addLoops_spec w hw a b negateb ha hb
  have hL : 1 ≤ max a.len b.len := by have := ha.1; omega
  rw [List.take_of_length_le (by omega),
    List.take_of_length_le (by rw [opA_length w a b ha]),
    List.take_of_length_le (by rw [opB_length w a b negateb hb]), uval_opA] at hval
  have f := sval_facts w hw (addLoops w a b negateb).2 (by omega) hall
  rw [hlen] at f
  obtain ⟨f1, _, f3, f4, f5, f6⟩ := f
  refine ⟨hlen, hall, hc, f1, ?_, ?_, ?_, ?_, ?_⟩
  · have := congrArg (fun n : Nat => (n : Int)) hval
    simp only at this
    push_cast at this
    rw [this]
  · intro h; exact_mod_cast f3 h
  · intro h; exact_mod_cast f4 h
  · exact_mod_cast f5
  · exact_mod_cast f6

/-- The value of the result of `add` in terms of the working buffer: on
overflow the carry becomes a new top word, otherwise the buffer is read as a
two's-complement number. -/
theorem add_value_cases (w : Nat) (hw : 2 ≤ w) (a b : BigInt) (negateb : Bool)
    (ha : WellFormed w a) (hb : WellFormed w b) :
    value w (add w a b negateb) =
      if overflowed w a b negateb = true then
        (uval w (addLoops w a b negateb).2 : Int) +
          ((addLoops w a b negateb).1 : Int) * 2 ^ (w * max a.len b.len)
      else
        (uval w (addLoops w a b negateb).2 : Int) -
          (HI_BIT w ((addLoops w a b negateb).2.getD (max a.len b.len - 1) 0) : Int) *
            2 ^ (w * max a.len b.len) := by
  have hw1 : 1 ≤ w := by omega
  obtain ⟨hlen, hall, hc, hsr, _⟩ := addLoops_facts w hw1 a b negateb ha hb
  have hL : 1 ≤ max a.len b.len := by have := ha.1; omega
  have h1 := one_lt_two_pow w hw1
  cases hov : overflowed w a b negateb
  · rw [add_no_overflow w a b negateb hov]
    simp only [Bool.false_eq_true, if_false]
    refine canonResult_value w hw1 _ _ _ hsr hL hlen ?_
    intro hne
    have hb := trimLoop_bounds (addLoops w a b negateb).2
      (negWord w (HI_BIT w ((addLoops w a b negateb).2.getD (max a.len b.len - 1) 0)))
      (max a.len b.len) hL
    rcases Nat.lt_or_ge (trimLoop (addLoops w a b negateb).2
      (negWord w (HI_BIT w ((addLoops w a b negateb).2.getD (max a.len b.len - 1) 0)))
      (max a.len b.len)) (max a.len b.len) with h | h
    · exact h
    · have e := Nat.le_antisymm hb.2 h
      rw [e] at hne
      exact absurd rfl hne
  · rw [add_overflow w a b negateb hov]
    simp only [if_true]
    have hcw : toWord w (addLoops w a b negateb).1 = (addLoops w a b negateb).1 :=
      Nat.mod_eq_of_lt (by omega)
    have hset : ((addLoops w a b negateb).2 ++ [0]).set (max a.len b.len)
        (toWord w (addLoops w a b negateb).1)
        = (addLoops w a b negateb).2 ++ [(addLoops w a b negateb).1] := by
      rw [hcw, ← hlen]; exact set_append_last _ _
    rw [hset]
    unfold value sval
    simp only
    have g1 : ((addLoops w a b negateb).2 ++ [(addLoops w a b negateb).1]).getD
        (((addLoops w a b negateb).2 ++ [(addLoops w a b negateb).1]).length - 1) 0
        = (addLoops w a b negateb).1 := by
      simp [List.getD_eq_getElem?_getD]
    have hhc : HI_BIT w (addLoops w a b negateb).1 = 0 := by
      refine (HI_BIT_eq_zero_iff w _ hw1 (by omega)).2 ?_
      have : 2 ^ 1 ≤ 2 ^ (w - 1) := Nat.pow_le_pow_right (by decide) (by omega)
      omega
    rw [g1, hhc, if_neg (by decide), uval_append, hlen]
    simp only [uval, Nat.mul_zero, Nat.add_zero]
    push_cast
    ring

theorem overflowed_add (w : Nat) (a b : BigInt) :
    overflowed w a b false = decide
      (HI_BIT w (a.data.getD (a.len - 1) 0) = HI_BIT w (b.data.getD (b.len - 1) 0) ∧
        HI_BIT w (a.data.getD (a.len - 1) 0) ≠
          HI_BIT w ((addLoops w a b false).2.getD (max a.len b.len - 1) 0)) := rfl

theorem overflowed_sub (w : Nat) (a b : BigInt) :
    overflowed w a b true = decide
      (HI_BIT w (a.data.getD (a.len - 1) 0) ≠ HI_BIT w (b.data.getD (b.len - 1) 0) ∧
        HI_BIT w (a.data.getD (a.len - 1) 0) ≠
          HI_BIT w ((addLoops w a b true).2.getD (max a.len b.len - 1) 0)) := rfl

/-- Plain addition is exact when the first operand is non-negative. -/
theorem add_value_nonneg_first (w : Nat) (hw : 2 ≤ w) (a b : BigInt)
    (ha : WellFormed w a) (hb : WellFormed w b)
    (hsa : HI_BIT w (a.data.getD (a.len - 1) 0) = 0) :
    value w (add w a b false) = value w a + value w b := by
  have hw1 : 1 ≤ w := by omega
  obtain ⟨_, a2, a3, _, _, a6, a7, a8⟩ :=
    value_facts w hw1 a ha (max a.len b.len) (Nat.le_max_left _ _)
  obtain ⟨b1, b2, b3, b4, b5, b6, b7, b8⟩ :=
    value_facts w hw1 b hb (max a.len b.len) (Nat.le_max_right _ _)
  obtain ⟨_, _, r3, r4, r5, r6, r7, r8, r9⟩ := addLoops_facts w hw1 a b false ha hb
  have hB := uval_opB_add w hw1 a b hb
  have hv := add_value_cases w hw a b false ha hb
  rw [overflowed_add] at hv
  simp only [Bool.false_eq_true, if_false, Nat.cast_zero, add_zero] at r5
  rw [hsa] at hv a2
  have a3' := a3 hsa
  rw [hv, a2, b2]
  generalize HI_BIT w (b.data.getD (b.len - 1) 0) = sb at *
  generalize HI_BIT w ((addLoops w a b false).2.getD (max a.len b.len - 1) 0) = sr at *
  generalize (addLoops w a b false).1 = carry at *
  generalize (2 : Int) ^ (w * max a.len b.len) = M at *
  generalize (2 : Int) ^ (w * max a.len b.len - 1) = H at *
  generalize (2 : Int) ^ (w * a.len) = Ma at *
  generalize (2 : Int) ^ (w * a.len - 1) = Ha at *
  generalize (2 : Int) ^ (w * b.len) = Mb at *
  generalize (2 : Int) ^ (w * b.len - 1) = Hb at *
  rcases Nat.le_one_iff_eq_zero_or_eq_one.1 b1 with hsb | hsb <;>
  rcases Nat.le_one_iff_eq_zero_or_eq_one.1 r4 with hsr | hsr <;>
  rcases Nat.le_one_iff_eq_zero_or_eq_one.1 r3 with hc | hc <;>
  subst hsb <;> subst hsr <;> subst hc <;>
  simp only [true_and, false_and, ne_eq, not_true_eq_false, not_false_eq_true, decide_True,
    decide_False, if_true, if_false, Bool.false_eq_true, zero_ne_one, one_ne_zero,
    Nat.cast_zero, Nat.cast_one, zero_mul, one_mul, sub_zero, add_zero, forall_true_left,
    true_implies, false_implies, and_true, and_false] at * <;>
  omega

/-- Subtraction is exact when the first operand is non-negative. -/
theorem sub_value_nonneg_first (w : Nat) (hw : 2 ≤ w) (a b : BigInt)
    (ha : WellFormed w a) (hb : WellFormed w b)
    (hsa : HI_BIT w (a.data.getD (a.len - 1) 0) = 0) :
    value w (add w a b true) = value w a - value w b := by
  have hw1 : 1 ≤ w := by omega
  obtain ⟨_, a2, a3, _, _, a6, a7, a8⟩ :=
    value_facts w hw1 a ha (max a.len b.len) (Nat.le_max_left _ _)
  obtain ⟨b1, b2, b3, b4, b5, b6, b7, b8⟩ :=
    value_facts w hw1 b hb (max a.len b.len) (Nat.le_max_right _ _)
  obtain ⟨_, _, r3, r4, r5, r6, r7, r8, r9⟩ := addLoops_facts w hw1 a b true ha hb
  have hB := uval_opB_sub w hw1 a b hb
  have hv := add_value_cases w hw a b true ha hb
  rw [overflowed_sub] at hv
  simp only [if_true, Nat.cast_one] at r5
  rw [hsa] at hv a2
  have a3' := a3 hsa
  rw [hv, a2, b2]
  generalize HI_BIT w (b.data.getD (b.len - 1) 0) = sb at *
  generalize HI_BIT w ((addLoops w a b true).2.getD (max a.len b.len - 1) 0) = sr at *
  generalize (addLoops w a b true).1 = carry at *
  generalize (2 : Int) ^ (w * max a.len b.len) = M at *
  generalize (2 : Int) ^ (w * max a.len b.len - 1) = H at *
  generalize (2 : Int) ^ (w * a.len) = Ma at *
  generalize (2 : Int) ^ (w * a.len - 1) = Ha at *
  generalize (2 : Int) ^ (w * b.len) = Mb at *
  generalize (2 : Int) ^ (w * b.len - 1) = Hb at *
  rcases Nat.le_one_iff_eq_zero_or_eq_one.1 b1 with hsb | hsb <;>
  rcases Nat.le_one_iff_eq_zero_or_eq_one.1 r4 with hsr | hsr <;>
  rcases Nat.le_one_iff_eq_zero_or_eq_one.1 r3 with hc | hc <;>
  subst hsb <;> subst hsr <;> subst hc <;>
  simp only [true_and, false_and, ne_eq, not_true_eq_false, not_false_eq_true, decide_True,
    decide_False, if_true, if_false, Bool.false_eq_true, zero_ne_one, one_ne_zero,
    Nat.cast_zero, Nat.cast_one, zero_mul, one_mul, sub_zero, add_zero, forall_true_left,
    true_implies, false_implies, and_true, and_false, sub_self] at * <;>
  omega

/-- When `a` is at least as long as `b` and the exact sum fits the length of
`a`, plain addition does not overflow and is exact. -/
theorem add_value_in_range (w : Nat) (hw : 2 ≤ w) (a b : BigInt)
    (ha : WellFormed w a) (hb : WellFormed w b) (hlen : b.len ≤ a.len)
    (hlo : -(2 : Int) ^ (w * a.len - 1) ≤ value w a + value w b)
    (hhi : value w a + value w b < (2 : Int) ^ (w * a.len - 1)) :
    overflowed w a b false = false ∧
      value w (add w a b false) = value w a + value w b := by
  have hw1 : 1 ≤ w := by omega
  have hmax : max a.len b.len = a.len := Nat.max_eq_left hlen
  obtain ⟨a1, a2, a3, a4, a5, a6, _, a8⟩ :=
    value_facts w hw1 a ha (max a.len b.len) (Nat.le_max_left _ _)
  obtain ⟨b1, b2, b3, b4, b5, b6, b7, b8⟩ :=
    value_facts w hw1 b hb (max a.len b.len) (Nat.le_max_right _ _)
  obtain ⟨_, _, r3, r4, r5, r6, r7, r8, r9⟩ := addLoops_facts w hw1 a b false ha hb
  have hB := uval_opB_add w hw1 a b hb
  have hv := add_value_cases w hw a b false ha hb
  rw [overflowed_add] at hv ⊢
  simp only [Bool.false_eq_true, if_false, Nat.cast_zero, add_zero] at r5
  rw [hv, a2, b2]
  rw [a2, b2] at hlo hhi
  rw [hmax] at *
  generalize HI_BIT w (a.data.getD (a.len - 1) 0) = sa at *
  generalize HI_BIT w (b.data.getD (b.len - 1) 0) = sb at *
  generalize HI_BIT w ((addLoops w a b false).2.getD (a.len - 1) 0) = sr at *
  generalize (addLoops w a b false).1 = carry at *
  generalize (2 : Int) ^ (w * a.len) = Ma at *
  generalize (2 : Int) ^ (w * a.len - 1) = Ha at *
  generalize (2 : Int) ^ (w * b.len) = Mb at *
  generalize (2 : Int) ^ (w * b.len - 1) = Hb at *
  rcases Nat.le_one_iff_eq_zero_or_eq_one.1 a1 with hsa | hsa <;>
  rcases Nat.le_one_iff_eq_zero_or_eq_one.1 b1 with hsb | hsb <;>
  rcases Nat.le_one_iff_eq_zero_or_eq_one.1 r4 with hsr | hsr <;>
  rcases Nat.le_one_iff_eq_zero_or_eq_one.1 r3 with hc | hc <;>
  subst hsa <;> subst hsb <;> subst hsr <;> subst hc <;>
  simp only [true_and, false_and, ne_eq, not_true_eq_false, not_false_eq_true, decide_True,
    decide_False, if_true, if_false, Bool.false_eq_true, zero_ne_one, one_ne_zero,
    Nat.cast_zero, Nat.cast_one, zero_mul, one_mul, sub_zero, add_zero, forall_true_left,
    true_implies, false_implies, and_true, and_false, sub_self] at * <;>
  omega

/-- When `a` is at least as long as `b` and the exact difference fits the
length of `a`, subtraction does not overflow and is exact. -/
theorem sub_value_in_range (w : Nat) (hw : 2 ≤ w) (a b : BigInt)
    (ha : WellFormed w a) (hb : WellFormed w b) (hlen : b.len ≤ a.len)
    (hlo : -(2 : Int) ^ (w * a.len - 1) ≤ value w a - value w b)
    (hhi : value w a - value w b < (2 : Int) ^ (w * a.len - 1)) :
    overflowed w a b true = false ∧
      value w (add w a b true) = value w a - value w b := by
  have hw1 : 1 ≤ w := by omega
  have hmax : max a.len b.len = a.len := Nat.max_eq_left hlen
  obtain ⟨a1, a2, a3, a4, a5, a6, _, a8⟩ :=
    value_facts w hw1 a ha (max a.len b.len) (Nat.le_max_left _ _)
  obtain ⟨b1, b2, b3, b4, b5, b6, b7, b8⟩ :=
    value_facts w hw1 b hb (max a.len b.len) (Nat.le_max_right _ _)
  obtain ⟨_, _, r3, r4, r5, r6, r7, r8, r9⟩ := addLoops_facts w hw1 a b true ha hb
  have hB := uval_opB_sub w hw1 a b hb
  have hv := add_value_cases w hw a b true ha hb
  rw [overflowed_sub] at hv ⊢
  simp only [if_true, Nat.cast_one] at r5
  rw [hv, a2, b2]
  rw [a2, b2] at hlo hhi
  rw [hmax] at *
  generalize HI_BIT w (a.data.getD (a.len - 1) 0) = sa at *
  generalize HI_BIT w (b.data.getD (b.len - 1) 0) = sb at *
  generalize HI_BIT w ((addLoops w a b true).2.getD (a.len - 1) 0) = sr at *
  generalize (addLoops w a b true).1 = carry at *
  generalize (2 : Int) ^ (w * a.len) = Ma at *
  generalize (2 : Int) ^ (w * a.len - 1) = Ha at *
  generalize (2 : Int) ^ (w * b.len) = Mb at *
  generalize (2 : Int) ^ (w * b.len - 1) = Hb at *
  rcases Nat.le_one_iff_eq_zero_or_eq_one.1 a1 with hsa | hsa <;>
  rcases Nat.le_one_iff_eq_zero_or_eq_one.1 b1 with hsb | hsb <;>
  rcases Nat.le_one_iff_eq_zero_or_eq_one.1 r4 with hsr | hsr <;>
  rcases Nat.le_one_iff_eq_zero_or_eq_one.1 r3 with hc | hc <;>
  subst hsa <;> subst hsb <;> subst hsr <;> subst hc <;>
  simp only [true_and, false_and, ne_eq, not_true_eq_false, not_false_eq_true, decide_True,
    decide_False, if_true, if_false, Bool.false_eq_true, zero_ne_one, one_ne_zero,
    Nat.cast_zero, Nat.cast_one, zero_mul, one_mul, sub_zero, add_zero, forall_true_left,
    true_implies, false_implies, and_true, and_false, sub_self] at * <;>
  omega

/-! ## Sign of the result, the word primitive, result length -/

/-- A well-formed `BigInt` of non-negative value has a clear sign bit. -/
theorem sign_zero_of_value_nonneg (w : Nat) (hw : 1 ≤ w) (r : BigInt) (hr : WellFormed w r)
    (hv : 0 ≤ value w r) : HI_BIT w (r.data.getD (r.len - 1) 0) = 0 := by
  obtain ⟨r1, r2, _, _, r5, _, _, _⟩ := value_facts w hw r hr r.len (Nat.le_refl _)
  rcases Nat.le_one_iff_eq_zero_or_eq_one.1 r1 with h | h
  · exact h
  · exfalso
    rw [h] at r2
    rw [r2] at hv
    simp only [Nat.cast_one, one_mul] at hv
    omega

theorem value_nonneg_of_sign_zero (w : Nat) (hw : 1 ≤ w) (a : BigInt) (ha : WellFormed w a)
    (hs : HI_BIT w (a.data.getD (a.len - 1) 0) = 0) : 0 ≤ value w a := by
  obtain ⟨_, a2, _, _, _, _, _, _⟩ := value_facts w hw a ha a.len (Nat.le_refl _)
  rw [a2, hs]
  simp

/-- The sum of two non-negative operands is non-negative: its sign bit is
clear. -/
theorem add_nonneg_sign (w : Nat) (hw : 2 ≤ w) (a b : BigInt)
    (ha : WellFormed w a) (hb : WellFormed w b)
    (hsa : HI_BIT w (a.data.getD (a.len - 1) 0) = 0)
    (hsb : HI_BIT w (b.data.getD (b.len - 1) 0) = 0) :
    HI_BIT w ((add w a b false).data.getD ((add w a b false).len - 1) 0) = 0 := by
  have hw1 : 1 ≤ w := by omega
  have hwf := (add_wellFormed_canonical w hw a b false ha hb).1
  refine sign_zero_of_value_nonneg w hw1 _ hwf ?_
  rw [add_value_nonneg_first w hw a b ha hb hsa]
  have h1 := value_nonneg_of_sign_zero w hw1 a ha hsa
  have h2 := value_nonneg_of_sign_zero w hw1 b hb hsb
  omega

theorem addAndCarry_mod (w a b c : Nat) (ha : a < 2 ^ w) (hb : b < 2 ^ w) (hc : c < 2 ^ w) :
    (addAndCarry w a b c).2 = (a + b + c) % 2 ^ w := by
  obtain ⟨h1, h2⟩ := addAndCarry_spec w a b c ha hb hc
  rw [← h1, Nat.add_mul_mod_self_right, Nat.mod_eq_of_lt h2]

theorem addAndCarry_carry_le_two (w a b c : Nat) : (addAndCarry w a b c).1 ≤ 2 := by
  simp only [addAndCarry]
  split <;> split <;> omega

theorem addAndCarry_carry_le_one_of_word (w a b c : Nat) (ha : a < 2 ^ w) (hb : b < 2 ^ w)
    (hc : c < 2 ^ w) (hc1 : c ≤ 1) : (addAndCarry w a b c).1 ≤ 1 := by
  obtain ⟨h1, h2⟩ := addAndCarry_spec w a b c ha hb hc
  by_contra hcon
  have h4 : 2 * 2 ^ w ≤ (addAndCarry w a b c).1 * 2 ^ w := Nat.mul_le_mul_right _ (by omega)
  omega

/-- Length of the result of `add`: one more than the longer operand exactly
on overflow. -/
theorem add_len_cases (w : Nat) (a b : BigInt) (negateb : Bool) (ha : 1 ≤ a.len) :
    1 ≤ (add w a b negateb).len ∧ (add w a b negateb).len ≤ max a.len b.len + 1 ∧
      ((add w a b negateb).len = max a.len b.len + 1 ↔ overflowed w a b negateb = true) := by
  have hL : 1 ≤ max a.len b.len := by omega
  cases hov : overflowed w a b negateb
  · rw [add_no_overflow w a b negateb hov]
    have hb := trimLoop_bounds (addLoops w a b negateb).2
      (negWord w (HI_BIT w ((addLoops w a b negateb).2.getD (max a.len b.len - 1) 0)))
      (max a.len b.len) hL
    unfold canonResult
    simp only
    split
    · next hne =>
      have hlt : trimLoop (addLoops w a b negateb).2
          (negWord w (HI_BIT w ((addLoops w a b negateb).2.getD (max a.len b.len - 1) 0)))
          (max a.len b.len) < max a.len b.len := by
        rcases Nat.lt_or_ge (trimLoop (addLoops w a b negateb).2
          (negWord w (HI_BIT w ((addLoops w a b negateb).2.getD (max a.len b.len - 1) 0)))
          (max a.len b.len)) (max a.len b.len) with h | h
        · exact h
        · have e := Nat.le_antisymm hb.2 h
          rw [e] at hne
          exact absurd rfl hne
      simp only [Bool.false_eq_true, iff_false]
      omega
    · simp only [Bool.false_eq_true, iff_false]
      omega
  · rw [add_overflow w a b negateb hov]
    simp

/-- On a well-formed numeral `fromStr` never stops at `assert(carry == 0)`. -/
theorem fromStr_no_carryOut (w : Nat) (hw : 8 ≤ w) (text : List Char) (ht : IsNumeral text) :
    fromStr w text ≠ .error Fatal.carryOut := by
  obtain ⟨data1, hd, _⟩ := digitLoop_numeral w hw text ht
  rw [fromStr_eq, hd]
  simp only
  split <;> simp

theorem digitsValue_lt_cap (w : Nat) (hw : 8 ≤ w) (text : List Char) (ht : IsNumeral text) :
    digitsValue (numeralDigits text)
      < 2 ^ ((1 + (strlen text * 7 / 2) / w) * w - 1) := by
  obtain ⟨data1, _, _, _, hv, hlt⟩ := digitLoop_numeral w hw text ht
  rw [hv] at hlt
  unfold capOf at hlt
  rwa [Nat.mul_comm] at hlt

/-! ## Carries of the digit step -/

theorem mulTenAdd_eq_upTo (w cap : Nat) (data : List Nat) (d : Nat) :
    mulTenAdd w cap data d = mulTenAddUpTo w data d (cap - 1) := rfl

theorem forLoop_succ_last {σ : Type} (body : Nat → σ → σ) :
    ∀ (n i : Nat) (s : σ), forLoop body (n + 1) i s = body (i + n) (forLoop body n i s)
  | 0, i, s => by simp [forLoop]
  | n + 1, i, s => by
    have ih := forLoop_succ_last body n (i + 1) (body i s)
    have e : i + 1 + n = i + (n + 1) := by omega
    rw [e] at ih
    rw [forLoop, ih, forLoop]

theorem mulTenAddUpTo_inv (w cap : Nat) (hw : 4 ≤ w) (data : List Nat) (d : Nat)
    (hd : d ≤ 9) (hlen : data.length = cap) (hall : ∀ x ∈ data, x < 2 ^ w)
    (n : Nat) (hn : n < cap) : MulInv w cap data d (1 + n) (mulTenAddUpTo w data d n) := by
  have hx : data.getD 0 0 < 2 ^ w := getD_lt_of_all w _ hall 0
  obtain ⟨hs, hk⟩ := mulWord_spec w (data.getD 0 0) d hw hx hd
  have hinit : MulInv w cap data d 1
      (HI_3_BITS w (data.getD 0 0) + HI_BIT w (data.getD 0 0) +
        (addAndCarry w (shlWord w (data.getD 0 0) 3) (shlWord w (data.getD 0 0) 1)
          (toWord w d)).1,
       data.set 0 (addAndCarry w (shlWord w (data.getD 0 0) 3) (shlWord w (data.getD 0 0) 1)
          (toWord w d)).2) := by
    refine ⟨by simp [hlen], all_lt_set w _ hall _ _ (addAndCarry_snd_lt _ _ _ _), hk, ?_, ?_⟩
    · intro i hi
      exact getD_set_ne _ _ _ _ (by omega)
    · simp only
      rw [uval_take_succ w _ 0 (by simp [hlen]; omega), uval_take_succ w data 0 (by omega),
        getD_set_self _ _ _ (by omega)]
      simp only [List.take_zero, uval, Nat.mul_zero, Nat.pow_zero, Nat.zero_add, Nat.one_mul,
        Nat.mul_one] at hs ⊢
      omega
  exact forLoop_inv (mulStep w) (MulInv w cap data d) n 1 _ hinit
    (fun j t _ hj2 hp => mulStep_inv w cap hw data d hlen j (by omega) t hp)

/-- Every carry between words of the digit step is at most 9. -/
theorem mulTenAddUpTo_carry_le (w cap : Nat) (hw : 4 ≤ w) (data : List Nat) (d : Nat)
    (hd : d ≤ 9) (hlen : data.length = cap) (hall : ∀ x ∈ data, x < 2 ^ w)
    (n : Nat) (hn : n < cap) : (mulTenAddUpTo w data d n).1 ≤ 9 :=
  (mulTenAddUpTo_inv w cap hw data d hd hlen hall n hn).2.2.1

/-- The carry out of word `n + 1` of the digit step is the top three bits
plus the top bit of the old word plus the carry of `addAndCarry`. -/
theorem mulTenAddUpTo_carry_succ (w cap : Nat) (hw : 4 ≤ w) (data : List Nat) (d : Nat)
    (hd : d ≤ 9) (hlen : data.length = cap) (hall : ∀ x ∈ data, x < 2 ^ w)
    (n : Nat) (hn : n + 1 < cap) :
    (mulTenAddUpTo w data d (n + 1)).1 =
      HI_3_BITS w (data.getD (n + 1) 0) + HI_BIT w (data.getD (n + 1) 0) +
        (addAndCarry w (shlWord w (data.getD (n + 1) 0) 3) (shlWord w (data.getD (n + 1) 0) 1)
          (toWord w (mulTenAddUpTo w data d n).1)).1 := by
  have hinv := mulTenAddUpTo_inv w cap hw data d hd hlen hall n (by omega)
  have hsame := hinv.2.2.2.1 (1 + n) (Nat.le_refl _)
  have e : mulTenAddUpTo w data d (n + 1)
      = mulStep w (1 + n) (mulTenAddUpTo w data d n) := by
    unfold mulTenAddUpTo
    exact forLoop_succ_last (mulStep w) n 1 _
  have e1 : 1 + n = n + 1 := by omega
  rw [e]
  simp only [mulStep]
  rw [hsame, e1]

/-! ## Bounds-checked `add` -/

theorem getElem?_eq_some_getD (l : List Nat) (i : Nat) (h : i < l.length) :
    l[i]? = some (l.getD i 0) := by
  rw [List.getD_eq_getElem?_getD, List.getElem?_eq_getElem h]
  rfl

theorem writeAt_eq (buf : List Nat) (i v : Nat) (h : i < buf.length) :
    writeAt buf i v = some (buf.set i v) := by
  unfold writeAt
  rw [if_pos h]

theorem forLoopChecked_eq {σ : Type} (bodyC : Nat → σ → Option σ) (body : Nat → σ → σ)
    (P : σ → Prop) :
    ∀ (n i : Nat) (s : σ), P s →
      (∀ j t, i ≤ j → j < i + n → P t → bodyC j t = some (body j t) ∧ P (body j t)) →
      forLoopChecked bodyC n i s = some (forLoop body n i s) ∧ P (forLoop body n i s)
  | 0, _, s, hs, _ => ⟨rfl, hs⟩
  | n + 1, i, s, hs, hstep => by
    obtain ⟨h1, h2⟩ := hstep i s (Nat.le_refl _) (by omega) hs
    have ih := forLoopChecked_eq bodyC body P n (i + 1) (body i s) h2
      (fun j t hj1 hj2 hp => hstep j t (by omega) (by omega) hp)
    rw [forLoopChecked, h1]
    simp only [forLoop]
    exact ih

theorem addStepChecked_eq (w : Nat) (x y : Nat → Option Nat) (x0 y0 : Nat → Nat) (i : Nat)
    (s : Nat × List Nat) (hx : x i = some (x0 i)) (hy : y i = some (y0 i))
    (hi : i < s.2.length) :
    addStepChecked w x y i s = some (addStep w x0 y0 i s) ∧
      (addStep w x0 y0 i s).2.length = s.2.length := by
  unfold addStepChecked addStep
  rw [hx, hy]
  simp only
  rw [writeAt_eq _ _ _ hi]
  exact ⟨rfl, by simp⟩

theorem addStepChecked_loop (w L : Nat) (x y : Nat → Option Nat) (x0 y0 : Nat → Nat)
    (n i : Nat) (s : Nat × List Nat) (hs : s.2.length = L) (hin : i + n ≤ L)
    (hxy : ∀ j, i ≤ j → j < i + n → x j = some (x0 j) ∧ y j = some (y0 j)) :
    forLoopChecked (addStepChecked w x y) n i s = some (forLoop (addStep w x0 y0) n i s) ∧
      (forLoop (addStep w x0 y0) n i s).2.length = L :=
  forLoopChecked_eq (addStepChecked w x y) (addStep w x0 y0) (fun t => t.2.length = L) n i s hs
    (fun j t hj1 hj2 ht => by
      have ht2 : t.2.length = L := ht
      obtain ⟨e1, e2⟩ := addStepChecked_eq w x y x0 y0 j t (hxy j hj1 hj2).1 (hxy j hj1 hj2).2
        (by rw [ht2]; omega)
      exact ⟨e1, e2.trans ht2⟩)

theorem getElem?_map_eq_some (f : Nat → Nat) (l : List Nat) (i : Nat) (h : i < l.length) :
    (l[i]?).map f = some (f (l.getD i 0)) := by
  rw [getElem?_eq_some_getD l i h]
  rfl

/-- The word loops of `add` never leave their buffers. -/
theorem addLoopsChecked_eq (w : Nat) (a b : BigInt) (negateb : Bool)
    (hal : a.data.length = a.len) (hb1 : 1 ≤ b.len) (hbl : b.data.length = b.len) :
    addLoopsChecked w a b negateb = some (addLoops w a b negateb) ∧
      (addLoops w a b negateb).2.length = max a.len b.len := by
  have hbt := getElem?_eq_some_getD b.data (b.len - 1) (by omega)
  have hra : ∀ j, j < a.len → a.data[j]? = some (a.data.getD j 0) :=
    fun j hj => getElem?_eq_some_getD a.data j (by omega)
  have hrb : ∀ j, j < b.len → b.data[j]? = some (b.data.getD j 0) :=
    fun j hj => getElem?_eq_some_getD b.data j (by omega)
  have hrn : ∀ j, j < b.len → (b.data[j]?).map (notWord w)
      = some (notWord w (b.data.getD j 0)) :=
    fun j hj => getElem?_map_eq_some _ b.data j (by omega)
  have hinit : ∀ c : Nat, ((c, List.replicate (max a.len b.len) 0) : Nat × List Nat).2.length
      = max a.len b.len := fun c => by simp
  unfold addLoopsChecked addLoops
  simp only [hbt]
  cases negateb
  · simp only [Bool.false_eq_true, if_false]
    obtain ⟨e1, l1⟩ := addStepChecked_loop w (max a.len b.len) (fun i => a.data[i]?)
      (fun i => b.data[i]?) (fun i => a.data.getD i 0) (fun i => b.data.getD i 0)
      (min a.len b.len) 0 _ (hinit 0) (by omega)
      (fun j _ hj2 => ⟨hra j (by omega), hrb j (by omega)⟩)
    rw [e1]
    simp only
    obtain ⟨e2, l2⟩ := addStepChecked_loop w (max a.len b.len) (fun i => a.data[i]?)
      (fun _ => some (negWord w (HI_BIT w (b.data.getD (b.len - 1) 0))))
      (fun i => a.data.getD i 0) (fun _ => negWord w (HI_BIT w (b.data.getD (b.len - 1) 0)))
      (a.len - min a.len b.len) (min a.len b.len) _ l1 (by omega)
      (fun j _ hj2 => ⟨hra j (by omega), rfl⟩)
    rw [e2]
    simp only
    exact addStepChecked_loop w (max a.len b.len) (fun _ => some 0)
      (fun i => b.data[i]?) (fun _ => 0) (fun i => b.data.getD i 0)
      (b.len - max (min a.len b.len) a.len) (max (min a.len b.len) a.len) _ l2 (by omega)
      (fun j hj1 hj2 => ⟨rfl, hrb j (by omega)⟩)
  · simp only [if_true]
    obtain ⟨e1, l1⟩ := addStepChecked_loop w (max a.len b.len) (fun i => a.data[i]?)
      (fun i => (b.data[i]?).map (notWord w)) (fun i => a.data.getD i 0)
      (fun i => notWord w (b.data.getD i 0))
      (min a.len b.len) 0 _ (hinit 1) (by omega)
      (fun j _ hj2 => ⟨hra j (by omega), hrn j (by omega)⟩)
    rw [e1]
    simp only
    obtain ⟨e2, l2⟩ := addStepChecked_loop w (max a.len b.len) (fun i => a.data[i]?)
      (fun _ => some (negWord w (lnot (HI_BIT w (b.data.getD (b.len - 1) 0)))))
      (fun i => a.data.getD i 0)
      (fun _ => negWord w (lnot (HI_BIT w (b.data.getD (b.len - 1) 0))))
      (a.len - min a.len b.len) (min a.len b.len) _ l1 (by omega)
      (fun j _ hj2 => ⟨hra j (by omega), rfl⟩)
    rw [e2]
    simp only
    exact addStepChecked_loop w (max a.len b.len) (fun _ => some 0)
      (fun i => (b.data[i]?).map (notWord w)) (fun _ => 0)
      (fun i => notWord w (b.data.getD i 0))
      (b.len - max (min a.len b.len) a.len) (max (min a.len b.len) a.len) _ l2 (by omega)
      (fun j hj1 hj2 => ⟨rfl, hrn j (by omega)⟩)

theorem trimLoopChecked_eq (data : List Nat) (fill : Nat) :
    ∀ n, n ≤ data.length → trimLoopChecked data fill n = some (trimLoop data fill n)
  | 0, _ => rfl
  | n + 1, h => by
    have ih := trimLoopChecked_eq data fill n (by omega)
    rw [trimLoopChecked, trimLoop]
    by_cases h1 : n + 1 > 1
    · rw [if_pos h1, getElem?_eq_some_getD data n (by omega)]
      simp only
      by_cases h2 : data.getD n 0 = fill
      · rw [if_pos h2, if_pos ⟨h1, h2⟩]; exact ih
      · rw [if_neg h2, if_neg (fun hc => h2 hc.2)]
    · rw [if_neg h1, if_neg (fun hc => h1 hc.1)]

/-- The re-append of the non-overflow branch of `add` happens only after a
word was trimmed: its index is inside the working buffer. -/
theorem add_reappend_index (w : Nat) (res : List Nat) (L : Nat) (hL : 1 ≤ L)
    (h : HI_BIT w (res.getD
        (trimLoop res (negWord w (HI_BIT w (res.getD (L - 1) 0))) L - 1) 0)
      ≠ HI_BIT w (res.getD (L - 1) 0)) :
    trimLoop res (negWord w (HI_BIT w (res.getD (L - 1) 0))) L < L := by
  have hb := trimLoop_bounds res (negWord w (HI_BIT w (res.getD (L - 1) 0))) L hL
  rcases Nat.lt_or_ge (trimLoop res (negWord w (HI_BIT w (res.getD (L - 1) 0))) L) L
    with h1 | h1
  · exact h1
  · have e := Nat.le_antisymm hb.2 h1
    rw [e] at h
    exact absurd rfl h

/-- With operands of `len >= 1` words, `add` performs no access outside the
buffers: the bounds-checked function returns the result of `add`. -/
theorem addChecked_eq (w : Nat) (a b : BigInt) (negateb : Bool)
    (ha1 : 1 ≤ a.len) (hal : a.data.length = a.len)
    (hb1 : 1 ≤ b.len) (hbl : b.data.length = b.len) :
    addChecked w a b negateb = some (add w a b negateb) := by
  obtain ⟨hloops, hlen⟩ := addLoopsChecked_eq w a b negateb hal hb1 hbl
  have hL : 1 ≤ max a.len b.len := by omega
  have hta := getElem?_eq_some_getD a.data (a.len - 1) (by omega)
  have htb := getElem?_eq_some_getD b.data (b.len - 1) (by omega)
  have htr := getElem?_eq_some_getD (addLoops w a b negateb).2 (max a.len b.len - 1) (by omega)
  unfold addChecked
  simp only [hloops, hta, htb, htr]
  have hov : (if negateb = true then
        decide (HI_BIT w (a.data.getD (a.len - 1) 0) ≠ HI_BIT w (b.data.getD (b.len - 1) 0) ∧
          HI_BIT w (a.data.getD (a.len - 1) 0) ≠
            HI_BIT w ((addLoops w a b negateb).2.getD (max a.len b.len - 1) 0))
      else
        decide (HI_BIT w (a.data.getD (a.len - 1) 0) = HI_BIT w (b.data.getD (b.len - 1) 0) ∧
          HI_BIT w (a.data.getD (a.len - 1) 0) ≠
            HI_BIT w ((addLoops w a b negateb).2.getD (max a.len b.len - 1) 0)))
      = overflowed w a b negateb := rfl
  rw [hov]
  cases ho : overflowed w a b negateb
  · simp only [Bool.false_eq_true, if_false]
    rw [trimLoopChecked_eq _ _ _ (by omega)]
    simp only
    have hb := trimLoop_bounds (addLoops w a b negateb).2
      (negWord w (HI_BIT w ((addLoops w a b negateb).2.getD (max a.len b.len - 1) 0)))
      (max a.len b.len) hL
    rw [getElem?_eq_some_getD _ _ (by omega)]
    simp only
    rw [add_no_overflow w a b negateb ho]
    unfold canonResult
    simp only
    split
    · next hne =>
      have hlt := add_reappend_index w _ _ hL hne
      rw [writeAt_eq _ _ _ (by omega)]
    · rfl
  · simp only [if_true]
    rw [writeAt_eq _ _ _ (by simp [hlen]), add_overflow w a b negateb ho]

/-! ## The claims -/

/-- C1 (the code diverges from the claim): at word width 8, adding the
canonical operand `[0x80]` (what `fromStr "-128"` returns, value -128) to
itself yields `len = 2, data = [0x00, 0x01]`, value 256, not the exact sum
-256: on negative overflow the appended word is the carry bit 1 instead of an
all-one sign word.  Likewise `[0xFF] + [0x00, 0x01]` (-1 + 256) yields
`[0xFF, 0x01]`, value 511: a shorter negative first operand is zero-extended. -/
theorem add_inexact_on_negative_overflow :
    fromStr 8 "-128".toList = .ok (BigInt.mk 0 1 [0x80]) ∧
      WellFormed 8 (BigInt.mk 0 1 [0x80]) ∧ Canonical 8 (BigInt.mk 0 1 [0x80]) ∧
      value 8 (BigInt.mk 0 1 [0x80]) = -128 ∧
      add 8 (BigInt.mk 0 1 [0x80]) (BigInt.mk 0 1 [0x80]) false = BigInt.mk 0 2 [0x00, 0x01] ∧
      value 8 (add 8 (BigInt.mk 0 1 [0x80]) (BigInt.mk 0 1 [0x80]) false) = 256 ∧
      Canonical 8 (BigInt.mk 0 1 [0xFF]) ∧ Canonical 8 (BigInt.mk 0 2 [0x00, 0x01]) ∧
      value 8 (BigInt.mk 0 1 [0xFF]) + value 8 (BigInt.mk 0 2 [0x00, 0x01]) = 255 ∧
      value 8 (add 8 (BigInt.mk 0 1 [0xFF]) (BigInt.mk 0 2 [0x00, 0x01]) false) = 511 := by
  decide

/-- C2 (the code diverges from the claim): at word width 8, subtracting the
canonical `[0x01]` (value 1) from the canonical `[0x80]` (value -128) yields
`len = 2, data = [0x7F, 0x01]`, value 383, not the exact difference -129.
Likewise `[0xFF] - [0x00, 0x01]` (-1 - 256) yields `[0xFF]`, value -1. -/
theorem sub_inexact_on_negative_overflow :
    fromStr 8 "-128".toList = .ok (BigInt.mk 0 1 [0x80]) ∧
      fromStr 8 "1".toList = .ok (BigInt.mk 0 1 [0x01]) ∧
      Canonical 8 (BigInt.mk 0 1 [0x80]) ∧ Canonical 8 (BigInt.mk 0 1 [0x01]) ∧
      value 8 (BigInt.mk 0 1 [0x80]) - value 8 (BigInt.mk 0 1 [0x01]) = -129 ∧
      add 8 (BigInt.mk 0 1 [0x80]) (BigInt.mk 0 1 [0x01]) true = BigInt.mk 0 2 [0x7F, 0x01] ∧
      value 8 (add 8 (BigInt.mk 0 1 [0x80]) (BigInt.mk 0 1 [0x01]) true) = 383 ∧
      value 8 (BigInt.mk 0 1 [0xFF]) - value 8 (BigInt.mk 0 2 [0x00, 0x01]) = -257 ∧
      value 8 (add 8 (BigInt.mk 0 1 [0xFF]) (BigInt.mk 0 2 [0x00, 0x01]) true) = -1 := by
  decide

/-- C3: for every well-formed numeral (an optional leading `-` followed by
one or more ASCII digits), whenever `fromStr` returns a `BigInt`, its
two's-complement value is the integer the numeral denotes. -/
theorem fromStr_value (w : Nat) (hw : ValidWidth w) (text : List Char) (ht : IsNumeral text)
    (r : BigInt) (h : fromStr w text = .ok r) : value w r = numeralValue text :=
  fromStr_value_eq w (Nat.le_trans (by decide) (validWidth_ge w hw)) text ht r h

/-- Witness for C3 at word width 8: `"127"` gives `len = 1, data = [0x7F]`
and `"-1"` gives `len = 1, data = [0xFF]`, with values 127 and -1. -/
theorem fromStr_value_witness :
    (fromStr 8 "127".toList = .ok (BigInt.mk 0 1 [0x7F]) ∧ numeralValue "127".toList = 127 ∧
      value 8 (BigInt.mk 0 1 [0x7F]) = numeralValue "127".toList) ∧
    (fromStr 8 "-1".toList = .ok (BigInt.mk 0 1 [0xFF]) ∧ numeralValue "-1".toList = -1 ∧
      value 8 (BigInt.mk 0 1 [0xFF]) = numeralValue "-1".toList) :=
  ⟨⟨by decide, by decide,
      fromStr_value 8 (by decide) "127".toList (by decide) _ (by decide)⟩,
    ⟨by decide, by decide,
      fromStr_value 8 (by decide) "-1".toList (by decide) _ (by decide)⟩⟩

/-- C4: every `BigInt` returned by `fromStr` (on any input for which it
returns) and every `BigInt` returned by `add` (either mode, on any operands
of `len >= 1`, canonical or not) has `len >= 1`, holds `len` words, and is
canonical. -/
theorem producers_canonical (w : Nat) (hw : ValidWidth w) :
    (∀ (str : List Char) (r : BigInt), fromStr w str = .ok r →
        WellFormed w r ∧ Canonical w r) ∧
    (∀ (a b : BigInt) (negateb : Bool), WellFormed w a → WellFormed w b →
        WellFormed w (add w a b negateb) ∧ Canonical w (add w a b negateb)) :=
  ⟨fun str r h =>
      fromStr_wellFormed_canonical w (Nat.le_trans (by decide) (validWidth_ge w hw)) str r h,
    fun a b negateb ha hb =>
      add_wellFormed_canonical w (Nat.le_trans (by decide) (validWidth_ge w hw)) a b negateb
        ha hb⟩

/-- Witness for C4 at word width 8: the non-canonical operands
`[0x7F, 0x00]` and `[0xFF, 0xFF]` are added and subtracted to canonical
results, and `fromStr "128"` is canonical. -/
theorem producers_canonical_witness :
    ValidWidth 8 ∧ ¬ Canonical 8 (BigInt.mk 0 2 [0x7F, 0x00]) ∧
      Canonical 8 (add 8 (BigInt.mk 0 2 [0x7F, 0x00]) (BigInt.mk 0 2 [0xFF, 0xFF]) false) ∧
      Canonical 8 (add 8 (BigInt.mk 0 2 [0x7F, 0x00]) (BigInt.mk 0 2 [0xFF, 0xFF]) true) ∧
      (∀ r, fromStr 8 "128".toList = .ok r → Canonical 8 r) :=
  ⟨by decide, by decide,
    ((producers_canonical 8 (by decide)).2 _ _ false (by decide) (by decide)).2,
    ((producers_canonical 8 (by decide)).2 _ _ true (by decide) (by decide)).2,
    fun r h => ((producers_canonical 8 (by decide)).1 _ r h).2⟩

/-- C5 (the code diverges from the claim): the well-formed numeral `"-0"`
is not accepted.  At each of the four word widths `fromStr "-0"` stops at
`assert(len < cap)`: the negated buffer is all-zero, nothing is trimmed, and
the sign bit 0 differs from `negative = 1` with no room to re-append. -/
theorem fromStr_negative_zero_fatal :
    IsNumeral "-0".toList ∧
      fromStr 8 "-0".toList = .error Fatal.noRoom ∧
      fromStr 16 "-0".toList = .error Fatal.noRoom ∧
      fromStr 32 "-0".toList = .error Fatal.noRoom ∧
      fromStr 64 "-0".toList = .error Fatal.noRoom ∧
      fromStr 8 "-000".toList = .error Fatal.noRoom := by
  decide

/-- C6: for every text (the characters of a C string, hence free of NUL) that
contains a character other than an ASCII digit at any position other than a
single leading `-`, `fromStr` stops at an assertion (the digit check, or the
carry check before it is reached) and returns no `BigInt`. -/
theorem fromStr_rejects_malformed (w : Nat) (text : List Char)
    (hnul : ∀ c ∈ text, c.toNat ≠ 0) (hbad : ∃ c ∈ numeralDigits text, ¬ IsDigit c) :
    (fromStr w text = .error Fatal.notDigit ∨ fromStr w text = .error Fatal.carryOut) ∧
      ∀ r, fromStr w text ≠ .ok r := by
  have h := fromStr_rejects w text hnul hbad
  refine ⟨h, ?_⟩
  intro r hr
  rcases h with h | h <;> rw [h] at hr <;> cases hr

/-- Witness for C6: `"12a"` and `"--1"` are rejected at word width 8. -/
theorem fromStr_rejects_malformed_witness :
    fromStr 8 "12a".toList = .error Fatal.notDigit ∧
      (∀ r, fromStr 8 "12a".toList ≠ .ok r) ∧ (∀ r, fromStr 8 "--1".toList ≠ .ok r) :=
  ⟨by decide,
    (fromStr_rejects_malformed 8 "12a".toList (by decide) (by decide)).2,
    (fromStr_rejects_malformed 8 "--1".toList (by decide) (by decide)).2⟩

/-- C7 (the code diverges from the claim): at word width 8, with the
canonical operands `a = [0xFF]` (what `fromStr "-1"` returns) and
`b = [0x00, 0x01]` (what `fromStr "256"` returns), `add(a, b, false)` is
`[0xFF, 0x01]` while `add(b, a, false)` is `[0xFF, 0x00]`. -/
theorem add_not_commutative :
    fromStr 8 "-1".toList = .ok (BigInt.mk 0 1 [0xFF]) ∧
      fromStr 8 "256".toList = .ok (BigInt.mk 0 2 [0x00, 0x01]) ∧
      Canonical 8 (BigInt.mk 0 1 [0xFF]) ∧ Canonical 8 (BigInt.mk 0 2 [0x00, 0x01]) ∧
      add 8 (BigInt.mk 0 1 [0xFF]) (BigInt.mk 0 2 [0x00, 0x01]) false
        = BigInt.mk 0 2 [0xFF, 0x01] ∧
      add 8 (BigInt.mk 0 2 [0x00, 0x01]) (BigInt.mk 0 1 [0xFF]) false
        = BigInt.mk 0 2 [0xFF, 0x00] := by
  decide

/-- C8 (the code diverges from the claim): at word width 8, with the
canonical operands `a = [0xFF]` (value -1) and `b = [0x80]` (value -128),
`add(a, b, true)` is `len = 1, data = [0x7F]` while
`add(a, add(zero, b, true), false)` is `len = 2, data = [0x7F, 0x01]`. -/
theorem sub_differs_from_negated_add :
    Canonical 8 (BigInt.mk 0 1 [0xFF]) ∧ Canonical 8 (BigInt.mk 0 1 [0x80]) ∧
      add 8 zero (BigInt.mk 0 1 [0x80]) true = BigInt.mk 0 2 [0x80, 0x00] ∧
      add 8 (BigInt.mk 0 1 [0xFF]) (BigInt.mk 0 1 [0x80]) true = BigInt.mk 0 1 [0x7F] ∧
      add 8 (BigInt.mk 0 1 [0xFF]) (add 8 zero (BigInt.mk 0 1 [0x80]) true) false
        = BigInt.mk 0 2 [0x7F, 0x01] := by
  decide

/-- C9: for every canonical `BigInt` `a`, `add(a, zero, false)` has exactly
the `len` and the data words of `a`. -/
theorem add_zero_identity (w : Nat) (hw : ValidWidth w) (a : BigInt) (ha : WellFormed w a)
    (hc : Canonical w a) :
    (add w a zero false).len = a.len ∧ (add w a zero false).data = a.data := by
  rw [add_zero_eq w (Nat.le_trans (by decide) (validWidth_ge w hw)) a ha hc]
  exact ⟨rfl, rfl⟩

/-- Witness for C9: the canonical three-word operand `[0x12, 0x80, 0x00]` at
word width 8. -/
theorem add_zero_identity_witness :
    Canonical 8 (BigInt.mk 0 3 [0x12, 0x80, 0x00]) ∧
      (add 8 (BigInt.mk 0 3 [0x12, 0x80, 0x00]) zero false).len = 3 ∧
      (add 8 (BigInt.mk 0 3 [0x12, 0x80, 0x00]) zero false).data = [0x12, 0x80, 0x00] :=
  ⟨by decide, add_zero_identity 8 (by decide) (BigInt.mk 0 3 [0x12, 0x80, 0x00]) (by decide)
    (by decide)⟩

/-- C10: for every `BigInt` `a` with `len >= 1` (any sign, any length,
canonical or not), `add(a, a, true)` is exactly `len = 1, data = [0]`. -/
theorem add_self_is_zero (w : Nat) (hw : ValidWidth w) (a : BigInt) (ha : WellFormed w a) :
    (add w a a true).len = 1 ∧ (add w a a true).data = [0] := by
  rw [add_self_eq w (Nat.le_trans (by decide) (validWidth_ge w hw)) a ha]
  exact ⟨rfl, rfl⟩

/-- Witness for C10: the three-word negative operand `[0x12, 0x80, 0xFF]` at
word width 8. -/
theorem add_self_is_zero_witness :
    WellFormed 8 (BigInt.mk 0 3 [0x12, 0x80, 0xFF]) ∧
      (add 8 (BigInt.mk 0 3 [0x12, 0x80, 0xFF]) (BigInt.mk 0 3 [0x12, 0x80, 0xFF]) true).len = 1 ∧
      (add 8 (BigInt.mk 0 3 [0x12, 0x80, 0xFF]) (BigInt.mk 0 3 [0x12, 0x80, 0xFF]) true).data
        = [0] :=
  ⟨by decide, add_self_is_zero 8 (by decide) (BigInt.mk 0 3 [0x12, 0x80, 0xFF]) (by decide)⟩

/-- C11: for every pair of non-negative `BigInt`s `a` and `b` (canonical or
not), `add(a, b, false)` is non-negative (the top bit of its most-significant
word is 0) and its value is `value(a) + value(b)`. -/
theorem add_nonneg_grows (w : Nat) (hw : ValidWidth w) (a b : BigInt)
    (ha : WellFormed w a) (hb : WellFormed w b)
    (hsa : HI_BIT w (a.data.getD (a.len - 1) 0) = 0)
    (hsb : HI_BIT w (b.data.getD (b.len - 1) 0) = 0) :
    HI_BIT w ((add w a b false).data.getD ((add w a b false).len - 1) 0) = 0 ∧
      value w (add w a b false) = value w a + value w b :=
  ⟨add_nonneg_sign w (Nat.le_trans (by decide) (validWidth_ge w hw)) a b ha hb hsa hsb,
    add_value_nonneg_first w (Nat.le_trans (by decide) (validWidth_ge w hw)) a b ha hb hsa⟩

/-- Witness for C11 at word width 8: `fromStr "127"` added to itself is
`len = 2, data = [0xFE, 0x00]`, of value 254. -/
theorem add_nonneg_grows_witness :
    fromStr 8 "127".toList = .ok (BigInt.mk 0 1 [0x7F]) ∧
      add 8 (BigInt.mk 0 1 [0x7F]) (BigInt.mk 0 1 [0x7F]) false = BigInt.mk 0 2 [0xFE, 0x00] ∧
      value 8 (BigInt.mk 0 1 [0x7F]) + value 8 (BigInt.mk 0 1 [0x7F]) = 254 ∧
      (HI_BIT 8 ((add 8 (BigInt.mk 0 1 [0x7F]) (BigInt.mk 0 1 [0x7F]) false).data.getD
          ((add 8 (BigInt.mk 0 1 [0x7F]) (BigInt.mk 0 1 [0x7F]) false).len - 1) 0) = 0 ∧
        value 8 (add 8 (BigInt.mk 0 1 [0x7F]) (BigInt.mk 0 1 [0x7F]) false)
          = value 8 (BigInt.mk 0 1 [0x7F]) + value 8 (BigInt.mk 0 1 [0x7F])) :=
  ⟨by decide, by decide, by decide,
    add_nonneg_grows 8 (by decide) (BigInt.mk 0 1 [0x7F]) (BigInt.mk 0 1 [0x7F]) (by decide)
      (by decide) (by decide) (by decide)⟩

/-- C12 (the claim as stated fails): at word width 8 `fromStr "128"` does not
return the data words `[0x00, 0x80]` listed least-significant word first. -/
theorem fromStr_128_not_msw_first :
    ¬ ∃ r, fromStr 8 "128".toList = .ok r ∧ r.len = 2 ∧ r.data = [0x00, 0x80] := by
  rintro ⟨r, h, _, hd⟩
  have e : fromStr 8 "128".toList = .ok (BigInt.mk 0 2 [0x80, 0x00]) := by decide
  rw [e] at h
  cases h
  exact absurd hd (by decide)

/-- C12 (amended): at word width 8 `fromStr "128"` returns `len = 2` with the
data words, least-significant word first, `data[0] = 0x80`, `data[1] = 0x00`
(read most-significant word first: `00 80`); its value is 128. -/
theorem fromStr_128 :
    fromStr 8 "128".toList = .ok (BigInt.mk 0 2 [0x80, 0x00]) ∧
      (BigInt.mk 0 2 [0x80, 0x00]).data.getD 0 0 = 0x80 ∧
      (BigInt.mk 0 2 [0x80, 0x00]).data.getD 1 0 = 0x00 ∧
      value 8 (BigInt.mk 0 2 [0x80, 0x00]) = 128 := by
  decide

/-- C13: for all words `a`, `b`, `c` of width `w`, `addAndCarry` stores
`s = (a + b + c) mod 2^w` and returns a carry `k` in `{0, 1, 2}` with
`a + b + c = s + k * 2^w`; when `c <= 1` the carry is at most 1. -/
theorem addAndCarry_contract (w a b c : Nat) (ha : a < 2 ^ w) (hb : b < 2 ^ w)
    (hc : c < 2 ^ w) :
    (addAndCarry w a b c).2 = (a + b + c) % 2 ^ w ∧
      (addAndCarry w a b c).1 ≤ 2 ∧
      a + b + c = (addAndCarry w a b c).2 + (addAndCarry w a b c).1 * 2 ^ w ∧
      (c ≤ 1 → (addAndCarry w a b c).1 ≤ 1) :=
  ⟨addAndCarry_mod w a b c ha hb hc, addAndCarry_carry_le_two w a b c,
    (addAndCarry_spec w a b c ha hb hc).1.symm,
    addAndCarry_carry_le_one_of_word w a b c ha hb hc⟩

/-- Witness for C13 at word width 8: `0xFF + 0xFF + 0xFF` stores `0xFD` with
carry 2, and `0xFF + 0xFF + 1` stores `0xFF` with carry 1. -/
theorem addAndCarry_contract_witness :
    addAndCarry 8 0xFF 0xFF 0xFF = (2, 0xFD) ∧ addAndCarry 8 0xFF 0xFF 1 = (1, 0xFF) ∧
      0xFF + 0xFF + 0xFF = (addAndCarry 8 0xFF 0xFF 0xFF).2 +
        (addAndCarry 8 0xFF 0xFF 0xFF).1 * 2 ^ 8 ∧
      (addAndCarry 8 0xFF 0xFF 1).1 ≤ 1 :=
  ⟨by decide, by decide,
    (addAndCarry_contract 8 0xFF 0xFF 0xFF (by decide) (by decide) (by decide)).2.2.1,
    (addAndCarry_contract 8 0xFF 0xFF 1 (by decide) (by decide) (by decide)).2.2.2
      (by decide)⟩

/-- C14: for operands of `len >= 1` and either mode, the result `r` of `add`
has `1 <= len(r) <= max(len(a), len(b)) + 1`, and
`len(r) = max(len(a), len(b)) + 1` exactly when the overflow test fires
(`len(a) >= 1` is all the bound needs). -/
theorem add_len_bound (w : Nat) (a b : BigInt) (negateb : Bool) (ha : 1 ≤ a.len) :
    1 ≤ (add w a b negateb).len ∧ (add w a b negateb).len ≤ max a.len b.len + 1 ∧
      ((add w a b negateb).len = max a.len b.len + 1 ↔ overflowed w a b negateb = true) :=
  add_len_cases w a b negateb ha

/-- Witness for C14 at word width 8: `127 + 127` overflows and has 2 words,
`[0xFF, 0x7F, 0x00] + [0x01]` does not overflow and keeps 3 words, and
`[0x80, 0xFF, 0xFF] + [0x01]` shrinks to 1 word. -/
theorem add_len_bound_witness :
    (overflowed 8 (BigInt.mk 0 1 [0x7F]) (BigInt.mk 0 1 [0x7F]) false = true ∧
      (add 8 (BigInt.mk 0 1 [0x7F]) (BigInt.mk 0 1 [0x7F]) false).len = 2) ∧
    (overflowed 8 (BigInt.mk 0 3 [0xFF, 0x7F, 0x00]) (BigInt.mk 0 1 [0x01]) false = false ∧
      (add 8 (BigInt.mk 0 3 [0xFF, 0x7F, 0x00]) (BigInt.mk 0 1 [0x01]) false).len = 3) ∧
    (add 8 (BigInt.mk 0 3 [0x80, 0xFF, 0xFF]) (BigInt.mk 0 1 [0x01]) false).len = 1 ∧
    (1 ≤ (add 8 (BigInt.mk 0 3 [0x80, 0xFF, 0xFF]) (BigInt.mk 0 1 [0x01]) false).len ∧
      (add 8 (BigInt.mk 0 3 [0x80, 0xFF, 0xFF]) (BigInt.mk 0 1 [0x01]) false).len ≤ 3 + 1) :=
  ⟨by decide, by decide, by decide,
    ⟨(add_len_bound 8 (BigInt.mk 0 3 [0x80, 0xFF, 0xFF]) (BigInt.mk 0 1 [0x01]) false
        (by decide)).1,
      (add_len_bound 8 (BigInt.mk 0 3 [0x80, 0xFF, 0xFF]) (BigInt.mk 0 1 [0x01]) false
        (by decide)).2.1⟩⟩

/-- C15: for every well-formed numeral (an optional `-` followed by one or
more digits), with `cap = 1 + floor(floor(7 * strlen(text) / 2) / w)`, the
magnitude denoted by the digits is below `2 ^ (cap * w - 1)`, the digit loop
runs through with every `carry == 0` check passing, and `fromStr` does not
end in that assertion. -/
theorem capacity_never_underallocates (w : Nat) (hw : ValidWidth w) (text : List Char)
    (ht : IsNumeral text) :
    digitsValue (numeralDigits text) < 2 ^ ((1 + (strlen text * 7 / 2) / w) * w - 1) ∧
      (∃ data1, digitLoop w (1 + (strlen text * 7 / 2) / w) (numeralDigits text)
          (List.replicate (1 + (strlen text * 7 / 2) / w) 0) = .ok data1 ∧
        uval w data1 = digitsValue (numeralDigits text)) ∧
      fromStr w text ≠ .error Fatal.carryOut := by
  have h8 := validWidth_ge w hw
  refine ⟨digitsValue_lt_cap w h8 text ht, ?_, fromStr_no_carryOut w h8 text ht⟩
  obtain ⟨data1, hd, _, _, hv, _⟩ := digitLoop_numeral w h8 text ht
  exact ⟨data1, hd, hv⟩

/-- Witness for C15 at word width 8: `"99"` has `cap = 1` and 99 is below
`2 ^ 7`; `"-255"` has `cap = 2` and 255 is below `2 ^ 15`. -/
theorem capacity_never_underallocates_witness :
    1 + (strlen "99".toList * 7 / 2) / 8 = 1 ∧ digitsValue (numeralDigits "99".toList) = 99 ∧
      digitsValue (numeralDigits "99".toList)
        < 2 ^ ((1 + (strlen "99".toList * 7 / 2) / 8) * 8 - 1) ∧
      digitsValue (numeralDigits "-255".toList)
        < 2 ^ ((1 + (strlen "-255".toList * 7 / 2) / 8) * 8 - 1) ∧
      fromStr 8 "-255".toList ≠ .error Fatal.carryOut :=
  ⟨by decide, by decide,
    (capacity_never_underallocates 8 (by decide) "99".toList (by decide)).1,
    (capacity_never_underallocates 8 (by decide) "-255".toList (by decide)).1,
    (capacity_never_underallocates 8 (by decide) "-255".toList (by decide)).2.2⟩

/-- C16 (the code diverges from the claim): at word width 8, with
`a = [0xFF]` (value -1) shorter than `b = [0x00, 0x01]` (value 256) and
`a' = [0xFF, 0xFF]` (`a` widened with an all-one word), `add(a, b, false)` is
`[0xFF, 0x01]` while `add(a', b, false)` is `[0xFF, 0x00]`: the result word at
index 1 is `b[1] + 0 + carry`, not `b[1] + 0xFF + carry`. -/
theorem add_short_negative_not_sign_extended :
    HI_BIT 8 ((BigInt.mk 0 1 [0xFF]).data.getD 0 0) = 1 ∧
      add 8 (BigInt.mk 0 1 [0xFF]) (BigInt.mk 0 2 [0x00, 0x01]) false
        = BigInt.mk 0 2 [0xFF, 0x01] ∧
      add 8 (BigInt.mk 0 2 [0xFF, 0xFF]) (BigInt.mk 0 2 [0x00, 0x01]) false
        = BigInt.mk 0 2 [0xFF, 0x00] ∧
      (addLoops 8 (BigInt.mk 0 1 [0xFF]) (BigInt.mk 0 2 [0x00, 0x01]) false).2.getD 1 0
        = (0x01 + 0 + 0) % 2 ^ 8 ∧
      (addLoops 8 (BigInt.mk 0 1 [0xFF]) (BigInt.mk 0 2 [0x00, 0x01]) false).2.getD 1 0
        ≠ (0x01 + 0xFF + 0) % 2 ^ 8 := by
  decide

/-- C17: one digit step of `fromStr` over a buffer of `cap >= 1` words
holding `V`, with a digit `d` in `0..9`, leaves `V'` and a final carry `k`
with `V' + k * 2^(cap*w) = 10*V + d`; the carry out of each word is the top
three bits plus the top bit of the old word plus the carry returned by
`addAndCarry`, and every carry between words is at most 9. -/
theorem mulTenAdd_step (w : Nat) (hw : ValidWidth w) (cap : Nat) (hcap : 1 ≤ cap)
    (data : List Nat) (d : Nat) (hd : d ≤ 9) (hlen : data.length = cap)
    (hall : ∀ x ∈ data, x < 2 ^ w) :
    (mulTenAdd w cap data d).2.length = cap ∧
      (∀ x ∈ (mulTenAdd w cap data d).2, x < 2 ^ w) ∧
      uval w (mulTenAdd w cap data d).2 + (mulTenAdd w cap data d).1 * 2 ^ (cap * w)
        = 10 * uval w data + d ∧
      mulTenAdd w cap data d = mulTenAddUpTo w data d (cap - 1) ∧
      (mulTenAddUpTo w data d 0).1 =
        HI_3_BITS w (data.getD 0 0) + HI_BIT w (data.getD 0 0) +
          (addAndCarry w (shlWord w (data.getD 0 0) 3) (shlWord w (data.getD 0 0) 1)
            (toWord w d)).1 ∧
      (∀ n, n + 1 < cap → (mulTenAddUpTo w data d (n + 1)).1 =
        HI_3_BITS w (data.getD (n + 1) 0) + HI_BIT w (data.getD (n + 1) 0) +
          (addAndCarry w (shlWord w (data.getD (n + 1) 0) 3)
            (shlWord w (data.getD (n + 1) 0) 1) (toWord w (mulTenAddUpTo w data d n).1)).1) ∧
      (∀ n, n < cap → (mulTenAddUpTo w data d n).1 ≤ 9) := by
  have h4 : 4 ≤ w := Nat.le_trans (by decide) (validWidth_ge w hw)
  obtain ⟨s1, s2, s3⟩ := mulTenAdd_spec w cap h4 hcap data d hd hlen hall
  rw [Nat.mul_comm w cap] at s3
  exact ⟨s1, s2, s3, rfl, rfl,
    fun n hn => mulTenAddUpTo_carry_succ w cap h4 data d hd hlen hall n hn,
    fun n hn => mulTenAddUpTo_carry_le w cap h4 data d hd hlen hall n hn⟩

/-- Witness for C17 at word width 8: the buffer `[0xFF, 0x00]` (255) with the
digit 9 becomes `[0xFF, 0x09]` (2559) with final carry 0, the carry out of
word 0 being 9. -/
theorem mulTenAdd_step_witness :
    mulTenAdd 8 2 [0xFF, 0x00] 9 = (0, [0xFF, 0x09]) ∧
      (mulTenAddUpTo 8 [0xFF, 0x00] 9 0).1 = 9 ∧
      uval 8 (mulTenAdd 8 2 [0xFF, 0x00] 9).2 + (mulTenAdd 8 2 [0xFF, 0x00] 9).1 * 2 ^ (2 * 8)
        = 10 * uval 8 [0xFF, 0x00] + 9 :=
  ⟨by decide, by decide,
    (mulTenAdd_step 8 (by decide) 2 (by decide) [0xFF, 0x00] 9 (by decide) (by decide)
      (by decide)).2.2.1⟩

/-- C18: for every `a` whose sign bit is 0 and every `b` (any sign, any
length, shorter or longer than `a`), `add(a, b, false)` has value
`value(a) + value(b)` and `add(a, b, true)` has value `value(a) - value(b)`. -/
theorem add_exact_nonneg_first (w : Nat) (hw : ValidWidth w) (a b : BigInt)
    (ha : WellFormed w a) (hb : WellFormed w b)
    (hsa : HI_BIT w (a.data.getD (a.len - 1) 0) = 0) :
    value w (add w a b false) = value w a + value w b ∧
      value w (add w a b true) = value w a - value w b :=
  ⟨add_value_nonneg_first w (Nat.le_trans (by decide) (validWidth_ge w hw)) a b ha hb hsa,
    sub_value_nonneg_first w (Nat.le_trans (by decide) (validWidth_ge w hw)) a b ha hb hsa⟩

/-- Witness for C18 at word width 8: `a = [0x01]` (1) and the longer negative
`b = [0x00, 0x80]` (-32768) give -32767 and, with growth, 32769. -/
theorem add_exact_nonneg_first_witness :
    value 8 (BigInt.mk 0 1 [0x01]) = 1 ∧ value 8 (BigInt.mk 0 2 [0x00, 0x80]) = -32768 ∧
      add 8 (BigInt.mk 0 1 [0x01]) (BigInt.mk 0 2 [0x00, 0x80]) true
        = BigInt.mk 0 3 [0x01, 0x80, 0x00] ∧
      (value 8 (add 8 (BigInt.mk 0 1 [0x01]) (BigInt.mk 0 2 [0x00, 0x80]) false)
          = value 8 (BigInt.mk 0 1 [0x01]) + value 8 (BigInt.mk 0 2 [0x00, 0x80]) ∧
        value 8 (add 8 (BigInt.mk 0 1 [0x01]) (BigInt.mk 0 2 [0x00, 0x80]) true)
          = value 8 (BigInt.mk 0 1 [0x01]) - value 8 (BigInt.mk 0 2 [0x00, 0x80])) :=
  ⟨by decide, by decide, by decide,
    add_exact_nonneg_first 8 (by decide) (BigInt.mk 0 1 [0x01]) (BigInt.mk 0 2 [0x00, 0x80])
      (by decide) (by decide) (by decide)⟩

/-- C19: for `len(a) >= len(b) >= 1` and either mode, if the exact result `R`
(`value(a) + value(b)`, or `value(a) - value(b)` when `negateb`) lies in
`[-2^(w*len(a) - 1), 2^(w*len(a) - 1))`, then the overflow test does not fire
and `add` has value `R`. -/
theorem add_exact_in_range (w : Nat) (hw : ValidWidth w) (a b : BigInt) (negateb : Bool)
    (ha : WellFormed w a) (hb : WellFormed w b) (hlen : b.len ≤ a.len)
    (hlo : -(2 : Int) ^ (w * a.len - 1)
      ≤ (if negateb then value w a - value w b else value w a + value w b))
    (hhi : (if negateb then value w a - value w b else value w a + value w b)
      < (2 : Int) ^ (w * a.len - 1)) :
    overflowed w a b negateb = false ∧
      value w (add w a b negateb)
        = (if negateb then value w a - value w b else value w a + value w b) := by
  have h2 : 2 ≤ w := Nat.le_trans (by decide) (validWidth_ge w hw)
  cases negateb
  · simp only [Bool.false_eq_true, if_false] at hlo hhi ⊢
    exact add_value_in_range w h2 a b ha hb hlen hlo hhi
  · simp only [if_true] at hlo hhi ⊢
    exact sub_value_in_range w h2 a b ha hb hlen hlo hhi

/-- Witness for C19 at word width 8: `a = [0x00, 0x80]` (-32768) and
`b = [0xFF]` (-1); the difference -32767 fits two words, the overflow test
does not fire and the result has that value. -/
theorem add_exact_in_range_witness :
    value 8 (BigInt.mk 0 2 [0x00, 0x80]) - value 8 (BigInt.mk 0 1 [0xFF]) = -32767 ∧
      (overflowed 8 (BigInt.mk 0 2 [0x00, 0x80]) (BigInt.mk 0 1 [0xFF]) true = false ∧
        value 8 (add 8 (BigInt.mk 0 2 [0x00, 0x80]) (BigInt.mk 0 1 [0xFF]) true)
          = (if true = true then
              value 8 (BigInt.mk 0 2 [0x00, 0x80]) - value 8 (BigInt.mk 0 1 [0xFF])
            else value 8 (BigInt.mk 0 2 [0x00, 0x80]) + value 8 (BigInt.mk 0 1 [0xFF]))) :=
  ⟨by decide,
    add_exact_in_range 8 (by decide) (BigInt.mk 0 2 [0x00, 0x80]) (BigInt.mk 0 1 [0xFF]) true
      (by decide) (by decide) (by decide) (by decide) (by decide)⟩

/-- C20: for operands of `len >= 1` words and either mode, every array access
of `add` stays inside the buffer it addresses (the bounds-checked function
returns the result of `add`: each loop index is below
`max(len(a), len(b))`), and in the non-overflow branch the re-append write
happens only after a word was trimmed, at an index below
`max(len(a), len(b))`. -/
theorem add_accesses_in_bounds (w : Nat) (a b : BigInt) (negateb : Bool)
    (ha1 : 1 ≤ a.len) (hal : a.data.length = a.len)
    (hb1 : 1 ≤ b.len) (hbl : b.data.length = b.len) :
    addChecked w a b negateb = some (add w a b negateb) ∧
      (HI_BIT w ((addLoops w a b negateb).2.getD
          (trimLoop (addLoops w a b negateb).2
            (negWord w (HI_BIT w ((addLoops w a b negateb).2.getD (max a.len b.len - 1) 0)))
            (max a.len b.len) - 1) 0)
        ≠ HI_BIT w ((addLoops w a b negateb).2.getD (max a.len b.len - 1) 0) →
        trimLoop (addLoops w a b negateb).2
          (negWord w (HI_BIT w ((addLoops w a b negateb).2.getD (max a.len b.len - 1) 0)))
          (max a.len b.len) < max a.len b.len) :=
  ⟨addChecked_eq w a b negateb ha1 hal hb1 hbl,
    add_reappend_index w _ _ (Nat.le_trans ha1 (Nat.le_max_left _ _))⟩

/-- Witness for C20 at word width 8: `[0xFF, 0x7F, 0x00] + [0x01]` trims one
word and re-appends it at index 2, inside the three-word buffer; a `BigInt`
whose `len` exceeds its data is caught by the bounds check. -/
theorem add_accesses_in_bounds_witness :
    addChecked 8 (BigInt.mk 0 2 [0x01]) (BigInt.mk 0 1 [0x01]) false = none ∧
      trimLoop (addLoops 8 (BigInt.mk 0 3 [0xFF, 0x7F, 0x00]) (BigInt.mk 0 1 [0x01]) false).2
        (negWord 8 0) 3 = 2 ∧
      addChecked 8 (BigInt.mk 0 3 [0xFF, 0x7F, 0x00]) (BigInt.mk 0 1 [0x01]) false
        = some (add 8 (BigInt.mk 0 3 [0xFF, 0x7F, 0x00]) (BigInt.mk 0 1 [0x01]) false) :=
  ⟨by decide, by decide,
    (add_accesses_in_bounds 8 (BigInt.mk 0 3 [0xFF, 0x7F, 0x00]) (BigInt.mk 0 1 [0x01]) false
      (by decide) (by decide) (by decide) (by decide)).1⟩

end BigIntC
